import Mathlib

/-!
# backbone.stickit.parser.js: declaration compiler and specification lowerer

A shallow embedding of `src/backbone.stickit.parser.js`.

Modelling conventions.

* A JavaScript string is a `List Char` (`Str`).  Every separator and every
  character class used by the parser is ASCII, so the difference between UTF-16
  code units and Unicode scalar values is never observed by the code.
* A JavaScript object is the list of its own enumerable properties in
  enumeration order (`jsObjSet` implements property assignment).
* A function that mutates the object it is handed and may throw returns the
  object as it is after the call together with the thrown value, if any.
* `undefined` is `none`; reading a property of `undefined` is `JsThrow.typeError`.
-/

namespace StickItParser

/-- A JavaScript string. -/
abbrev Str := List Char

/-! ## Constants of the module -/

def FILTER_CHAR : Str := ['-']
def FORMATTER_CHAR : Str := ['+']
def STICKIT_ONGET : Str := "onGet".toList
def STICKIT_ONSET : Str := "onSet".toList
def STICKIT_UPDATE_VIEW : Str := "updateView".toList
def STICKIT_UPDATE_MODEL : Str := "updateModel".toList

/-! ## Thrown values -/

/-- The exception object built by `BindingParseException(message, value)`. -/
structure BindingParseException where
  message : Str
  value : Str
deriving DecidableEq, Repr

/-- What a call can throw: a `BindingParseException`, or the engine's
`TypeError` (a property read on `undefined`, a call of a non-function). -/
inductive JsThrow where
  | bindingParse (e : BindingParseException)
  | typeError
deriving DecidableEq, Repr

deriving instance DecidableEq for Except

/-! ## JavaScript built-ins used by the parser -/

/-- `s.split(sep)` for a one-character separator string: every occurrence of
`sep` cuts; the empty string gives one empty segment. -/
def jsSplit (sep : Char) : Str → List Str
  | [] => [[]]
  | c :: cs =>
    if c = sep then [] :: jsSplit sep cs
    else
      match jsSplit sep cs with
      | [] => [[c]]
      | h :: t => (c :: h) :: t

/-- `list.join(sep)` for a list of strings. -/
def jsJoin (sep : Char) (l : List Str) : Str :=
  List.intercalate [sep] l

/-- `_.rest(array, n)`: the elements from index `n` on. -/
def rest {α : Type} (array : List α) (n : Nat) : List α :=
  array.drop n

/-- `s.indexOf(c)` for a one-character string `c`: the first index, or `-1`. -/
def jsIndexOf (c : Char) (s : Str) : Int :=
  if c ∈ s then (s.indexOf c : Nat) else -1

/-- The loop `_.each(list, ...)` whose body is `target.push(element)`. -/
def pushEach {α : Type} (target : List α) (list : List α) : List α :=
  list.foldl (fun acc element => acc ++ [element]) target

/-- The character class `[A-Za-z0-9_]`. -/
def isWordChar (c : Char) : Bool :=
  ('A' ≤ c && c ≤ 'Z') || ('a' ≤ c && c ≤ 'z') || ('0' ≤ c && c ≤ '9') || c == '_'

/-- The character class `[+\-]`. -/
def isSymbolChar (c : Char) : Bool :=
  c == '+' || c == '-'

/-- One attempt of `/[+\-][A-Za-z0-9_]+|[A-Za-z0-9_]+[+\-]/` anchored at the
start of `s`, giving the matched text.  The first alternative is tried first;
`+` is greedy, and giving back characters of a run never helps, because the
character after a shortened run is a word character and not a symbol. -/
def validREAt (s : Str) : Option Str :=
  match s with
  | [] => none
  | c :: cs =>
    if isSymbolChar c && !(cs.takeWhile isWordChar).isEmpty then
      some (c :: cs.takeWhile isWordChar)
    else
      match s.takeWhile isWordChar, s.dropWhile isWordChar with
      | r :: rs, d :: _ => if isSymbolChar d then some ((r :: rs) ++ [d]) else none
      | _, _ => none

/-- The call `s.match(validRE)` (no `g` flag): the leftmost match, `none` for `null`. -/
def matchValidRE : Str → Option Str
  | [] => none
  | c :: cs =>
    match validREAt (c :: cs) with
    | some m => some m
    | none => matchValidRE cs

/-- The call `s.match(/[A-Za-z0-9_]+/)`: the leftmost maximal run of word characters. -/
def matchNameRE : Str → Option Str
  | [] => none
  | c :: cs =>
    if isWordChar c then some (c :: cs.takeWhile isWordChar) else matchNameRE cs

/-- The inner function `_isValidFilterDeclaration`.  The match array of a
regular expression without groups has length 1, so `matched.length === 1`
holds whenever `matched` is not `null`. -/
def _isValidFilterDeclaration (s : Str) : Bool :=
  match matchValidRE s with
  | none => false
  | some m => m.length == s.length

/-! ## The canonical binding specification -/

/-- A filter specification: `name`, `type` and `target` are strings in the source. -/
structure FilterSpecification where
  name : Str
  type : Str
  target : Str
deriving DecidableEq, Repr

/-- The object stored under one operand; every property is optional. -/
structure OperandSpec where
  model : Option Str := none
  attributes : Option (List Str) := none
  filters : Option (List FilterSpecification) := none
  types : Option (List Str) := none
  modelNames : Option (List Str) := none
deriving DecidableEq, Repr

/-- The digits of a canonical array index (`"0"`, or digits without a leading
zero, below `2^32 - 1`), as a number. -/
def arrayIndex? (k : Str) : Option Nat :=
  match k with
  | [] => none
  | c :: cs =>
    if (c :: cs).all Char.isDigit && (c != '0' || cs.isEmpty) then
      let n := (c :: cs).foldl (fun acc d => 10 * acc + (d.toNat - 48)) 0
      if n < 2 ^ 32 - 1 then some n else none
    else none

/-- Own-property enumeration order: array-index keys first, ascending; the
other keys after them, in creation order.  `keyBefore k k2` says that a newly
created `k` is enumerated before an existing `k2`. -/
def keyBefore (k k2 : Str) : Bool :=
  match arrayIndex? k, arrayIndex? k2 with
  | some n, some m => n < m
  | some _, none => true
  | none, _ => false

/-- Creation of a property that the object does not have yet. -/
def jsObjInsertNew {β : Type} (k : Str) (v : β) : List (Str × β) → List (Str × β)
  | [] => [(k, v)]
  | (k2, v2) :: o =>
    if keyBefore k k2 then (k, v) :: (k2, v2) :: o
    else (k2, v2) :: jsObjInsertNew k v o

/-- Replacement of the value of an existing own property (its place is kept). -/
def jsObjReplace {β : Type} (k : Str) (v : β) : List (Str × β) → List (Str × β)
  | [] => []
  | (k2, v2) :: o =>
    if k2 = k then (k2, v) :: o else (k2, v2) :: jsObjReplace k v o

/-- Whether `k` is an own property. -/
def jsObjHas {β : Type} (o : List (Str × β)) (k : Str) : Bool :=
  o.any (fun p => p.1 == k)

/-- Property read `o[k]` on own properties; `none` is `undefined`. -/
def jsObjGet {β : Type} (o : List (Str × β)) (k : Str) : Option β :=
  match o with
  | [] => none
  | (k2, v2) :: o2 => if k2 = k then some v2 else jsObjGet o2 k

/-- The assignment `o[k] = v` on an ordinary object.  Assigning to
`__proto__` replaces the prototype and creates no own property. -/
def jsObjSet {β : Type} (o : List (Str × β)) (k : Str) (v : β) : List (Str × β) :=
  if k = "__proto__".toList then o
  else if jsObjHas o k then jsObjReplace k v o
  else jsObjInsertNew k v o

/-- The canonical binding specification: operand name to operand object. -/
abbrev BindingSpecification := List (Str × OperandSpec)

/-! ## The parser -/

/-- `_parseModelQualifierDeclaration`: returns the operand object after the
call and the returned declaration (`none` for `undefined`). -/
def _parseModelQualifierDeclaration (bindingSpecification : OperandSpec)
    (bindingDeclaration : Str) : OperandSpec × Option Str :=
  let modelParamList := jsSplit '#' bindingDeclaration
  if modelParamList.length > 1 then
    ({ bindingSpecification with model := modelParamList[0]? }, modelParamList[1]?)
  else
    (bindingSpecification, modelParamList[0]?)

/-- `_parseModelAttributeDeclaration`: the operand object after the call, and
either the thrown value or the returned declaration (`none` for `undefined`). -/
def _parseModelAttributeDeclaration (bindingSpecification : OperandSpec)
    (bindingDeclaration : Option Str) : OperandSpec × Except JsThrow (Option Str) :=
  match bindingDeclaration with
  | none => (bindingSpecification, .error .typeError)
  | some declaration =>
    let attributeAndFilterList := jsSplit '|' declaration
    match attributeAndFilterList with
    | [] =>
      (bindingSpecification, .error (.bindingParse
        ⟨"at least one model attribute is required".toList, declaration⟩))
    | head :: _ =>
      let attributesList := jsSplit '+' head
      let spec := { bindingSpecification with attributes := some (pushEach [] attributesList) }
      if attributeAndFilterList.length = 1 then
        (spec, .ok none)
      else
        let filters := rest attributeAndFilterList 1
        (spec, .ok (some (jsJoin '|' filters)))

/-- The body of the `_.each` callback of `_parseFilterDeclaration` up to the
`push`: validation of one token and construction of its filter specification. -/
def filterSpecificationOf (element : Str) : Except JsThrow FilterSpecification :=
  if !_isValidFilterDeclaration element then
    .error (.bindingParse ⟨"bad filter format".toList, element⟩)
  else
    match matchNameRE element with
    | none => .error .typeError
    | some name =>
      let ffIndex := jsIndexOf '-' element
      if ffIndex ≠ -1 then
        .ok { name := name, type := FILTER_CHAR,
              target := if ffIndex = 0 then "dom".toList else "model".toList }
      else
        let ffIndex := jsIndexOf '+' element
        .ok { name := name, type := FORMATTER_CHAR,
              target := if ffIndex = 0 then "dom".toList else "model".toList }

/-- The loop `_.each(filterParamList, ...)`: the tokens are handled left to
right, each pushing onto `filters`; a throw leaves what was pushed so far. -/
def eachFilter (bindingSpecification : OperandSpec) :
    List Str → OperandSpec × Option JsThrow
  | [] => (bindingSpecification, none)
  | element :: list =>
    match filterSpecificationOf element with
    | .error e => (bindingSpecification, some e)
    | .ok filterSpecification =>
      match bindingSpecification.filters with
      | none => (bindingSpecification, some .typeError)
      | some filters =>
        eachFilter { bindingSpecification with filters := some (filters ++ [filterSpecification]) }
          list

/-- `_parseFilterDeclaration`: the operand object after the call and the
thrown value, if any (the function returns `undefined`). -/
def _parseFilterDeclaration (bindingSpecification : OperandSpec)
    (bindingDeclaration : Option Str) : OperandSpec × Option JsThrow :=
  match bindingDeclaration with
  | none => (bindingSpecification, none)
  | some declaration =>
    eachFilter { bindingSpecification with filters := some [] } (jsSplit '|' declaration)

/-- `_parseEventsOperandDeclaration`. -/
def _parseEventsOperandDeclaration (bindingSpecification : OperandSpec)
    (bindingDeclaration : Str) : OperandSpec × Except JsThrow Str :=
  let eventTypesList := jsSplit '+' bindingDeclaration
  if eventTypesList.length < 1 then
    (bindingSpecification, .error (.bindingParse
      ⟨"no event types in events declaration".toList, bindingDeclaration⟩))
  else
    ({ bindingSpecification with types := some (pushEach [] eventTypesList) },
      .ok bindingDeclaration)

/-- `_parseModelOperandDeclaration`. -/
def _parseModelOperandDeclaration (bindingSpecification : OperandSpec)
    (bindingDeclaration : Str) : OperandSpec × Str :=
  let modelsList := jsSplit '+' bindingDeclaration
  ({ bindingSpecification with modelNames := some (pushEach [] modelsList) }, bindingDeclaration)

/-- `_parseDataBoundOperandDeclaration`: qualifier, attributes, filters in sequence. -/
def _parseDataBoundOperandDeclaration (bindingSpecification : OperandSpec)
    (bindingDeclaration : Str) : OperandSpec × Option JsThrow :=
  let (spec1, declaration1) := _parseModelQualifierDeclaration bindingSpecification bindingDeclaration
  match _parseModelAttributeDeclaration spec1 declaration1 with
  | (spec2, .error e) => (spec2, some e)
  | (spec2, .ok declaration2) => _parseFilterDeclaration spec2 declaration2

/-- The `switch (operand)` of `_parseBindingOperand`, run on the fresh object
that was stored under the operand: `events` breaks, `model` falls through into
the default case. -/
def operandSwitch (operand : Str) (bindingDeclaration : Str) : OperandSpec × Option JsThrow :=
  if operand = "events".toList then
    match _parseEventsOperandDeclaration {} bindingDeclaration with
    | (spec, .error e) => (spec, some e)
    | (spec, .ok _) => (spec, none)
  else if operand = "model".toList then
    let (spec, _) := _parseModelOperandDeclaration {} bindingDeclaration
    _parseDataBoundOperandDeclaration spec bindingDeclaration
  else
    _parseDataBoundOperandDeclaration {} bindingDeclaration

/-- `_parseBindingOperand`: the specification after the call and the thrown
value, if any.  The split must have exactly two segments.  The object assigned
to `bindingSpecification[operand]` is the one the operand parsers then fill,
so the entry holds their final state. -/
def _parseBindingOperand (bindingSpecification : BindingSpecification)
    (bindingDeclaration : Str) : BindingSpecification × Option JsThrow :=
  match jsSplit ':' bindingDeclaration with
  | [operand, declaration] =>
    let (operandSpec, thrown) := operandSwitch operand declaration
    (jsObjSet bindingSpecification operand operandSpec, thrown)
  | _ =>
    (bindingSpecification, some (.bindingParse
      ⟨"binding element formatting error".toList, bindingDeclaration⟩))

/-- The class `\s` of a regular expression: white space and line terminators
(U+180E is not among them since Unicode 6.3). -/
def isJsWhiteSpace (c : Char) : Bool :=
  let n := c.toNat
  (9 ≤ n && n ≤ 13) || n == 0x20 || n == 0xA0 || n == 0x1680 || (0x2000 ≤ n && n ≤ 0x200A) ||
    n == 0x2028 || n == 0x2029 || n == 0x202F || n == 0x205F || n == 0x3000 || n == 0xFEFF

/-- One attempt of `/\s*,\s*/` anchored at the start of `s`, giving the length
of the match: the maximal run of white space, a comma, the maximal run of
white space (a shorter first run is followed by white space, not by a comma). -/
def topREAt (s : Str) : Option Nat :=
  match s.dropWhile isJsWhiteSpace with
  | [] => none
  | c :: r =>
    if c = ',' then
      some ((s.takeWhile isJsWhiteSpace).length + 1 + (r.takeWhile isJsWhiteSpace).length)
    else none

/-- The scan of `s.split(/\s*,\s*/)`: at each position the expression is
tried; a match closes the current segment and the scan resumes after it
(`skip` counts the characters of that match still to pass); otherwise the
character joins the current segment. -/
def splitTopRE : Nat → Str → List Str
  | _, [] => [[]]
  | skip + 1, _ :: cs => splitTopRE skip cs
  | 0, c :: cs =>
    match topREAt (c :: cs) with
    | some len => [] :: splitTopRE (len - 1) cs
    | none =>
      match splitTopRE 0 cs with
      | [] => [[c]]
      | h :: t => (c :: h) :: t

/-- The loop `_.each(bindingOperandsList, ...)` of `_parseBindingDeclaration`. -/
def eachOperand (bindingSpecification : BindingSpecification) :
    List Str → BindingSpecification × Option JsThrow
  | [] => (bindingSpecification, none)
  | element :: list =>
    match _parseBindingOperand bindingSpecification element with
    | (spec, some e) => (spec, some e)
    | (spec, none) => eachOperand spec list

/-- `_parseBindingDeclaration`: the specification is local to the call, so a
throw leaves nothing behind. -/
def _parseBindingDeclaration (bindingDeclaration : Str) : Except JsThrow BindingSpecification :=
  match eachOperand [] (splitTopRE 0 bindingDeclaration) with
  | (_, some e) => .error e
  | (bindingSpecification, none) => .ok bindingSpecification

/-! ## The lowering to the StickIt bindings structure -/

/-- A string, an array of strings, or `undefined`. -/
inductive JsVal where
  | undefined
  | str (s : Str)
  | arr (l : List Str)
deriving DecidableEq, Repr

/-- One entry of the `attributes` array of an element binding. -/
abbrev AttrBinding := List (Str × JsVal)

/-- A property value of an element binding. -/
inductive BindVal where
  | val (v : JsVal)
  | attrs (l : List AttrBinding)
deriving DecidableEq, Repr

/-- The object stored under the selector of one element. -/
abbrev ElementBinding := List (Str × BindVal)

/-- The structure returned for one element: selector to element binding. -/
abbrev StickItBinding := List (Str × ElementBinding)

/-- `_pickStickItCallback`; `none` is the `undefined` left when no branch is taken. -/
def _pickStickItCallback (type target : Str) : Option Str :=
  if type = "+".toList ∧ target = "dom".toList then some STICKIT_ONGET
  else if type = "+".toList ∧ target = "model".toList then some STICKIT_ONSET
  else if type = "-".toList ∧ target = "dom".toList then some STICKIT_UPDATE_VIEW
  else if type = "-".toList ∧ target = "model".toList then some STICKIT_UPDATE_MODEL
  else none

/-- The property key that a computed member access makes of its operand. -/
def propertyKey (k : Option Str) : Str :=
  match k with
  | some s => s
  | none => "undefined".toList

/-- `_assignOneOrArray`. -/
def _assignOneOrArray (array : List Str) : JsVal :=
  if array.length = 0 then .undefined
  else if array.length = 1 then
    match array[0]? with
    | some x => .str x
    | none => .undefined
  else .arr (rest array 0)

/-- The loop over `value.filters` in the `value` case: each filter assigns its
name under the key picked for it (a later filter overwrites an earlier one
that picked the same key). -/
def eachValueFilter (binding : ElementBinding) (filters : List FilterSpecification) :
    ElementBinding :=
  filters.foldl
    (fun b element =>
      jsObjSet b (propertyKey (_pickStickItCallback element.type element.target))
        (.val (.str element.name)))
    binding

/-- The object `attr` built in the `disabled` / `class` / `readonly` case. -/
def attrOf (key : Str) (observe : JsVal) (filters : Option (List FilterSpecification)) :
    AttrBinding :=
  let attr := jsObjSet (jsObjSet [] "name".toList (.str key)) "observe".toList observe
  match filters with
  | none => attr
  | some [] => attr
  | some (first :: _) =>
    jsObjSet attr (propertyKey (_pickStickItCallback first.type first.target)) (.str first.name)

/-- The callback of `_.each(bindingSpecification, ...)` in
`_processBindingSpecification`: the `switch (key)` applied to the element
binding stored under the selector. -/
def lowerEntry (binding : ElementBinding) (key : Str) (value : OperandSpec) :
    Except JsThrow ElementBinding :=
  if key = "value".toList then
    match value.attributes with
    | none => .error .typeError
    | some attributes =>
      let binding1 := jsObjSet binding "observe".toList (.val (_assignOneOrArray attributes))
      match value.filters with
      | none => .ok binding1
      | some filters => .ok (eachValueFilter binding1 filters)
  else if key = "disabled".toList ∨ key = "class".toList ∨ key = "readonly".toList then
    let binding1 : ElementBinding :=
      match jsObjGet binding "attributes".toList with
      | none => jsObjSet binding "attributes".toList (.attrs [])
      | some (BindVal.val JsVal.undefined) => jsObjSet binding "attributes".toList (.attrs [])
      | some _ => binding
    match value.attributes with
    | none => .error .typeError
    | some attributes =>
      let attr := attrOf key (_assignOneOrArray attributes) value.filters
      match jsObjGet binding1 "attributes".toList with
      | some (BindVal.attrs list) =>
        .ok (jsObjSet binding1 "attributes".toList (.attrs (list ++ [attr])))
      | _ => .error .typeError
  else if key = "events".toList then
    match value.types with
    | none => .error .typeError
    | some types => .ok (jsObjSet binding "events".toList (.val (.arr (rest types 0))))
  else
    .ok binding

/-- The loop `_.each(bindingSpecification, ...)`: the entries are visited in
enumeration order. -/
def eachEntry (binding : ElementBinding) :
    BindingSpecification → Except JsThrow ElementBinding
  | [] => .ok binding
  | (key, value) :: list =>
    match lowerEntry binding key value with
    | .error e => .error e
    | .ok binding1 => eachEntry binding1 list

/-- The wrapped element as the lowering sees it: its `id` attribute, if any. -/
structure JQueryElement where
  id : Option Str
deriving DecidableEq, Repr

/-- `_.uniqueId(prefix)` on the counter `idCounter`: the counter is incremented
and its decimal digits are appended to the prefix. -/
def uniqueId (pre : Str) (idCounter : Nat) : Str × Nat :=
  (pre ++ Nat.toDigits 10 (idCounter + 1), idCounter + 1)

/-- The first part of `_processBindingSpecification`: the element identifier
`elId` (`none` for `undefined`), the element after the call and the counter
after the call. -/
def elementId (jQueryElement : Option JQueryElement) (idCounter : Nat) :
    Option Str × Option JQueryElement × Nat :=
  match jQueryElement with
  | none => (none, none, idCounter)
  | some element =>
    match element.id with
    | some elId => (some elId, some element, idCounter)
    | none =>
      let (elId, counter) := uniqueId "stickit_".toList idCounter
      (some elId, some { element with id := some elId }, counter)

/-- The result of `_processBindingSpecification`: what it returns or throws,
with the element and the identifier counter as they are after the call. -/
structure Lowered where
  result : Except JsThrow StickItBinding
  jQueryElement : Option JQueryElement
  idCounter : Nat
deriving DecidableEq

/-- `_processBindingSpecification`. -/
def _processBindingSpecification (bindingSpecification : BindingSpecification)
    (jQueryElement : Option JQueryElement) (idCounter : Nat) : Lowered :=
  let (elId, element, counter) := elementId jQueryElement idCounter
  let bindingSelector := '#' :: propertyKey elId
  let result :=
    match eachEntry [] bindingSpecification with
    | .error e => .error e
    | .ok binding => .ok (jsObjSet [] bindingSelector binding)
  { result := result, jQueryElement := element, idCounter := counter }

/-- `_processBindingDeclaration`: parse, then lower.  A throw of the parser
happens before the element is looked at. -/
def _processBindingDeclaration (bindingDeclaration : Str)
    (jQueryElement : Option JQueryElement) (idCounter : Nat) : Lowered :=
  match _parseBindingDeclaration bindingDeclaration with
  | .error e => { result := .error e, jQueryElement := jQueryElement, idCounter := idCounter }
  | .ok bindingSpecification =>
    _processBindingSpecification bindingSpecification jQueryElement idCounter


/-! ## Shapes of filter tokens, as the specification words them -/

/-- One symbol followed by a non-empty run of letters, digits and underscores. -/
def SymbolThenRun (t : Str) : Prop :=
  ∃ c w, isSymbolChar c = true ∧ w ≠ [] ∧ (∀ x ∈ w, isWordChar x = true) ∧ t = c :: w

/-- A non-empty run of letters, digits and underscores followed by one symbol. -/
def RunThenSymbol (t : Str) : Prop :=
  ∃ c w, isSymbolChar c = true ∧ w ≠ [] ∧ (∀ x ∈ w, isWordChar x = true) ∧ t = w ++ [c]

/-- The whole token is a symbol and an identifier, the symbol on either side. -/
def FilterTokenShape (t : Str) : Prop :=
  SymbolThenRun t ∨ RunThenSymbol t

/-- The `type` of a token whose symbol is `c`. -/
def typeOfSymbol (c : Char) : Str :=
  if c = '-' then FILTER_CHAR else FORMATTER_CHAR

/-! ## Canonical specifications and the lowering, as the specification words them -/

/-- The four callback roles. -/
def callbackRoles : List Str :=
  [STICKIT_ONGET, STICKIT_ONSET, STICKIT_UPDATE_VIEW, STICKIT_UPDATE_MODEL]

/-- The operands lowered to an entry of the `attributes` array. -/
def isAttributeOperand (key : Str) : Bool :=
  key == "disabled".toList || key == "class".toList || key == "readonly".toList

/-- A specification the lowerer can walk: operand names are unique, every
data-bound operand the lowerer knows has its `attributes`, and `events` has
its `types`. -/
def Lowerable (spec : BindingSpecification) : Prop :=
  (spec.map Prod.fst).Nodup ∧
  ∀ p ∈ spec,
    ((p.1 = "value".toList ∨ isAttributeOperand p.1 = true) → p.2.attributes ≠ none) ∧
    (p.1 = "events".toList → p.2.types ≠ none)

instance (spec : BindingSpecification) : Decidable (Lowerable spec) := by
  unfold Lowerable
  infer_instance

/-- The last filter of the sequence whose type and target pick the role. -/
def lastFilterFor (role : Str) (filters : List FilterSpecification) :
    Option FilterSpecification :=
  (filters.filter
    (fun f => decide (_pickStickItCallback f.type f.target = some role))).getLast?

/-- The entries of the specification that are attribute-style operands, in
enumeration order. -/
def attributeOperands (spec : BindingSpecification) : List (Str × OperandSpec) :=
  spec.filter (fun p => isAttributeOperand p.1)

/-- The attribute binding of an attribute-style operand: `name`, `observe`,
and one callback for the first filter when there is a filter. -/
def specAttributeBinding (key : Str) (value : OperandSpec) : AttrBinding :=
  [("name".toList, JsVal.str key),
    ("observe".toList, _assignOneOrArray (value.attributes.getD []))] ++
  match value.filters with
  | some (first :: _) =>
    [(propertyKey (_pickStickItCallback first.type first.target), JsVal.str first.name)]
  | _ => []

/-- The keys a filter can be stored under. -/
def filterKeys : List Str :=
  ["onGet".toList, "onSet".toList, "updateView".toList, "updateModel".toList,
    "undefined".toList]

/-- The entries of the `attributes` array of an element binding (none when
the property is absent). -/
def attrList (binding : ElementBinding) : List AttrBinding :=
  match jsObjGet binding "attributes".toList with
  | some (BindVal.attrs l) => l
  | _ => []

/-- The `attributes` property of the element binding is absent or an array. -/
def AttributesIsArray (binding : ElementBinding) : Prop :=
  jsObjGet binding "attributes".toList = none ∨
    ∃ l, jsObjGet binding "attributes".toList = some (BindVal.attrs l)

/-- The conditions of `Lowerable` on one entry. -/
def EntryOk (key : Str) (value : OperandSpec) : Prop :=
  ((key = "value".toList ∨ isAttributeOperand key = true) → value.attributes ≠ none) ∧
  (key = "events".toList → value.types ≠ none)

/-- The `value` entry compiled from `value:a+b|+f|g+|+h`. -/
def sampleValue : OperandSpec :=
  { attributes := some ["a".toList, "b".toList]
    filters := some
      [{ name := "f".toList, type := "+".toList, target := "dom".toList },
       { name := "g".toList, type := "+".toList, target := "model".toList },
       { name := "h".toList, type := "+".toList, target := "dom".toList }] }

/-- The specification compiled from
`value:a+b|+f|g+|+h,disabled:isFullTime,class:isImportant|+classSelector|-x,events:blur+keyup`. -/
def sampleSpecification : BindingSpecification :=
  [("value".toList, sampleValue),
   ("disabled".toList, { attributes := some ["isFullTime".toList] }),
   ("class".toList,
     { attributes := some ["isImportant".toList]
       filters := some
         [{ name := "classSelector".toList, type := "+".toList, target := "dom".toList },
          { name := "x".toList, type := "-".toList, target := "dom".toList }] }),
   ("events".toList, { types := some ["blur".toList, "keyup".toList] })]

/-- The operands the lowerer has a case for. -/
def isRecognizedOperand (key : Str) : Bool :=
  key == "value".toList || isAttributeOperand key || key == "events".toList

/-- The operand object with its `modelNames` property set. -/
def withModelNames (x : Option (List Str)) (spec : OperandSpec) : OperandSpec :=
  { spec with modelNames := x }

/-- The operand name of a clause: its text before the first `:`. -/
def operandOf (clause : Str) : Str :=
  clause.takeWhile (· != ':')

/-- The payload of a clause: its text after the first `:`. -/
def payloadOf (clause : Str) : Str :=
  (clause.dropWhile (· != ':')).drop 1

/-- The last clause of the list whose operand name is `k`. -/
def lastClauseNamed (k : Str) : List Str → Option Str
  | [] => none
  | c :: cs =>
    match lastClauseNamed k cs with
    | some x => some x
    | none => if operandOf c = k then some c else none

/-- A filter specification of the data model: a non-empty identifier as name,
type `'+'` or `'-'`, target `'dom'` or `'model'`. -/
def WellFormedFilter (f : FilterSpecification) : Prop :=
  f.name ≠ [] ∧ (∀ x ∈ f.name, isWordChar x = true) ∧
  (f.type = FORMATTER_CHAR ∨ f.type = FILTER_CHAR) ∧
  (f.target = "dom".toList ∨ f.target = "model".toList)

/-- An entry of the data model: an operand other than `events` has a
non-empty `attributes` sequence, every filter is well formed, and `events`
has a non-empty `types` sequence. -/
def DataModelEntry (key : Str) (value : OperandSpec) : Prop :=
  (key ≠ "events".toList → ∃ a, value.attributes = some a ∧ a ≠ []) ∧
  (∀ fs, value.filters = some fs → ∀ f ∈ fs, WellFormedFilter f) ∧
  (key = "events".toList → ∃ t, value.types = some t ∧ t ≠ [])

/-- The number that a string of decimal digits denotes. -/
def digitsValue (acc : Nat) (digits : Str) : Nat :=
  digits.foldl (fun a c => 10 * a + (c.toNat - 48)) acc

/-- A clause that contains no comma and neither starts nor ends with white space. -/
def GoodClause (c : Str) : Prop :=
  ',' ∉ c ∧ (∀ x ∈ c.head?, isJsWhiteSpace x = false) ∧
    (∀ x ∈ c.getLast?, isJsWhiteSpace x = false)

instance (c : Str) : Decidable (GoodClause c) := by
  unfold GoodClause
  infer_instance

/-- A string of white space only. -/
def AllWhite (w : Str) : Prop :=
  ∀ x ∈ w, isJsWhiteSpace x = true

instance (w : Str) : Decidable (AllWhite w) := by
  unfold AllWhite
  infer_instance

/-- What follows the first clause of a declaration: each further clause
behind a comma that has the white space `w1` before it and `w2` after it. -/
def paddedTail : List ((Str × Str) × Str) → Str
  | [] => []
  | ((w1, w2), c) :: more => w1 ++ ',' :: (w2 ++ (c ++ paddedTail more))

/-- The clauses joined by commas padded with white space. -/
def joinPadded (first : Str) (more : List ((Str × Str) × Str)) : Str :=
  first ++ paddedTail more

/-- The rest of a declaration behind a clause: nothing, or a separator first. -/
def SepForm (T : Str) : Prop :=
  T = [] ∨ ∃ w U, AllWhite w ∧ T = w ++ ',' :: U

/-- The last filter of the sequence that is stored under the key `K`. -/
def lastFilterUnder (K : Str) (filters : List FilterSpecification) :
    Option FilterSpecification :=
  (filters.filter
    (fun f => decide (propertyKey (_pickStickItCallback f.type f.target) = K))).getLast?

/-- What the `value` entry makes of the property `K` of the element binding
that held `old` before. -/
def valueGet (value : OperandSpec) (K : Str) (old : Option BindVal) : Option BindVal :=
  match lastFilterUnder K (value.filters.getD []) with
  | some f => some (.val (.str f.name))
  | none =>
    if K = "observe".toList then
      some (.val (_assignOneOrArray (value.attributes.getD [])))
    else old

/-- Modelled from the spec: the filter token of a filter specification in the
normalized declaration string (the re-serializer of the idempotence property
is not part of the source).  The symbol stands in front for target `'dom'`
and behind otherwise. -/
def serializeFilter (f : FilterSpecification) : Str :=
  if f.target = "dom".toList then f.type ++ f.name else f.name ++ f.type

/-- Modelled from the spec: the payload of an operand in the normalized
declaration string, `[model '#'] attributes joined by '+' ['|' filter tokens
joined by '|']`; an entry without attributes (the `events` entry) gives its
types joined by `+`. -/
def serializePayload (value : OperandSpec) : Str :=
  match value.attributes with
  | some attributes =>
    (match value.model with
      | some m => m ++ ['#']
      | none => []) ++
    (jsJoin '+' attributes ++
      match value.filters with
      | some filters => '|' :: jsJoin '|' (filters.map serializeFilter)
      | none => [])
  | none => jsJoin '+' (value.types.getD [])

/-- Modelled from the spec: one clause of the normalized declaration string,
`operand ':' payload`. -/
def serializeClause (key : Str) (value : OperandSpec) : Str :=
  key ++ ':' :: serializePayload value

/-- Modelled from the spec: the normalized declaration string of a canonical
specification, its clauses joined by `,` in enumeration order. -/
def serialize (spec : BindingSpecification) : Str :=
  jsJoin ',' (spec.map (fun e => serializeClause e.1 e.2))
/-- The keys of an object are in enumeration order: no key stands behind a
key it is to be enumerated before. -/
def OrderedKeys (keys : List Str) : Prop :=
  keys.Pairwise (fun a b => keyBefore b a = false)

/-! ## Lemmas on the built-ins -/

theorem isSymbolChar_iff (c : Char) : isSymbolChar c = true ↔ c = '+' ∨ c = '-' := by
  simp [isSymbolChar]

theorem isWordChar_of_symbol {c : Char} (h : isSymbolChar c = true) : isWordChar c = false := by
  rcases (isSymbolChar_iff c).1 h with rfl | rfl <;> decide

theorem isSymbolChar_of_word {c : Char} (h : isWordChar c = true) : isSymbolChar c = false := by
  cases hs : isSymbolChar c
  · rfl
  · rw [isWordChar_of_symbol hs] at h
    exact absurd h (by decide)

theorem takeWhile_eq_self_of_all {p : Char → Bool} {w : Str} (h : ∀ x ∈ w, p x = true) :
    w.takeWhile p = w := by
  induction w with
  | nil => rfl
  | cons a w ih =>
    have ha : p a = true := h a (List.mem_cons_self _ _)
    rw [List.takeWhile_cons, if_pos ha, ih (fun x hx => h x (List.mem_cons_of_mem _ hx))]

theorem takeWhile_append_stop {p : Char → Bool} {w : Str} {c : Char} (l : Str)
    (h : ∀ x ∈ w, p x = true) (hc : p c = false) : (w ++ c :: l).takeWhile p = w := by
  induction w with
  | nil => simp [List.takeWhile_cons, hc]
  | cons a w ih =>
    have ha : p a = true := h a (List.mem_cons_self _ _)
    rw [List.cons_append, List.takeWhile_cons, if_pos ha,
      ih (fun x hx => h x (List.mem_cons_of_mem _ hx))]

theorem dropWhile_append_stop {p : Char → Bool} {w : Str} {c : Char} (l : Str)
    (h : ∀ x ∈ w, p x = true) (hc : p c = false) : (w ++ c :: l).dropWhile p = c :: l := by
  induction w with
  | nil => simp [List.dropWhile_cons, hc]
  | cons a w ih =>
    have ha : p a = true := h a (List.mem_cons_self _ _)
    rw [List.cons_append, List.dropWhile_cons, if_pos ha,
      ih (fun x hx => h x (List.mem_cons_of_mem _ hx))]

theorem takeWhile_length_le (p : Char → Bool) (s : Str) : (s.takeWhile p).length ≤ s.length := by
  have h := congrArg List.length (List.takeWhile_append_dropWhile p s)
  rw [List.length_append] at h
  omega

theorem validREAt_cons (c : Char) (cs : Str) :
    validREAt (c :: cs) =
      if isSymbolChar c && !(cs.takeWhile isWordChar).isEmpty then
        some (c :: cs.takeWhile isWordChar)
      else
        match (c :: cs).takeWhile isWordChar, (c :: cs).dropWhile isWordChar with
        | r :: rs, d :: _ => if isSymbolChar d then some ((r :: rs) ++ [d]) else none
        | _, _ => none := rfl

theorem validREAt_length_le {s m : Str} (h : validREAt s = some m) : m.length ≤ s.length := by
  cases s with
  | nil => simp [validREAt] at h
  | cons c cs =>
    rw [validREAt_cons] at h
    split at h
    · cases h
      have := takeWhile_length_le isWordChar cs
      simp only [List.length_cons]
      omega
    · split at h
      · next r rs d l htake hdrop =>
        split at h
        · cases h
          have hs := congrArg List.length (List.takeWhile_append_dropWhile isWordChar (c :: cs))
          rw [htake, hdrop] at hs
          simp only [List.length_append, List.length_cons, List.length_nil] at hs ⊢
          omega
        · cases h
      · cases h

theorem matchValidRE_length_le : ∀ {s m : Str}, matchValidRE s = some m → m.length ≤ s.length
  | [], m, h => by simp [matchValidRE] at h
  | c :: cs, m, h => by
    unfold matchValidRE at h
    split at h
    · next m2 hm =>
      cases h
      exact validREAt_length_le hm
    · have := matchValidRE_length_le h
      simp only [List.length_cons]
      omega


theorem validREAt_symbolThenRun {c : Char} {w : Str} (hc : isSymbolChar c = true)
    (hw : w ≠ []) (hall : ∀ x ∈ w, isWordChar x = true) :
    validREAt (c :: w) = some (c :: w) := by
  rw [validREAt_cons, takeWhile_eq_self_of_all hall]
  have : w.isEmpty = false := by cases w <;> simp_all
  simp [hc, this]

theorem validREAt_runThenSymbol {c : Char} {w : Str} (hc : isSymbolChar c = true)
    (hw : w ≠ []) (hall : ∀ x ∈ w, isWordChar x = true) :
    validREAt (w ++ [c]) = some (w ++ [c]) := by
  cases w with
  | nil => exact absurd rfl hw
  | cons x w =>
    have hx : isWordChar x = true := hall x (List.mem_cons_self _ _)
    have hxs : isSymbolChar x = false := isSymbolChar_of_word hx
    have hcw : isWordChar c = false := isWordChar_of_symbol hc
    rw [List.cons_append, validREAt_cons, ← List.cons_append,
      takeWhile_append_stop [] hall hcw, dropWhile_append_stop [] hall hcw]
    simp [hxs, hc]

theorem isValid_of_shape {t : Str} (h : FilterTokenShape t) :
    _isValidFilterDeclaration t = true := by
  have key : matchValidRE t = some t := by
    rcases h with ⟨c, w, hc, hw, hall, rfl⟩ | ⟨c, w, hc, hw, hall, rfl⟩
    · simp [matchValidRE, validREAt_symbolThenRun hc hw hall]
    · have hv := validREAt_runThenSymbol hc hw hall
      cases w with
      | nil => exact absurd rfl hw
      | cons x w =>
        rw [List.cons_append] at hv ⊢
        simp [matchValidRE, hv]
  simp [_isValidFilterDeclaration, key]

theorem takeWhile_eq_self_of_length {p : Char → Bool} {s : Str}
    (h : (s.takeWhile p).length = s.length) : s.takeWhile p = s := by
  have h1 := List.takeWhile_append_dropWhile p s
  have h2 := congrArg List.length h1
  rw [List.length_append] at h2
  have h3 : (s.dropWhile p).length = 0 := by omega
  rw [List.length_eq_zero] at h3
  rw [h3, List.append_nil] at h1
  exact h1

theorem shape_of_isValid {t : Str} (h : _isValidFilterDeclaration t = true) :
    FilterTokenShape t := by
  cases t with
  | nil => simp [_isValidFilterDeclaration, matchValidRE] at h
  | cons c cs =>
    unfold _isValidFilterDeclaration at h
    cases hv : validREAt (c :: cs) with
    | none =>
      have hm : matchValidRE (c :: cs) = matchValidRE cs := by simp [matchValidRE, hv]
      rw [hm] at h
      cases hm2 : matchValidRE cs with
      | none => simp [hm2] at h
      | some m =>
        have := matchValidRE_length_le hm2
        simp [hm2] at h
        omega
    | some m =>
      have hm : matchValidRE (c :: cs) = some m := by simp [matchValidRE, hv]
      rw [hm] at h
      have hlen : m.length = (c :: cs).length := by simpa using h
      rw [validREAt_cons] at hv
      split at hv
      · next hcond =>
        cases hv
        simp only [Bool.and_eq_true, Bool.not_eq_true', List.isEmpty_eq_false] at hcond
        have htw : cs.takeWhile isWordChar = cs :=
          takeWhile_eq_self_of_length (by simpa using hlen)
        left
        refine ⟨c, cs, hcond.1, ?_, ?_, rfl⟩
        · intro hnil
          rw [hnil] at hcond
          simp at hcond
        · intro x hx
          rw [← htw] at hx
          exact (List.mem_takeWhile_imp hx)
      · split at hv
        · next r rs d l htake hdrop =>
          split at hv
          · next hd =>
            cases hv
            have hs := List.takeWhile_append_dropWhile isWordChar (c :: cs)
            rw [htake, hdrop] at hs
            have hl := congrArg List.length hs
            simp only [List.length_append, List.length_cons, List.length_nil] at hl hlen
            have hl0 : l = [] := List.length_eq_zero.1 (by omega)
            subst hl0
            right
            refine ⟨d, r :: rs, hd, by simp, ?_, hs.symm⟩
            intro x hx
            rw [← htake] at hx
            exact List.mem_takeWhile_imp hx
          · cases hv
        · cases hv

/-- The validator accepts exactly the tokens of the specified shape. -/
theorem isValid_iff_shape (t : Str) :
    _isValidFilterDeclaration t = true ↔ FilterTokenShape t :=
  ⟨shape_of_isValid, isValid_of_shape⟩


theorem jsIndexOf_cons_self (c : Char) (s : Str) : jsIndexOf c (c :: s) = 0 := by
  simp [jsIndexOf]

theorem jsIndexOf_of_not_mem {c : Char} {s : Str} (h : c ∉ s) : jsIndexOf c s = -1 := by
  simp [jsIndexOf, h]

theorem jsIndexOf_ne_neg_one {c : Char} {s : Str} (h : c ∈ s) : jsIndexOf c s ≠ -1 := by
  simp only [jsIndexOf, if_pos h]
  omega

theorem jsIndexOf_cons_ne_zero {c x : Char} {s : Str} (hx : x ≠ c) : jsIndexOf c (x :: s) ≠ 0 := by
  unfold jsIndexOf
  split
  · rw [List.indexOf_cons_ne _ hx]
    omega
  · omega

theorem not_mem_of_all_word {c : Char} {w : Str} (hc : isWordChar c = false)
    (hall : ∀ x ∈ w, isWordChar x = true) : c ∉ w := by
  intro hmem
  rw [hall c hmem] at hc
  exact absurd hc (by decide)

theorem matchNameRE_symbolThenRun {c : Char} {w : Str} (hc : isSymbolChar c = true)
    (hw : w ≠ []) (hall : ∀ x ∈ w, isWordChar x = true) :
    matchNameRE (c :: w) = some w := by
  cases w with
  | nil => exact absurd rfl hw
  | cons x w =>
    have hx : isWordChar x = true := hall x (List.mem_cons_self _ _)
    have hw2 : w.takeWhile isWordChar = w :=
      takeWhile_eq_self_of_all (fun y hy => hall y (List.mem_cons_of_mem _ hy))
    simp [matchNameRE, isWordChar_of_symbol hc, hx, hw2]

theorem matchNameRE_runThenSymbol {c : Char} {w : Str} (hc : isSymbolChar c = true)
    (hw : w ≠ []) (hall : ∀ x ∈ w, isWordChar x = true) :
    matchNameRE (w ++ [c]) = some w := by
  cases w with
  | nil => exact absurd rfl hw
  | cons x w =>
    have hx : isWordChar x = true := hall x (List.mem_cons_self _ _)
    have hw2 : (w ++ [c]).takeWhile isWordChar = w :=
      takeWhile_append_stop [] (fun y hy => hall y (List.mem_cons_of_mem _ hy))
        (isWordChar_of_symbol hc)
    simp [matchNameRE, hx, hw2]

/-- A token with its symbol in front: the identifier is the name, the target is the DOM. -/
theorem filterSpecificationOf_symbolThenRun {c : Char} {w : Str} (hc : isSymbolChar c = true)
    (hw : w ≠ []) (hall : ∀ x ∈ w, isWordChar x = true) :
    filterSpecificationOf (c :: w) =
      .ok { name := w, type := typeOfSymbol c, target := "dom".toList } := by
  have hvalid := isValid_of_shape (Or.inl ⟨c, w, hc, hw, hall, rfl⟩)
  have hname := matchNameRE_symbolThenRun hc hw hall
  rcases (isSymbolChar_iff c).1 hc with rfl | rfl
  · have hnot : '-' ∉ ('+' :: w) := by
      intro hmem
      rcases List.mem_cons.1 hmem with h | h
      · exact absurd h (by decide)
      · exact not_mem_of_all_word (by decide) hall h
    simp [filterSpecificationOf, hvalid, hname, jsIndexOf_of_not_mem hnot, jsIndexOf_cons_self,
      typeOfSymbol]
  · simp [filterSpecificationOf, hvalid, hname, jsIndexOf_cons_self, typeOfSymbol]

/-- A token with its symbol behind: the identifier is the name, the target is the model. -/
theorem filterSpecificationOf_runThenSymbol {c : Char} {w : Str} (hc : isSymbolChar c = true)
    (hw : w ≠ []) (hall : ∀ x ∈ w, isWordChar x = true) :
    filterSpecificationOf (w ++ [c]) =
      .ok { name := w, type := typeOfSymbol c, target := "model".toList } := by
  have hvalid := isValid_of_shape (Or.inr ⟨c, w, hc, hw, hall, rfl⟩)
  have hname := matchNameRE_runThenSymbol hc hw hall
  cases w with
  | nil => exact absurd rfl hw
  | cons x w =>
    have hx : isWordChar x = true := hall x (List.mem_cons_self _ _)
    have hxs : isSymbolChar x = false := isSymbolChar_of_word hx
    have hxp : x ≠ '+' := fun h => by rw [h] at hxs; exact absurd hxs (by decide)
    have hxm : x ≠ '-' := fun h => by rw [h] at hxs; exact absurd hxs (by decide)
    rcases (isSymbolChar_iff c).1 hc with rfl | rfl
    · have hnot : '-' ∉ (x :: w ++ ['+']) := by
        intro hmem
        rcases List.mem_append.1 hmem with h | h
        · exact not_mem_of_all_word (by decide) hall h
        · simp at h
      have h0 : jsIndexOf '+' (x :: (w ++ ['+'])) ≠ 0 := jsIndexOf_cons_ne_zero hxp
      rw [List.cons_append] at hvalid hname hnot
      simp [filterSpecificationOf, hvalid, hname, jsIndexOf_of_not_mem hnot, h0, typeOfSymbol]
    · have hmem : '-' ∈ (x :: (w ++ ['-'])) := by simp
      have h0 : jsIndexOf '-' (x :: (w ++ ['-'])) ≠ 0 := jsIndexOf_cons_ne_zero hxm
      have h1 := jsIndexOf_ne_neg_one hmem
      rw [List.cons_append] at hvalid hname
      simp [filterSpecificationOf, hvalid, hname, h0, h1, typeOfSymbol]

theorem filterSpecificationOf_of_not_shape {t : Str} (h : ¬ FilterTokenShape t) :
    filterSpecificationOf t = .error (.bindingParse ⟨"bad filter format".toList, t⟩) := by
  have hv : _isValidFilterDeclaration t = false := by
    cases hb : _isValidFilterDeclaration t
    · rfl
    · exact absurd (shape_of_isValid hb) h
  simp [filterSpecificationOf, hv]


theorem eachFilter_of_shapes : ∀ (tokens : List Str) (spec : OperandSpec)
    (fs : List FilterSpecification), spec.filters = some fs →
    (∀ x ∈ tokens, FilterTokenShape x) → (eachFilter spec tokens).2 = none
  | [], spec, fs, _, _ => rfl
  | t :: tokens, spec, fs, hfs, hall => by
    have ht : FilterTokenShape t := hall t (List.mem_cons_self _ _)
    have hrest : ∀ x ∈ tokens, FilterTokenShape x := fun x hx => hall x (List.mem_cons_of_mem _ hx)
    have hok : ∃ f, filterSpecificationOf t = .ok f := by
      rcases ht with ⟨c, w, hc, hw, hw2, rfl⟩ | ⟨c, w, hc, hw, hw2, rfl⟩
      · exact ⟨_, filterSpecificationOf_symbolThenRun hc hw hw2⟩
      · exact ⟨_, filterSpecificationOf_runThenSymbol hc hw hw2⟩
    obtain ⟨f, hf⟩ := hok
    simp only [eachFilter, hf, hfs]
    exact eachFilter_of_shapes tokens _ (fs ++ [f]) rfl hrest

theorem eachFilter_first_bad : ∀ (pre : List Str) (t : Str) (post : List Str)
    (spec : OperandSpec) (fs : List FilterSpecification), spec.filters = some fs →
    (∀ x ∈ pre, FilterTokenShape x) → ¬ FilterTokenShape t →
    (eachFilter spec (pre ++ t :: post)).2 =
      some (.bindingParse ⟨"bad filter format".toList, t⟩)
  | [], t, post, spec, fs, _, _, hbad => by
    simp only [List.nil_append, eachFilter, filterSpecificationOf_of_not_shape hbad]
  | p :: pre, t, post, spec, fs, hfs, hall, hbad => by
    have hp : FilterTokenShape p := hall p (List.mem_cons_self _ _)
    have hrest : ∀ x ∈ pre, FilterTokenShape x := fun x hx => hall x (List.mem_cons_of_mem _ hx)
    have hok : ∃ f, filterSpecificationOf p = .ok f := by
      rcases hp with ⟨c, w, hc, hw, hw2, rfl⟩ | ⟨c, w, hc, hw, hw2, rfl⟩
      · exact ⟨_, filterSpecificationOf_symbolThenRun hc hw hw2⟩
      · exact ⟨_, filterSpecificationOf_runThenSymbol hc hw hw2⟩
    obtain ⟨f, hf⟩ := hok
    simp only [List.cons_append, eachFilter, hf, hfs]
    exact eachFilter_first_bad pre t post _ (fs ++ [f]) rfl hrest hbad

theorem shapes_of_eachFilter_none : ∀ (tokens : List Str) (spec : OperandSpec),
    (eachFilter spec tokens).2 = none → ∀ x ∈ tokens, FilterTokenShape x
  | [], _, _ => fun x hx => absurd hx (List.not_mem_nil x)
  | t :: tokens, spec, h => by
    by_cases ht : FilterTokenShape t
    · intro x hx
      rcases List.mem_cons.1 hx with rfl | hx
      · exact ht
      · have hok : ∃ f, filterSpecificationOf t = .ok f := by
          rcases ht with ⟨c, w, hc, hw, hw2, rfl⟩ | ⟨c, w, hc, hw, hw2, rfl⟩
          · exact ⟨_, filterSpecificationOf_symbolThenRun hc hw hw2⟩
          · exact ⟨_, filterSpecificationOf_runThenSymbol hc hw hw2⟩
        obtain ⟨f, hf⟩ := hok
        simp only [eachFilter, hf] at h
        cases hfs : spec.filters with
        | none => simp [hfs] at h
        | some fs =>
          simp only [hfs] at h
          exact shapes_of_eachFilter_none tokens _ h x hx
    · simp [eachFilter, filterSpecificationOf_of_not_shape ht] at h

/-- C2. A filter token is accepted exactly when it is, as a whole, one symbol
followed by a non-empty run of letters, digits and underscores, or such a run
followed by one symbol.  Every other token makes the callback throw
"bad filter format" with that token as its value, and `_parseFilterDeclaration`
throws this for the leftmost such token of the chain; the chain passes exactly
when all its tokens have the shape.  The tokens `foo-bar-baz`, `+foo+`, `a+b`
and the empty token are rejected. -/
theorem C2_filter_token_validation :
    (∀ t : Str, (∃ fs, filterSpecificationOf t = .ok fs) ↔ FilterTokenShape t) ∧
    (∀ t : Str, ¬ FilterTokenShape t →
      filterSpecificationOf t = .error (.bindingParse ⟨"bad filter format".toList, t⟩)) ∧
    (∀ (spec : OperandSpec) (chain : Str) (pre : List Str) (t : Str) (post : List Str),
      jsSplit '|' chain = pre ++ t :: post → (∀ x ∈ pre, FilterTokenShape x) →
      ¬ FilterTokenShape t →
      (_parseFilterDeclaration spec (some chain)).2 =
        some (.bindingParse ⟨"bad filter format".toList, t⟩)) ∧
    (∀ (spec : OperandSpec) (chain : Str),
      (_parseFilterDeclaration spec (some chain)).2 = none ↔
        ∀ t ∈ jsSplit '|' chain, FilterTokenShape t) ∧
    (∀ t ∈ ["foo-bar-baz".toList, "+foo+".toList, "a+b".toList, []],
      filterSpecificationOf t = .error (.bindingParse ⟨"bad filter format".toList, t⟩)) := by
  refine ⟨?_, fun t h => filterSpecificationOf_of_not_shape h, ?_, ?_, by decide⟩
  · intro t
    constructor
    · rintro ⟨fs, hfs⟩
      by_contra hbad
      rw [filterSpecificationOf_of_not_shape hbad] at hfs
      cases hfs
    · rintro (⟨c, w, hc, hw, hw2, rfl⟩ | ⟨c, w, hc, hw, hw2, rfl⟩)
      · exact ⟨_, filterSpecificationOf_symbolThenRun hc hw hw2⟩
      · exact ⟨_, filterSpecificationOf_runThenSymbol hc hw hw2⟩
  · intro spec chain pre t post hsplit hpre hbad
    simp only [_parseFilterDeclaration, hsplit]
    exact eachFilter_first_bad pre t post _ [] rfl hpre hbad
  · intro spec chain
    simp only [_parseFilterDeclaration]
    exact ⟨shapes_of_eachFilter_none _ _, eachFilter_of_shapes _ _ [] rfl⟩


theorem filter_not_symbol_of_all_word {w : Str} (hall : ∀ x ∈ w, isWordChar x = true) :
    w.filter (fun c => !isSymbolChar c) = w := by
  rw [List.filter_eq_self]
  intro x hx
  simp [isSymbolChar_of_word (hall x hx)]

theorem countP_symbol_of_all_word {w : Str} (hall : ∀ x ∈ w, isWordChar x = true) :
    w.countP isSymbolChar = 0 := by
  rw [List.countP_eq_zero]
  intro x hx
  simp [isSymbolChar_of_word (hall x hx)]

theorem typeOfSymbol_eq_filter_iff {c : Char} (hc : isSymbolChar c = true) :
    typeOfSymbol c = FILTER_CHAR ↔ c = '-' := by
  rcases (isSymbolChar_iff c).1 hc with rfl | rfl <;> decide

theorem typeOfSymbol_of_ne {c : Char} (hc : c ≠ '-') : typeOfSymbol c = FORMATTER_CHAR := by
  simp [typeOfSymbol, hc]

/-- C3. For every token the validator accepts, the callback of
`_parseFilterDeclaration` produces a filter specification whose name is the
token without its symbol (the token holds exactly one symbol), whose type is
`'-'` exactly when the token contains `-` and `'+'` otherwise, and whose target
is `'dom'` when the symbol is the first character and `'model'` when it is the
last one. -/
theorem C3_filter_spec_of_accepted_token (t : Str)
    (h : _isValidFilterDeclaration t = true) :
    ∃ fs, filterSpecificationOf t = .ok fs ∧
      t.countP isSymbolChar = 1 ∧
      fs.name = t.filter (fun c => !isSymbolChar c) ∧
      (fs.type = FILTER_CHAR ↔ '-' ∈ t) ∧
      ('-' ∉ t → fs.type = FORMATTER_CHAR) ∧
      (∀ c cs, t = c :: cs → isSymbolChar c = true → fs.target = "dom".toList) ∧
      (∀ c cs, t = cs ++ [c] → isSymbolChar c = true → fs.target = "model".toList) := by
  rcases shape_of_isValid h with ⟨c, w, hc, hw, hall, rfl⟩ | ⟨c, w, hc, hw, hall, rfl⟩
  · refine ⟨_, filterSpecificationOf_symbolThenRun hc hw hall, ?_, ?_, ?_, ?_, ?_, ?_⟩
    · rw [List.countP_cons, countP_symbol_of_all_word hall]
      simp [hc]
    · rw [List.filter_cons]
      simp [hc, filter_not_symbol_of_all_word hall]
    · rw [typeOfSymbol_eq_filter_iff hc]
      constructor
      · rintro rfl
        exact List.mem_cons_self _ _
      · intro hmem
        rcases List.mem_cons.1 hmem with h1 | h1
        · exact h1.symm
        · exact absurd h1 (not_mem_of_all_word (by decide) hall)
    · intro hnot
      exact typeOfSymbol_of_ne (fun hceq => hnot (by rw [hceq]; exact List.mem_cons_self _ _))
    · intro _ _ _ _
      rfl
    · intro c2 cs heq hc2
      exfalso
      cases cs with
      | nil =>
        simp only [List.nil_append, List.cons.injEq] at heq
        exact hw heq.2
      | cons y cs =>
        simp only [List.cons_append, List.cons.injEq] at heq
        have hmem : c2 ∈ w := by rw [heq.2]; simp
        have := hall c2 hmem
        rw [isWordChar_of_symbol hc2] at this
        exact absurd this (by decide)
  · refine ⟨_, filterSpecificationOf_runThenSymbol hc hw hall, ?_, ?_, ?_, ?_, ?_, ?_⟩
    · rw [List.countP_append, countP_symbol_of_all_word hall]
      simp [hc]
    · rw [List.filter_append, filter_not_symbol_of_all_word hall]
      simp [hc]
    · rw [typeOfSymbol_eq_filter_iff hc]
      constructor
      · rintro rfl
        simp
      · intro hmem
        rcases List.mem_append.1 hmem with h1 | h1
        · exact absurd h1 (not_mem_of_all_word (by decide) hall)
        · exact (List.mem_singleton.1 h1).symm
    · intro hnot
      exact typeOfSymbol_of_ne (fun hceq => hnot (by rw [hceq]; simp))
    · intro c2 cs heq hc2
      exfalso
      cases w with
      | nil => exact hw rfl
      | cons y w =>
        simp only [List.cons_append, List.cons.injEq] at heq
        have := hall y (List.mem_cons_self _ _)
        rw [heq.1, isWordChar_of_symbol hc2] at this
        exact absurd this (by decide)
    · intro _ _ _ _
      rfl

/-- C3, at the tokens `-fooFilter` and `fooFilter-`. -/
theorem C3_filter_spec_of_accepted_token_witness :
    _isValidFilterDeclaration "fooFilter-".toList = true ∧
    ∃ fs, filterSpecificationOf "fooFilter-".toList = .ok fs ∧
      "fooFilter-".toList.countP isSymbolChar = 1 ∧
      fs.name = "fooFilter-".toList.filter (fun c => !isSymbolChar c) ∧
      (fs.type = FILTER_CHAR ↔ '-' ∈ "fooFilter-".toList) ∧
      ('-' ∉ "fooFilter-".toList → fs.type = FORMATTER_CHAR) ∧
      (∀ c cs, "fooFilter-".toList = c :: cs → isSymbolChar c = true →
        fs.target = "dom".toList) ∧
      (∀ c cs, "fooFilter-".toList = cs ++ [c] → isSymbolChar c = true →
        fs.target = "model".toList) :=
  ⟨by decide, C3_filter_spec_of_accepted_token "fooFilter-".toList (by decide)⟩

/-- C1, as the code has it: the declaration
`value:employee#address.zip|+fooFormatter|-fooFilter` compiles to one `value`
entry with model `employee`, attributes `[address.zip]` and the filters
`fooFormatter` (type `'+'`, target `'dom'`) and `fooFilter` (type `'-'`,
target `'dom'`, its symbol being in front), in that order. -/
theorem C1_example_compiles :
    _parseBindingDeclaration "value:employee#address.zip|+fooFormatter|-fooFilter".toList =
      .ok [("value".toList,
        { model := some "employee".toList
          attributes := some ["address.zip".toList]
          filters := some
            [{ name := "fooFormatter".toList, type := "+".toList, target := "dom".toList },
             { name := "fooFilter".toList, type := "-".toList, target := "dom".toList }] })] := by
  decide

/-- C1, as stated, fails: the `value` entry of the compiled declaration does
not have the filter `fooFilter` with target `'model'`. -/
theorem C1_example_counterexample :
    ¬ ∃ spec value,
      _parseBindingDeclaration "value:employee#address.zip|+fooFormatter|-fooFilter".toList =
        .ok spec ∧
      jsObjGet spec "value".toList = some value ∧
      value.model = some "employee".toList ∧
      value.attributes = some ["address.zip".toList] ∧
      value.filters = some
        [{ name := "fooFormatter".toList, type := "+".toList, target := "dom".toList },
         { name := "fooFilter".toList, type := "-".toList, target := "model".toList }] := by
  rintro ⟨spec, value, hspec, hvalue, -, -, hfilters⟩
  have hparse :
      _parseBindingDeclaration "value:employee#address.zip|+fooFormatter|-fooFilter".toList =
      .ok [("value".toList,
        { model := some "employee".toList
          attributes := some ["address.zip".toList]
          filters := some
            [{ name := "fooFormatter".toList, type := "+".toList, target := "dom".toList },
             { name := "fooFilter".toList, type := "-".toList, target := "dom".toList }] })] := by
    decide
  rw [hparse] at hspec
  cases hspec
  have hget : jsObjGet [("value".toList,
        ({ model := some "employee".toList
           attributes := some ["address.zip".toList]
           filters := some
            [{ name := "fooFormatter".toList, type := "+".toList, target := "dom".toList },
             { name := "fooFilter".toList, type := "-".toList, target := "dom".toList }] } :
          OperandSpec))] "value".toList = some
        { model := some "employee".toList
          attributes := some ["address.zip".toList]
          filters := some
            [{ name := "fooFormatter".toList, type := "+".toList, target := "dom".toList },
             { name := "fooFilter".toList, type := "-".toList, target := "dom".toList }] } := by
    decide
  rw [hget] at hvalue
  cases hvalue
  revert hfilters
  decide


theorem jsSplit_ne_nil (sep : Char) : ∀ s : Str, jsSplit sep s ≠ []
  | [] => by simp [jsSplit]
  | c :: cs => by
    unfold jsSplit
    split
    · simp
    · split <;> simp

theorem jsSplit_length (sep : Char) : ∀ s : Str, (jsSplit sep s).length = s.count sep + 1
  | [] => by simp [jsSplit]
  | c :: cs => by
    have ih := jsSplit_length sep cs
    unfold jsSplit
    by_cases h : c = sep
    · subst h
      simp [ih]
    · rw [if_neg h, List.count_cons_of_ne (fun e => h e.symm)]
      split
      · next hnil => exact absurd hnil (jsSplit_ne_nil sep cs)
      · next a t heq =>
        rw [heq] at ih
        simpa using ih

theorem jsSplit_of_count_zero (sep : Char) : ∀ s : Str, s.count sep = 0 → jsSplit sep s = [s]
  | [], _ => by simp [jsSplit]
  | c :: cs, h => by
    by_cases hc : c = sep
    · subst hc
      simp at h
    · rw [List.count_cons_of_ne (fun e => hc e.symm)] at h
      simp [jsSplit, hc, jsSplit_of_count_zero sep cs h]

theorem jsSplit_of_count_one (sep : Char) : ∀ s : Str, s.count sep = 1 →
    jsSplit sep s = [s.takeWhile (· != sep), (s.dropWhile (· != sep)).drop 1]
  | [], h => by simp at h
  | c :: cs, h => by
    by_cases hc : c = sep
    · subst hc
      have h0 : cs.count c = 0 := by simpa using h
      simp [jsSplit, jsSplit_of_count_zero c cs h0]
    · rw [List.count_cons_of_ne (fun e => hc e.symm)] at h
      simp [jsSplit, hc, jsSplit_of_count_one sep cs h]

theorem eachFilter_thrown : ∀ (tokens : List Str) (spec : OperandSpec)
    (fs : List FilterSpecification), spec.filters = some fs →
    (eachFilter spec tokens).2 = none ∨
      ∃ t, (eachFilter spec tokens).2 = some (.bindingParse ⟨"bad filter format".toList, t⟩)
  | [], _, _, _ => Or.inl rfl
  | t :: tokens, spec, fs, hfs => by
    by_cases ht : FilterTokenShape t
    · have hok : ∃ f, filterSpecificationOf t = .ok f := by
        rcases ht with ⟨c, w, hc, hw, hw2, rfl⟩ | ⟨c, w, hc, hw, hw2, rfl⟩
        · exact ⟨_, filterSpecificationOf_symbolThenRun hc hw hw2⟩
        · exact ⟨_, filterSpecificationOf_runThenSymbol hc hw hw2⟩
      obtain ⟨f, hf⟩ := hok
      simp only [eachFilter, hf, hfs]
      exact eachFilter_thrown tokens _ (fs ++ [f]) rfl
    · right
      exact ⟨t, by simp only [eachFilter, filterSpecificationOf_of_not_shape ht]⟩

theorem parseModelQualifier_returns (spec : OperandSpec) (d : Str) :
    ∃ spec1 d1, _parseModelQualifierDeclaration spec d = (spec1, some d1) := by
  unfold _parseModelQualifierDeclaration
  have hlen := jsSplit_length '#' d
  rcases hsp : jsSplit '#' d with _ | ⟨a, _ | ⟨b, l⟩⟩
  · exact absurd hsp (jsSplit_ne_nil _ _)
  · exact ⟨spec, a, by simp [hsp]⟩
  · exact ⟨{ spec with model := some a }, b, by simp [hsp]⟩

theorem parseModelAttribute_returns (spec : OperandSpec) (d : Str) :
    ∃ spec2 r, _parseModelAttributeDeclaration spec (some d) = (spec2, .ok r) := by
  unfold _parseModelAttributeDeclaration
  rcases hsp : jsSplit '|' d with _ | ⟨a, l⟩
  · exact absurd hsp (jsSplit_ne_nil _ _)
  · simp only [hsp]
    split
    · exact ⟨_, _, rfl⟩
    · exact ⟨_, _, rfl⟩

theorem parseFilter_thrown (spec : OperandSpec) (r : Option Str) :
    (_parseFilterDeclaration spec r).2 = none ∨
      ∃ t, (_parseFilterDeclaration spec r).2 =
        some (.bindingParse ⟨"bad filter format".toList, t⟩) := by
  cases r with
  | none => exact Or.inl rfl
  | some chain => exact eachFilter_thrown _ _ [] rfl

theorem parseDataBound_thrown (spec : OperandSpec) (d : Str) :
    (_parseDataBoundOperandDeclaration spec d).2 = none ∨
      ∃ t, (_parseDataBoundOperandDeclaration spec d).2 =
        some (.bindingParse ⟨"bad filter format".toList, t⟩) := by
  obtain ⟨spec1, d1, h1⟩ := parseModelQualifier_returns spec d
  obtain ⟨spec2, r, h2⟩ := parseModelAttribute_returns spec1 d1
  simp only [_parseDataBoundOperandDeclaration, h1, h2]
  exact parseFilter_thrown spec2 r

theorem operandSwitch_thrown (operand d : Str) :
    (operandSwitch operand d).2 = none ∨
      ∃ t, (operandSwitch operand d).2 =
        some (.bindingParse ⟨"bad filter format".toList, t⟩) := by
  unfold operandSwitch
  split
  · left
    have hlen := jsSplit_length '+' d
    simp only [_parseEventsOperandDeclaration]
    rw [if_neg (by omega)]
  · split
    · exact parseDataBound_thrown _ d
    · exact parseDataBound_thrown _ d


theorem jsObjHas_cons {β : Type} (a : Str) (b : β) (o : List (Str × β)) (k : Str) :
    jsObjHas ((a, b) :: o) k = (a == k || jsObjHas o k) := rfl

theorem jsObjGet_replace {β : Type} (k : Str) (v : β) (k2 : Str) :
    ∀ o : List (Str × β), jsObjGet (jsObjReplace k v o) k2 =
      if k2 = k ∧ jsObjHas o k = true then some v else jsObjGet o k2
  | [] => by
    simp only [jsObjReplace, jsObjGet, jsObjHas, List.any_nil, Bool.false_eq_true, and_false,
      if_false]
  | (a, b) :: o => by
    have ih := jsObjGet_replace k v k2 o
    by_cases ha : a = k
    · subst ha
      by_cases h2 : a = k2
      · subst h2
        simp [jsObjReplace, jsObjGet, jsObjHas]
      · have h2s : ¬ k2 = a := fun e => h2 e.symm
        simp [jsObjReplace, jsObjGet, h2, h2s]
    · by_cases h2 : a = k2
      · subst h2
        simp [jsObjReplace, jsObjGet, ha]
      · have hak : (a == k) = false := by simpa using ha
        simp only [jsObjReplace, if_neg ha, jsObjGet, if_neg h2, ih, jsObjHas_cons, hak,
          Bool.false_or]

theorem jsObjGet_insertNew {β : Type} (k : Str) (v : β) (k2 : Str) :
    ∀ o : List (Str × β), jsObjHas o k = false →
      jsObjGet (jsObjInsertNew k v o) k2 = if k2 = k then some v else jsObjGet o k2
  | [], _ => by
    by_cases h : k = k2
    · subst h
      simp [jsObjInsertNew, jsObjGet]
    · have hs : ¬ k2 = k := fun e => h e.symm
      simp [jsObjInsertNew, jsObjGet, h, hs]
  | (a, b) :: o, hno => by
    have hak : a ≠ k := by
      intro e
      simp [jsObjHas, e] at hno
    have hno2 : jsObjHas o k = false := by
      simp only [jsObjHas, List.any_cons, Bool.or_eq_false_iff] at hno ⊢
      exact hno.2
    have ih := jsObjGet_insertNew k v k2 o hno2
    unfold jsObjInsertNew
    split
    · by_cases h : k = k2
      · subst h
        simp [jsObjGet]
      · have hs : ¬ k2 = k := fun e => h e.symm
        simp [jsObjGet, h, hs]
    · by_cases h2 : a = k2
      · subst h2
        simp [jsObjGet, hak]
      · simp only [jsObjGet, if_neg h2, ih]

/-- Reading a property after an assignment. -/
theorem jsObjGet_jsObjSet {β : Type} (o : List (Str × β)) (k : Str) (v : β) (k2 : Str) :
    jsObjGet (jsObjSet o k v) k2 =
      if k = "__proto__".toList then jsObjGet o k2
      else if k2 = k then some v else jsObjGet o k2 := by
  unfold jsObjSet
  by_cases hp : k = "__proto__".toList
  · simp [hp]
  · rw [if_neg hp, if_neg hp]
    cases hh : jsObjHas o k
    · simp [jsObjGet_insertNew k v k2 o hh]
    · simp [jsObjGet_replace, hh]

theorem parseBindingOperand_of_split {spec : BindingSpecification} {c operand payload : Str}
    (h : jsSplit ':' c = [operand, payload]) :
    _parseBindingOperand spec c =
      (jsObjSet spec operand (operandSwitch operand payload).1,
        (operandSwitch operand payload).2) := by
  simp only [_parseBindingOperand, h]

theorem parseBindingOperand_of_length {spec : BindingSpecification} {c : Str}
    (h : (jsSplit ':' c).length ≠ 2) :
    _parseBindingOperand spec c =
      (spec, some (.bindingParse ⟨"binding element formatting error".toList, c⟩)) := by
  unfold _parseBindingOperand
  rcases hsp : jsSplit ':' c with _ | ⟨a, _ | ⟨b, _ | ⟨d, l⟩⟩⟩
  · rfl
  · rfl
  · rw [hsp] at h
    exact absurd rfl h
  · rfl

/-- C4. A clause that does not contain exactly one `:` makes
`_parseBindingOperand` throw "binding element formatting error" with the
clause as its value, and the specification is left as it was.  A clause with
exactly one `:` never raises that condition: the text before the `:` is the
operand, the object filled by the operand's parser is assigned to the
specification under it, and (save for the name `__proto__`, whose assignment
creates no property) is then the entry read under that operand. -/
theorem C4_operand_colon_check (spec : BindingSpecification) (c : Str) :
    (c.count ':' ≠ 1 →
      _parseBindingOperand spec c =
        (spec, some (.bindingParse ⟨"binding element formatting error".toList, c⟩))) ∧
    (c.count ':' = 1 →
      (∀ v, (_parseBindingOperand spec c).2 ≠
        some (.bindingParse ⟨"binding element formatting error".toList, v⟩)) ∧
      _parseBindingOperand spec c =
        (jsObjSet spec (c.takeWhile (· != ':'))
            (operandSwitch (c.takeWhile (· != ':')) ((c.dropWhile (· != ':')).drop 1)).1,
          (operandSwitch (c.takeWhile (· != ':')) ((c.dropWhile (· != ':')).drop 1)).2) ∧
      (c.takeWhile (· != ':') ≠ "__proto__".toList →
        jsObjGet (_parseBindingOperand spec c).1 (c.takeWhile (· != ':')) =
          some (operandSwitch (c.takeWhile (· != ':')) ((c.dropWhile (· != ':')).drop 1)).1)) := by
  constructor
  · intro h
    apply parseBindingOperand_of_length
    rw [jsSplit_length]
    omega
  · intro h
    have hp := @parseBindingOperand_of_split spec c _ _ (jsSplit_of_count_one ':' c h)
    refine ⟨?_, hp, ?_⟩
    · intro v hv
      rw [hp] at hv
      rcases operandSwitch_thrown (c.takeWhile (· != ':')) ((c.dropWhile (· != ':')).drop 1)
        with h0 | ⟨t, ht⟩
      · rw [h0] at hv
        cases hv
      · rw [ht] at hv
        injection hv with hv
        injection hv with hv
        injection hv with hmsg _
        exact absurd hmsg (by decide)
    · intro hkey
      rw [hp, jsObjGet_jsObjSet, if_neg hkey, if_pos rfl]

/-- C4, at the clauses `valueemployee` and `value:a:b` (no colon, two colons)
and `value:a` (one colon), on an empty specification. -/
theorem C4_operand_colon_check_witness :
    _parseBindingOperand [] "valueemployee".toList =
      ([], some (.bindingParse
        ⟨"binding element formatting error".toList, "valueemployee".toList⟩)) ∧
    _parseBindingOperand [] "value:a:b".toList =
      ([], some (.bindingParse
        ⟨"binding element formatting error".toList, "value:a:b".toList⟩)) ∧
    _parseBindingOperand [] "value:a".toList =
      ([("value".toList, { attributes := some ["a".toList] })], none) :=
  ⟨(C4_operand_colon_check [] "valueemployee".toList).1 (by decide),
    (C4_operand_colon_check [] "value:a:b".toList).1 (by decide),
    ((C4_operand_colon_check [] "value:a".toList).2 (by decide)).2.1.trans (by decide)⟩


/-- C5. `_pickStickItCallback` is the fixed two-by-two table: `'+'` with
`'dom'` gives `onGet`, `'+'` with `'model'` gives `onSet`, `'-'` with `'dom'`
gives `updateView`, `'-'` with `'model'` gives `updateModel`, and the four
results are pairwise distinct. -/
theorem C5_callback_table :
    _pickStickItCallback FORMATTER_CHAR "dom".toList = some "onGet".toList ∧
    _pickStickItCallback FORMATTER_CHAR "model".toList = some "onSet".toList ∧
    _pickStickItCallback FILTER_CHAR "dom".toList = some "updateView".toList ∧
    _pickStickItCallback FILTER_CHAR "model".toList = some "updateModel".toList ∧
    [_pickStickItCallback FORMATTER_CHAR "dom".toList,
      _pickStickItCallback FORMATTER_CHAR "model".toList,
      _pickStickItCallback FILTER_CHAR "dom".toList,
      _pickStickItCallback FILTER_CHAR "model".toList].Nodup := by
  decide

/-- C6. What `_pickStickItCallback` computes for a filter specification, set
against the Legend of the doc comment: a target `'dom'` is mapped to `onGet`
for `'+'`, where the Legend has `onSet`, and to `updateView` for `'-'`, as the
Legend has it; a target `'model'` is mapped to `onSet` for `'+'`, where the
Legend has `onGet`, and to `updateModel` for `'-'`, as the Legend has it. -/
theorem C6_legend_as_implemented (f : FilterSpecification) :
    (f.target = "dom".toList →
      (f.type = "+".toList →
        _pickStickItCallback f.type f.target = some "onGet".toList) ∧
      (f.type = "-".toList →
        _pickStickItCallback f.type f.target = some "updateView".toList)) ∧
    (f.target = "model".toList →
      (f.type = "+".toList →
        _pickStickItCallback f.type f.target = some "onSet".toList) ∧
      (f.type = "-".toList →
        _pickStickItCallback f.type f.target = some "updateModel".toList)) := by
  refine ⟨fun ht => ⟨fun hy => ?_, fun hy => ?_⟩, fun ht => ⟨fun hy => ?_, fun hy => ?_⟩⟩ <;>
    rw [ht, hy] <;> decide

/-- C6, at the two inputs where the code leaves the Legend: the formatter `+f`
(target `'dom'`) is mapped to `onGet` and the formatter `f+` (target
`'model'`) to `onSet`. -/
theorem C6_legend_as_implemented_witness :
    _pickStickItCallback "+".toList "dom".toList = some "onGet".toList ∧
    _pickStickItCallback "+".toList "model".toList = some "onSet".toList :=
  ⟨((C6_legend_as_implemented ⟨"f".toList, "+".toList, "dom".toList⟩).1 rfl).1 rfl,
    ((C6_legend_as_implemented ⟨"f".toList, "+".toList, "model".toList⟩).2 rfl).1 rfl⟩

/-- The formatter half of the Legend is not what the code computes: the
formatter with target `'dom'` is not mapped to `onSet`, and the formatter with
target `'model'` is not mapped to `onGet`. -/
theorem C6_legend_counterexample :
    _pickStickItCallback "+".toList "dom".toList ≠ some "onSet".toList ∧
    _pickStickItCallback "+".toList "model".toList ≠ some "onGet".toList := by
  decide

/-- The sample of the source comment ("a real live working sample from a test
page"): the embedding produces the structure the comment prints. -/
theorem parse_documented_sample :
    _parseBindingDeclaration
      "value:companyName|+formatName,class:isProfitable|+chooseClass".toList =
      .ok [("value".toList,
        { attributes := some ["companyName".toList]
          filters := some
            [{ name := "formatName".toList, type := "+".toList, target := "dom".toList }] }),
       ("class".toList,
        { attributes := some ["isProfitable".toList]
          filters := some
            [{ name := "chooseClass".toList, type := "+".toList,
               target := "dom".toList }] })] := by
  decide

theorem parse_value_a_b :
    _parseBindingDeclaration "value:a+b".toList =
      .ok [("value".toList, { attributes := some ["a".toList, "b".toList] })] := by
  decide

theorem parse_value_a :
    _parseBindingDeclaration "value:a".toList =
      .ok [("value".toList, { attributes := some ["a".toList] })] := by
  decide

/-- C10. `_assignOneOrArray` gives `undefined` for the empty sequence, the
element itself for a one-element sequence, and the whole sequence, in order,
for two or more elements.  So `value:a+b` lowers `observe` to the array
`["a","b"]` and `value:a` lowers it to the string `"a"`, for any element. -/
theorem C10_one_or_many :
    _assignOneOrArray [] = .undefined ∧
    (∀ x : Str, _assignOneOrArray [x] = .str x) ∧
    (∀ (x y : Str) (l : List Str), _assignOneOrArray (x :: y :: l) = .arr (x :: y :: l)) ∧
    (∀ (element : Option JQueryElement) (idCounter : Nat),
      (_processBindingDeclaration "value:a+b".toList element idCounter).result =
        .ok [('#' :: propertyKey (elementId element idCounter).1,
          [("observe".toList, .val (.arr ["a".toList, "b".toList]))])]) ∧
    (∀ (element : Option JQueryElement) (idCounter : Nat),
      (_processBindingDeclaration "value:a".toList element idCounter).result =
        .ok [('#' :: propertyKey (elementId element idCounter).1,
          [("observe".toList, .val (.str "a".toList))])]) := by
  refine ⟨rfl, fun x => rfl, fun x y l => ?_, fun element idCounter => ?_,
    fun element idCounter => ?_⟩
  · simp [_assignOneOrArray, rest]
  · simp only [_processBindingDeclaration, parse_value_a_b, _processBindingSpecification]
    rfl
  · simp only [_processBindingDeclaration, parse_value_a, _processBindingSpecification]
    rfl


theorem propertyKey_pick_cases (t g : Str) :
    propertyKey (_pickStickItCallback t g) = "onGet".toList ∨
    propertyKey (_pickStickItCallback t g) = "onSet".toList ∨
    propertyKey (_pickStickItCallback t g) = "updateView".toList ∨
    propertyKey (_pickStickItCallback t g) = "updateModel".toList ∨
    propertyKey (_pickStickItCallback t g) = "undefined".toList := by
  unfold _pickStickItCallback
  split
  · exact Or.inl rfl
  · split
    · exact Or.inr (Or.inl rfl)
    · split
      · exact Or.inr (Or.inr (Or.inl rfl))
      · split
        · exact Or.inr (Or.inr (Or.inr (Or.inl rfl)))
        · exact Or.inr (Or.inr (Or.inr (Or.inr rfl)))

theorem propertyKey_pick_mem (t g : Str) :
    propertyKey (_pickStickItCallback t g) ∈ filterKeys := by
  rcases propertyKey_pick_cases t g with h | h | h | h | h <;> rw [h] <;> decide

theorem propertyKey_pick_ne_proto (t g : Str) :
    propertyKey (_pickStickItCallback t g) ≠ "__proto__".toList := by
  rcases propertyKey_pick_cases t g with h | h | h | h | h <;> rw [h] <;> decide

theorem propertyKey_pick_eq_role {role : Str} (hrole : role ∈ callbackRoles) (t g : Str) :
    propertyKey (_pickStickItCallback t g) = role ↔ _pickStickItCallback t g = some role := by
  cases hp : _pickStickItCallback t g with
  | none =>
    simp only [propertyKey]
    constructor
    · intro h
      rw [← h] at hrole
      exact absurd hrole (by decide)
    · intro h
      cases h
  | some s => simp [propertyKey]

theorem eachValueFilter_concat (b : ElementBinding) (fs : List FilterSpecification)
    (f : FilterSpecification) :
    eachValueFilter b (fs ++ [f]) =
      jsObjSet (eachValueFilter b fs)
        (propertyKey (_pickStickItCallback f.type f.target)) (.val (.str f.name)) := by
  simp [eachValueFilter, List.foldl_append]

theorem eachValueFilter_get_other (b : ElementBinding) (K : Str) (hK : K ∉ filterKeys) :
    ∀ fs : List FilterSpecification, jsObjGet (eachValueFilter b fs) K = jsObjGet b K := by
  intro fs
  induction fs using List.reverseRecOn with
  | nil => rfl
  | append_singleton fs f ih =>
    rw [eachValueFilter_concat, jsObjGet_jsObjSet, if_neg (propertyKey_pick_ne_proto _ _)]
    have hne : ¬ K = propertyKey (_pickStickItCallback f.type f.target) := by
      intro e
      exact hK (e ▸ propertyKey_pick_mem _ _)
    rw [if_neg hne, ih]

theorem eachValueFilter_get_role (b : ElementBinding) {role : Str}
    (hrole : role ∈ callbackRoles) :
    ∀ fs : List FilterSpecification, jsObjGet (eachValueFilter b fs) role =
      match lastFilterFor role fs with
      | some f => some (.val (.str f.name))
      | none => jsObjGet b role := by
  intro fs
  induction fs using List.reverseRecOn with
  | nil => rfl
  | append_singleton fs f ih =>
    rw [eachValueFilter_concat, jsObjGet_jsObjSet, if_neg (propertyKey_pick_ne_proto _ _)]
    by_cases hf : _pickStickItCallback f.type f.target = some role
    · have hkey := (propertyKey_pick_eq_role hrole f.type f.target).2 hf
      rw [if_pos hkey.symm]
      simp [lastFilterFor, List.filter_append, hf]
    · have hkey : ¬ role = propertyKey (_pickStickItCallback f.type f.target) := fun e =>
        hf ((propertyKey_pick_eq_role hrole f.type f.target).1 e.symm)
      rw [if_neg hkey, ih]
      simp [lastFilterFor, List.filter_append, hf]


theorem isAttributeOperand_iff (k : Str) :
    isAttributeOperand k = true ↔
      (k = "disabled".toList ∨ k = "class".toList ∨ k = "readonly".toList) := by
  simp [isAttributeOperand, or_assoc]

theorem value_step (b : ElementBinding) (v : OperandSpec) (a : List Str)
    (ha : v.attributes = some a) :
    ∃ b2, lowerEntry b "value".toList v = .ok b2 ∧
      jsObjGet b2 "observe".toList = some (.val (_assignOneOrArray a)) ∧
      (∀ role ∈ callbackRoles, jsObjGet b2 role =
        match lastFilterFor role (v.filters.getD []) with
        | some f => some (.val (.str f.name))
        | none => jsObjGet b role) ∧
      (∀ K, K ≠ "observe".toList → K ∉ filterKeys → jsObjGet b2 K = jsObjGet b K) := by
  refine ⟨eachValueFilter (jsObjSet b "observe".toList (.val (_assignOneOrArray a)))
    (v.filters.getD []), ?_, ?_, ?_, ?_⟩
  · simp only [lowerEntry, if_pos, ha]
    cases v.filters <;> rfl
  · rw [eachValueFilter_get_other _ _ (by decide), jsObjGet_jsObjSet]
    rfl
  · intro role hrole
    rw [eachValueFilter_get_role _ hrole, jsObjGet_jsObjSet]
    have h1 : ¬ role = "observe".toList := by
      intro e
      rw [e] at hrole
      exact absurd hrole (by decide)
    rw [if_neg (by decide), if_neg h1]
  · intro K hK1 hK2
    rw [eachValueFilter_get_other _ _ hK2, jsObjGet_jsObjSet, if_neg (by decide), if_neg hK1]

theorem events_step (b : ElementBinding) (v : OperandSpec) (t : List Str)
    (ht : v.types = some t) :
    ∃ b2, lowerEntry b "events".toList v = .ok b2 ∧
      jsObjGet b2 "events".toList = some (.val (.arr t)) ∧
      (∀ K, K ≠ "events".toList → jsObjGet b2 K = jsObjGet b K) := by
  refine ⟨jsObjSet b "events".toList (.val (.arr t)), ?_, ?_, ?_⟩
  · have h1 : ¬ "events".toList = "value".toList := by decide
    have h2 : ¬ ("events".toList = "disabled".toList ∨ "events".toList = "class".toList ∨
        "events".toList = "readonly".toList) := by decide
    simp only [lowerEntry, if_neg h1, if_neg h2, if_pos, ht, rest, List.drop_zero]
  · rw [jsObjGet_jsObjSet]
    rfl
  · intro K hK
    rw [jsObjGet_jsObjSet, if_neg (by decide), if_neg hK]

theorem other_step (b : ElementBinding) (k : Str) (v : OperandSpec)
    (h1 : k ≠ "value".toList) (h2 : isAttributeOperand k = false) (h3 : k ≠ "events".toList) :
    lowerEntry b k v = .ok b := by
  have h2b : ¬ (k = "disabled".toList ∨ k = "class".toList ∨ k = "readonly".toList) := by
    rw [← isAttributeOperand_iff, h2]
    decide
  simp only [lowerEntry, if_neg h1, if_neg h2b, if_neg h3]

theorem attr_step (b : ElementBinding) (k : Str) (v : OperandSpec) (a : List Str)
    (hk : isAttributeOperand k = true) (ha : v.attributes = some a)
    (hinv : AttributesIsArray b) :
    ∃ b2, lowerEntry b k v = .ok b2 ∧
      jsObjGet b2 "attributes".toList =
        some (.attrs (attrList b ++ [attrOf k (_assignOneOrArray a) v.filters])) ∧
      (∀ K, K ≠ "attributes".toList → jsObjGet b2 K = jsObjGet b K) := by
  have h1 : ¬ k = "value".toList := by
    intro e
    rw [e] at hk
    exact absurd hk (by decide)
  have h2 := (isAttributeOperand_iff k).1 hk
  rcases hinv with hnone | ⟨l, hl⟩
  · refine ⟨jsObjSet (jsObjSet b "attributes".toList (.attrs [])) "attributes".toList
      (.attrs ([] ++ [attrOf k (_assignOneOrArray a) v.filters])), ?_, ?_, ?_⟩
    · have hget : jsObjGet (jsObjSet b "attributes".toList (BindVal.attrs []))
          "attributes".toList = some (BindVal.attrs []) := by
        rw [jsObjGet_jsObjSet]
        rfl
      simp only [lowerEntry, if_neg h1, if_pos h2, hnone, ha, hget]
    · have hal : attrList b = [] := by simp only [attrList, hnone]
      rw [jsObjGet_jsObjSet, if_neg (by decide), if_pos rfl, hal]
    · intro K hK
      rw [jsObjGet_jsObjSet, if_neg (by decide), if_neg hK, jsObjGet_jsObjSet,
        if_neg (by decide), if_neg hK]
  · refine ⟨jsObjSet b "attributes".toList
      (.attrs (l ++ [attrOf k (_assignOneOrArray a) v.filters])), ?_, ?_, ?_⟩
    · simp only [lowerEntry, if_neg h1, if_pos h2, hl, ha]
    · have hal : attrList b = l := by simp only [attrList, hl]
      rw [jsObjGet_jsObjSet, if_neg (by decide), if_pos rfl, hal]
    · intro K hK
      rw [jsObjGet_jsObjSet, if_neg (by decide), if_neg hK]


theorem attrList_congr {b b2 : ElementBinding}
    (h : jsObjGet b2 "attributes".toList = jsObjGet b "attributes".toList) :
    attrList b2 = attrList b := by
  simp only [attrList, h]

theorem attributesIsArray_congr {b b2 : ElementBinding}
    (h : jsObjGet b2 "attributes".toList = jsObjGet b "attributes".toList)
    (hinv : AttributesIsArray b) : AttributesIsArray b2 := by
  unfold AttributesIsArray at *
  rw [h]
  exact hinv

theorem role_ne_of_mem {K : Str} (hK : K = "observe".toList ∨ K ∈ callbackRoles) :
    K ≠ "attributes".toList ∧ K ≠ "events".toList := by
  rcases hK with rfl | hK
  · decide
  · constructor
    · intro e
      rw [e] at hK
      exact absurd hK (by decide)
    · intro e
      rw [e] at hK
      exact absurd hK (by decide)

/-- The effect of one entry of the specification on the element binding. -/
theorem entry_step (b : ElementBinding) (k : Str) (v : OperandSpec) (hok : EntryOk k v)
    (hinv : AttributesIsArray b) :
    ∃ b2, lowerEntry b k v = .ok b2 ∧ AttributesIsArray b2 ∧
      (k ≠ "value".toList → ∀ K, (K = "observe".toList ∨ K ∈ callbackRoles) →
        jsObjGet b2 K = jsObjGet b K) ∧
      (k ≠ "events".toList → jsObjGet b2 "events".toList = jsObjGet b "events".toList) ∧
      attrList b2 = attrList b ++
        (if isAttributeOperand k = true then
          [attrOf k (_assignOneOrArray (v.attributes.getD [])) v.filters] else []) ∧
      (jsObjGet b2 "attributes".toList = none ↔
        jsObjGet b "attributes".toList = none ∧ isAttributeOperand k = false) := by
  by_cases hv : k = "value".toList
  · subst hv
    obtain ⟨a, ha⟩ := Option.ne_none_iff_exists'.1 (hok.1 (Or.inl rfl))
    obtain ⟨b2, h1, _, _, h4⟩ := value_step b v a ha
    have hattr := h4 "attributes".toList (by decide) (by decide)
    have hev := h4 "events".toList (by decide) (by decide)
    refine ⟨b2, h1, attributesIsArray_congr hattr hinv, fun h => absurd rfl h, fun _ => hev, ?_, ?_⟩
    · rw [attrList_congr hattr, if_neg (by decide), List.append_nil]
    · rw [hattr]
      exact ⟨fun h => ⟨h, by decide⟩, fun h => h.1⟩
  · by_cases hattrk : isAttributeOperand k = true
    · obtain ⟨a, ha⟩ := Option.ne_none_iff_exists'.1 (hok.1 (Or.inr hattrk))
      obtain ⟨b2, h1, h2, h3⟩ := attr_step b k v a hattrk ha hinv
      have hke : k ≠ "events".toList := by
        intro e
        rw [e] at hattrk
        exact absurd hattrk (by decide)
      refine ⟨b2, h1, Or.inr ⟨_, h2⟩, fun _ K hK => h3 K (role_ne_of_mem hK).1,
        fun _ => h3 _ (by decide), ?_, ?_⟩
      · rw [if_pos hattrk, ha]
        simp only [attrList, h2, Option.getD_some]
      · rw [h2, hattrk]
        exact ⟨fun h => (by cases h), fun h => (by cases h.2)⟩
    · have hattrk2 : isAttributeOperand k = false := by
        cases h : isAttributeOperand k
        · rfl
        · exact absurd h hattrk
      by_cases he : k = "events".toList
      · subst he
        obtain ⟨t, ht⟩ := Option.ne_none_iff_exists'.1 (hok.2 rfl)
        obtain ⟨b2, h1, _, h3⟩ := events_step b v t ht
        have hattr := h3 "attributes".toList (by decide)
        refine ⟨b2, h1, attributesIsArray_congr hattr hinv,
          fun _ K hK => h3 K (role_ne_of_mem hK).2, fun h => absurd rfl h, ?_, ?_⟩
        · rw [attrList_congr hattr, if_neg (by decide), List.append_nil]
        · rw [hattr]
          exact ⟨fun h => ⟨h, by decide⟩, fun h => h.1⟩
      · refine ⟨b, other_step b k v hv hattrk2 he, hinv, fun _ _ _ => rfl, fun _ => rfl, ?_, ?_⟩
        · rw [if_neg hattrk, List.append_nil]
        · exact ⟨fun h => ⟨h, hattrk2⟩, fun h => h.1⟩

theorem attributeOperands_cons (k : Str) (v : OperandSpec) (spec : BindingSpecification) :
    attributeOperands ((k, v) :: spec) =
      if isAttributeOperand k = true then (k, v) :: attributeOperands spec
      else attributeOperands spec := by
  cases h : isAttributeOperand k <;> simp only [attributeOperands, List.filter, h] <;> rfl

/-- The walk over a whole specification: it succeeds, the `value` and `events`
properties are touched only by their own entries, and the `attributes` array
gains one entry for each attribute-style operand, in order. -/
theorem eachEntry_fold : ∀ (spec : BindingSpecification) (b : ElementBinding),
    (∀ p ∈ spec, EntryOk p.1 p.2) → AttributesIsArray b →
    ∃ b2, eachEntry b spec = .ok b2 ∧ AttributesIsArray b2 ∧
      ((∀ p ∈ spec, p.1 ≠ "value".toList) → ∀ K, (K = "observe".toList ∨ K ∈ callbackRoles) →
        jsObjGet b2 K = jsObjGet b K) ∧
      ((∀ p ∈ spec, p.1 ≠ "events".toList) →
        jsObjGet b2 "events".toList = jsObjGet b "events".toList) ∧
      attrList b2 = attrList b ++
        (attributeOperands spec).map
          (fun p => attrOf p.1 (_assignOneOrArray (p.2.attributes.getD [])) p.2.filters) ∧
      (jsObjGet b2 "attributes".toList = none ↔
        jsObjGet b "attributes".toList = none ∧ attributeOperands spec = [])
  | [], b, _, hinv =>
    ⟨b, rfl, hinv, fun _ _ _ => rfl, fun _ => rfl, (List.append_nil _).symm,
      ⟨fun h => ⟨h, rfl⟩, fun h => h.1⟩⟩
  | (k, v) :: spec, b, hok, hinv => by
    obtain ⟨b1, h1, hinv1, hval1, hev1, hlist1, hnone1⟩ :=
      entry_step b k v (hok (k, v) (List.mem_cons_self _ _)) hinv
    obtain ⟨b2, h2, hinv2, hval2, hev2, hlist2, hnone2⟩ :=
      eachEntry_fold spec b1 (fun p hp => hok p (List.mem_cons_of_mem _ hp)) hinv1
    refine ⟨b2, ?_, hinv2, ?_, ?_, ?_, ?_⟩
    · simp only [eachEntry, h1, h2]
    · intro hno K hK
      rw [hval2 (fun p hp => hno p (List.mem_cons_of_mem _ hp)) K hK,
        hval1 (hno (k, v) (List.mem_cons_self _ _)) K hK]
    · intro hno
      rw [hev2 (fun p hp => hno p (List.mem_cons_of_mem _ hp)),
        hev1 (hno (k, v) (List.mem_cons_self _ _))]
    · rw [hlist2, hlist1, List.append_assoc, attributeOperands_cons]
      congr 1
      by_cases hk : isAttributeOperand k = true
      · rw [if_pos hk, if_pos hk]
        rfl
      · rw [if_neg hk, if_neg hk]
        rfl
    · rw [hnone2, hnone1, attributeOperands_cons]
      by_cases hk : isAttributeOperand k = true
      · rw [if_pos hk]
        constructor
        · rintro ⟨⟨_, hf⟩, _⟩
          rw [hk] at hf
          cases hf
        · rintro ⟨_, hnil⟩
          cases hnil
      · rw [if_neg hk]
        have hk2 : isAttributeOperand k = false := by
          cases h : isAttributeOperand k
          · rfl
          · exact absurd h hk
        exact ⟨fun h => ⟨h.1.1, h.2⟩, fun h => ⟨⟨h.1, hk2⟩, h.2⟩⟩


theorem jsObjGet_mem {β : Type} {k : Str} {v : β} :
    ∀ {o : List (Str × β)}, jsObjGet o k = some v → (k, v) ∈ o
  | [], h => by simp [jsObjGet] at h
  | (a, b) :: o, h => by
    unfold jsObjGet at h
    split at h
    · next hak =>
      cases h
      rw [hak]
      exact List.mem_cons_self _ _
    · exact List.mem_cons_of_mem _ (jsObjGet_mem h)

theorem key_mem_of_mem {β : Type} {k : Str} {v : β} {o : List (Str × β)} (h : (k, v) ∈ o) :
    k ∈ o.map Prod.fst :=
  List.mem_map.2 ⟨(k, v), h, rfl⟩

/-- The walk over a specification whose operand names are unique and that has
a `value` entry: `observe` and the callback roles are, at the end, what this
entry made of them. -/
theorem eachEntry_value : ∀ (spec : BindingSpecification) (b : ElementBinding)
    (v : OperandSpec) (a : List Str),
    (∀ p ∈ spec, EntryOk p.1 p.2) → AttributesIsArray b → (spec.map Prod.fst).Nodup →
    ("value".toList, v) ∈ spec → v.attributes = some a →
    ∃ b2, eachEntry b spec = .ok b2 ∧
      jsObjGet b2 "observe".toList = some (.val (_assignOneOrArray a)) ∧
      ∀ role ∈ callbackRoles, jsObjGet b2 role =
        match lastFilterFor role (v.filters.getD []) with
        | some f => some (.val (.str f.name))
        | none => jsObjGet b role
  | [], _, _, _, _, _, _, hmem, _ => absurd hmem (List.not_mem_nil _)
  | (k, w) :: spec, b, v, a, hok, hinv, hnodup, hmem, ha => by
    have hnd := List.nodup_cons.1 hnodup
    have hokrest : ∀ p ∈ spec, EntryOk p.1 p.2 := fun p hp => hok p (List.mem_cons_of_mem _ hp)
    obtain ⟨b1, h1, hinv1, hval1, -, -, -⟩ :=
      entry_step b k w (hok (k, w) (List.mem_cons_self _ _)) hinv
    by_cases hk : k = "value".toList
    · subst hk
      have hwv : w = v := by
        rcases List.mem_cons.1 hmem with h | h
        · exact (Prod.mk.inj h).2.symm
        · exact absurd (key_mem_of_mem h) hnd.1
      subst hwv
      obtain ⟨b1v, h1v, hobs, hroles, -⟩ := value_step b w a ha
      have hb : b1v = b1 := by
        rw [h1] at h1v
        cases h1v
        rfl
      subst hb
      have hno : ∀ p ∈ spec, p.1 ≠ "value".toList := by
        intro p hp e
        exact hnd.1 (e ▸ List.mem_map.2 ⟨p, hp, rfl⟩)
      obtain ⟨b2, h2, -, hval2, -, -, -⟩ := eachEntry_fold spec b1v hokrest hinv1
      refine ⟨b2, by simp only [eachEntry, h1, h2], ?_, ?_⟩
      · rw [hval2 hno _ (Or.inl rfl), hobs]
      · intro role hrole
        rw [hval2 hno _ (Or.inr hrole), hroles role hrole]
    · have hmem2 : ("value".toList, v) ∈ spec := by
        rcases List.mem_cons.1 hmem with h | h
        · exact absurd (Prod.mk.inj h).1.symm hk
        · exact h
      obtain ⟨b2, h2, hobs, hroles⟩ := eachEntry_value spec b1 v a hokrest hinv1 hnd.2 hmem2 ha
      refine ⟨b2, by simp only [eachEntry, h1, h2], hobs, ?_⟩
      intro role hrole
      rw [hroles role hrole, hval1 hk role (Or.inr hrole)]

theorem eachEntry_events : ∀ (spec : BindingSpecification) (b : ElementBinding)
    (v : OperandSpec) (t : List Str),
    (∀ p ∈ spec, EntryOk p.1 p.2) → AttributesIsArray b → (spec.map Prod.fst).Nodup →
    ("events".toList, v) ∈ spec → v.types = some t →
    ∃ b2, eachEntry b spec = .ok b2 ∧
      jsObjGet b2 "events".toList = some (.val (.arr t))
  | [], _, _, _, _, _, _, hmem, _ => absurd hmem (List.not_mem_nil _)
  | (k, w) :: spec, b, v, t, hok, hinv, hnodup, hmem, ht => by
    have hnd := List.nodup_cons.1 hnodup
    have hokrest : ∀ p ∈ spec, EntryOk p.1 p.2 := fun p hp => hok p (List.mem_cons_of_mem _ hp)
    obtain ⟨b1, h1, hinv1, -, -, -, -⟩ :=
      entry_step b k w (hok (k, w) (List.mem_cons_self _ _)) hinv
    by_cases hk : k = "events".toList
    · subst hk
      have hwv : w = v := by
        rcases List.mem_cons.1 hmem with h | h
        · exact (Prod.mk.inj h).2.symm
        · exact absurd (key_mem_of_mem h) hnd.1
      subst hwv
      obtain ⟨b1v, h1v, hev, -⟩ := events_step b w t ht
      have hb : b1v = b1 := by
        rw [h1] at h1v
        cases h1v
        rfl
      subst hb
      have hno : ∀ p ∈ spec, p.1 ≠ "events".toList := by
        intro p hp e
        exact hnd.1 (e ▸ List.mem_map.2 ⟨p, hp, rfl⟩)
      obtain ⟨b2, h2, -, -, hev2, -, -⟩ := eachEntry_fold spec b1v hokrest hinv1
      exact ⟨b2, by simp only [eachEntry, h1, h2], by rw [hev2 hno, hev]⟩
    · have hmem2 : ("events".toList, v) ∈ spec := by
        rcases List.mem_cons.1 hmem with h | h
        · exact absurd (Prod.mk.inj h).1.symm hk
        · exact h
      obtain ⟨b2, h2, hev⟩ := eachEntry_events spec b1 v t hokrest hinv1 hnd.2 hmem2 ht
      exact ⟨b2, by simp only [eachEntry, h1, h2], hev⟩

theorem processBindingSpecification_result {spec : BindingSpecification} {b : ElementBinding}
    (h : eachEntry [] spec = .ok b) (element : Option JQueryElement) (idCounter : Nat) :
    (_processBindingSpecification spec element idCounter).result =
      .ok [('#' :: propertyKey (elementId element idCounter).1, b)] := by
  simp only [_processBindingSpecification, h]
  rfl

theorem attrOf_eq_spec (k : Str) (v : OperandSpec) :
    attrOf k (_assignOneOrArray (v.attributes.getD [])) v.filters = specAttributeBinding k v := by
  unfold attrOf specAttributeBinding
  rcases hf : v.filters with _ | ⟨_ | ⟨f, fs⟩⟩
  · rfl
  · rfl
  · simp only
    rcases propertyKey_pick_cases f.type f.target with h | h | h | h | h <;> rw [h] <;> rfl


theorem lowerable_entries {spec : BindingSpecification} (h : Lowerable spec) :
    ∀ p ∈ spec, EntryOk p.1 p.2 := h.2

theorem attributesIsArray_nil : AttributesIsArray [] := Or.inl rfl

/-- C7. For every canonical specification with a `value` entry,
`_processBindingSpecification` returns the element binding whose `observe` is
the one-or-many collapse of `value.attributes` and in which each of the four
callback roles holds the name of the last filter of `value.filters` that has
this role; a role that no filter has is absent. -/
theorem C7_value_lowering (spec : BindingSpecification) (element : Option JQueryElement)
    (idCounter : Nat) (value : OperandSpec) (attributes : List Str)
    (hspec : Lowerable spec)
    (hvalue : jsObjGet spec "value".toList = some value)
    (hattributes : value.attributes = some attributes) :
    ∃ binding,
      (_processBindingSpecification spec element idCounter).result =
        .ok [('#' :: propertyKey (elementId element idCounter).1, binding)] ∧
      jsObjGet binding "observe".toList = some (.val (_assignOneOrArray attributes)) ∧
      ∀ role ∈ callbackRoles, jsObjGet binding role =
        (lastFilterFor role (value.filters.getD [])).map (fun f => .val (.str f.name)) := by
  obtain ⟨b, hb, hobs, hroles⟩ := eachEntry_value spec [] value attributes
    (lowerable_entries hspec) attributesIsArray_nil hspec.1 (jsObjGet_mem hvalue) hattributes
  refine ⟨b, processBindingSpecification_result hb element idCounter, hobs, ?_⟩
  intro role hrole
  rw [hroles role hrole]
  cases lastFilterFor role (value.filters.getD []) <;> rfl

/-- C7, at the specification compiled from
`value:a+b|+f|g+|+h,disabled:isFullTime,class:isImportant|+classSelector|-x,events:blur+keyup`,
for an element without identifier: `observe` is the array, `onGet` holds the
later of the two filters with that role, the roles without filter are absent. -/
theorem C7_value_lowering_witness :
    _parseBindingDeclaration
      "value:a+b|+f|g+|+h,disabled:isFullTime,class:isImportant|+classSelector|-x,events:blur+keyup".toList
      = .ok sampleSpecification ∧
    ∃ binding,
      (_processBindingSpecification sampleSpecification (some ⟨none⟩) 0).result =
        .ok [("#stickit_1".toList, binding)] ∧
      jsObjGet binding "observe".toList = some (.val (.arr ["a".toList, "b".toList])) ∧
      jsObjGet binding "onGet".toList = some (.val (.str "h".toList)) ∧
      jsObjGet binding "onSet".toList = some (.val (.str "g".toList)) ∧
      jsObjGet binding "updateView".toList = none ∧
      jsObjGet binding "updateModel".toList = none := by
  refine ⟨by decide, ?_⟩
  obtain ⟨b, h1, h2, h3⟩ := C7_value_lowering sampleSpecification (some ⟨none⟩) 0 sampleValue
    ["a".toList, "b".toList] (by decide) (by decide) rfl
  exact ⟨b, h1, h2, (h3 _ (by decide)).trans (by decide), (h3 _ (by decide)).trans (by decide),
    (h3 _ (by decide)).trans (by decide), (h3 _ (by decide)).trans (by decide)⟩


theorem parse_disabled_example :
    _parseBindingDeclaration "disabled:isFullTime".toList =
      .ok [("disabled".toList, { attributes := some ["isFullTime".toList] })] := by
  decide

theorem parse_class_example :
    _parseBindingDeclaration "class:isImportant|+classSelector".toList =
      .ok [("class".toList,
        { attributes := some ["isImportant".toList]
          filters := some
            [{ name := "classSelector".toList, type := "+".toList,
               target := "dom".toList }] })] := by
  decide

theorem parse_events_example :
    _parseBindingDeclaration "events:blur+keyup".toList =
      .ok [("events".toList, { types := some ["blur".toList, "keyup".toList] })] := by
  decide

/-- C8. For every canonical specification, `_processBindingSpecification`
returns the element binding whose `attributes` array has exactly one entry for
each operand named `disabled`, `class` or `readonly`, in enumeration order
(the property is absent when there is no such operand); the entry has the
operand name as `name`, the collapsed attribute list as `observe`, no callback
when the operand has no filter, and otherwise the one callback keyed by the
role of the first filter and valued by its name.  `disabled:isFullTime` gives
`name: disabled, observe: isFullTime`, and `class:isImportant|+classSelector`
gives `name: class, observe: isImportant, onGet: classSelector`. -/
theorem C8_attribute_operands :
    (∀ (spec : BindingSpecification) (element : Option JQueryElement) (idCounter : Nat),
      Lowerable spec →
      ∃ binding,
        (_processBindingSpecification spec element idCounter).result =
          .ok [('#' :: propertyKey (elementId element idCounter).1, binding)] ∧
        jsObjGet binding "attributes".toList =
          if attributeOperands spec = [] then none
          else some (.attrs
            ((attributeOperands spec).map (fun p => specAttributeBinding p.1 p.2)))) ∧
    (∀ (element : Option JQueryElement) (idCounter : Nat),
      (_processBindingDeclaration "disabled:isFullTime".toList element idCounter).result =
        .ok [('#' :: propertyKey (elementId element idCounter).1,
          [("attributes".toList, .attrs
            [[("name".toList, .str "disabled".toList),
              ("observe".toList, .str "isFullTime".toList)]])])]) ∧
    (∀ (element : Option JQueryElement) (idCounter : Nat),
      (_processBindingDeclaration "class:isImportant|+classSelector".toList
          element idCounter).result =
        .ok [('#' :: propertyKey (elementId element idCounter).1,
          [("attributes".toList, .attrs
            [[("name".toList, .str "class".toList),
              ("observe".toList, .str "isImportant".toList),
              ("onGet".toList, .str "classSelector".toList)]])])]) := by
  refine ⟨?_, ?_, ?_⟩
  · intro spec element idCounter hspec
    obtain ⟨b, hb, hinv, -, -, hlist, hnone⟩ :=
      eachEntry_fold spec [] (lowerable_entries hspec) attributesIsArray_nil
    refine ⟨b, processBindingSpecification_result hb element idCounter, ?_⟩
    have hmap : (attributeOperands spec).map
        (fun p => attrOf p.1 (_assignOneOrArray (p.2.attributes.getD [])) p.2.filters) =
        (attributeOperands spec).map (fun p => specAttributeBinding p.1 p.2) :=
      List.map_congr_left (fun p _ => attrOf_eq_spec p.1 p.2)
    by_cases hempty : attributeOperands spec = []
    · rw [if_pos hempty]
      exact hnone.2 ⟨rfl, hempty⟩
    · rw [if_neg hempty]
      rcases hinv with h | ⟨l, hl⟩
      · exact absurd (hnone.1 h).2 hempty
      · have hal : attrList b = l := by simp only [attrList, hl]
        rw [hl, ← hal, hlist, hmap]
        rfl
  · intro element idCounter
    simp only [_processBindingDeclaration, parse_disabled_example, _processBindingSpecification]
    rfl
  · intro element idCounter
    simp only [_processBindingDeclaration, parse_class_example, _processBindingSpecification]
    rfl

/-- C8, at the sample specification: its `disabled` and `class` entries give
two attribute bindings; the second filter of `class` is ignored. -/
theorem C8_attribute_operands_witness :
    Lowerable sampleSpecification ∧
    ∃ binding,
      (_processBindingSpecification sampleSpecification (some ⟨some "el".toList⟩) 7).result =
        .ok [("#el".toList, binding)] ∧
      jsObjGet binding "attributes".toList = some (.attrs
        [[("name".toList, .str "disabled".toList),
          ("observe".toList, .str "isFullTime".toList)],
         [("name".toList, .str "class".toList),
          ("observe".toList, .str "isImportant".toList),
          ("onGet".toList, .str "classSelector".toList)]]) := by
  refine ⟨by decide, ?_⟩
  obtain ⟨b, h1, h2⟩ :=
    C8_attribute_operands.1 sampleSpecification (some ⟨some "el".toList⟩) 7 (by decide)
  exact ⟨b, h1, h2.trans (by decide)⟩

/-- C9, as the code has it: for every canonical specification with an
`events` entry, `_processBindingSpecification` returns the element binding
whose `events` property is the list of the parsed event names, in order; in
particular `events:blur+keyup` lowers to `events: ["blur","keyup"]`. -/
theorem C9_events_lowering :
    (∀ (spec : BindingSpecification) (element : Option JQueryElement) (idCounter : Nat)
      (events : OperandSpec) (types : List Str),
      Lowerable spec → jsObjGet spec "events".toList = some events →
      events.types = some types →
      ∃ binding,
        (_processBindingSpecification spec element idCounter).result =
          .ok [('#' :: propertyKey (elementId element idCounter).1, binding)] ∧
        jsObjGet binding "events".toList = some (.val (.arr types))) ∧
    (∀ (element : Option JQueryElement) (idCounter : Nat),
      (_processBindingDeclaration "events:blur+keyup".toList element idCounter).result =
        .ok [('#' :: propertyKey (elementId element idCounter).1,
          [("events".toList, .val (.arr ["blur".toList, "keyup".toList]))])]) := by
  refine ⟨?_, ?_⟩
  · intro spec element idCounter events types hspec hevents htypes
    obtain ⟨b, hb, hev⟩ := eachEntry_events spec [] events types
      (lowerable_entries hspec) attributesIsArray_nil hspec.1 (jsObjGet_mem hevents) htypes
    exact ⟨b, processBindingSpecification_result hb element idCounter, hev⟩
  · intro element idCounter
    simp only [_processBindingDeclaration, parse_events_example, _processBindingSpecification]
    rfl

/-- C9, at the sample specification. -/
theorem C9_events_lowering_witness :
    ∃ binding,
      (_processBindingSpecification sampleSpecification (some ⟨some "el".toList⟩) 7).result =
        .ok [("#el".toList, binding)] ∧
      jsObjGet binding "events".toList =
        some (.val (.arr ["blur".toList, "keyup".toList])) :=
  C9_events_lowering.1 sampleSpecification (some ⟨some "el".toList⟩) 7
    { types := some ["blur".toList, "keyup".toList] } _ (by decide) (by decide) rfl

/-- C9, as stated, fails: the element binding that `events:blur+keyup` lowers
to has no `types` property. -/
theorem C9_events_counterexample :
    ¬ ∃ selector binding,
      (_processBindingDeclaration "events:blur+keyup".toList
        (some ⟨some "el".toList⟩) 0).result = .ok [(selector, binding)] ∧
      jsObjGet binding "types".toList =
        some (.val (.arr ["blur".toList, "keyup".toList])) := by
  rintro ⟨selector, binding, hres, htypes⟩
  have hlow : (_processBindingDeclaration "events:blur+keyup".toList
      (some ⟨some "el".toList⟩) 0).result =
      .ok [("#el".toList,
        [("events".toList, .val (.arr ["blur".toList, "keyup".toList]))])] := by
    decide
  rw [hlow] at hres
  cases hres
  revert htypes
  decide


theorem jsObjHas_eq_false_iff {β : Type} (k : Str) :
    ∀ o : List (Str × β), jsObjHas o k = false ↔ k ∉ o.map Prod.fst
  | [] => by
    constructor
    · intro _ h
      cases h
    · intro _
      rfl
  | (a, b) :: o => by
    have ih := jsObjHas_eq_false_iff k o
    rw [jsObjHas_cons, Bool.or_eq_false_iff, ih, List.map_cons, List.mem_cons, not_or]
    constructor
    · rintro ⟨h1, h2⟩
      refine ⟨fun e => ?_, h2⟩
      rw [e] at h1
      simp at h1
    · rintro ⟨h1, h2⟩
      refine ⟨?_, h2⟩
      cases hak : (a == k)
      · rfl
      · exact absurd (beq_iff_eq.1 hak).symm h1

theorem jsObjReplace_keys {β : Type} (k : Str) (v : β) :
    ∀ o : List (Str × β), (jsObjReplace k v o).map Prod.fst = o.map Prod.fst
  | [] => rfl
  | (a, b) :: o => by
    unfold jsObjReplace
    split
    · rfl
    · rw [List.map_cons, List.map_cons, jsObjReplace_keys k v o]

theorem jsObjInsertNew_keys_perm {β : Type} (k : Str) (v : β) :
    ∀ o : List (Str × β), ((jsObjInsertNew k v o).map Prod.fst).Perm (k :: o.map Prod.fst)
  | [] => List.Perm.refl _
  | (a, b) :: o => by
    unfold jsObjInsertNew
    split
    · exact List.Perm.refl _
    · rw [List.map_cons, List.map_cons]
      exact ((jsObjInsertNew_keys_perm k v o).cons a).trans (List.Perm.swap k a _)

theorem jsObjSet_keys_nodup {β : Type} (o : List (Str × β)) (k : Str) (v : β)
    (h : (o.map Prod.fst).Nodup) : ((jsObjSet o k v).map Prod.fst).Nodup := by
  unfold jsObjSet
  split
  · exact h
  · split
    · rw [jsObjReplace_keys]
      exact h
    · next hhas =>
      have hno : jsObjHas o k = false := by
        cases hh : jsObjHas o k
        · rfl
        · exact absurd hh hhas
      rw [(jsObjInsertNew_keys_perm k v o).nodup_iff]
      exact List.nodup_cons.2 ⟨(jsObjHas_eq_false_iff k o).1 hno, h⟩

theorem mem_jsObjReplace {β : Type} (k : Str) (v : β) (p : Str × β) :
    ∀ o : List (Str × β), p ∈ jsObjReplace k v o → p ∈ o ∨ p = (k, v)
  | [], h => by cases h
  | (a, b) :: o, h => by
    unfold jsObjReplace at h
    split at h
    · next hak =>
      rcases List.mem_cons.1 h with h1 | h1
      · right
        rw [h1, hak]
      · exact Or.inl (List.mem_cons_of_mem _ h1)
    · rcases List.mem_cons.1 h with h1 | h1
      · left
        rw [h1]
        exact List.mem_cons_self _ _
      · rcases mem_jsObjReplace k v p o h1 with h2 | h2
        · exact Or.inl (List.mem_cons_of_mem _ h2)
        · exact Or.inr h2

theorem mem_jsObjInsertNew {β : Type} (k : Str) (v : β) (p : Str × β) :
    ∀ o : List (Str × β), p ∈ jsObjInsertNew k v o → p ∈ o ∨ p = (k, v)
  | [], h => by
    rcases List.mem_cons.1 h with h1 | h1
    · exact Or.inr h1
    · cases h1
  | (a, b) :: o, h => by
    unfold jsObjInsertNew at h
    split at h
    · rcases List.mem_cons.1 h with h1 | h1
      · exact Or.inr h1
      · exact Or.inl h1
    · rcases List.mem_cons.1 h with h1 | h1
      · left
        rw [h1]
        exact List.mem_cons_self _ _
      · rcases mem_jsObjInsertNew k v p o h1 with h2 | h2
        · exact Or.inl (List.mem_cons_of_mem _ h2)
        · exact Or.inr h2

theorem mem_jsObjSet {β : Type} {o : List (Str × β)} {k : Str} {v : β} {p : Str × β}
    (h : p ∈ jsObjSet o k v) : p ∈ o ∨ p = (k, v) := by
  unfold jsObjSet at h
  split at h
  · exact Or.inl h
  · split at h
    · exact mem_jsObjReplace k v p o h
    · exact mem_jsObjInsertNew k v p o h

theorem eachFilter_attributes : ∀ (tokens : List Str) (spec : OperandSpec),
    (eachFilter spec tokens).1.attributes = spec.attributes
  | [], _ => rfl
  | t :: tokens, spec => by
    unfold eachFilter
    split
    · rfl
    · split
      · rfl
      · rw [eachFilter_attributes tokens]

theorem parseDataBound_attributes (spec : OperandSpec) (d : Str) :
    (_parseDataBoundOperandDeclaration spec d).1.attributes ≠ none := by
  obtain ⟨spec1, d1, h1⟩ := parseModelQualifier_returns spec d
  have h2 : ∃ spec2 r, _parseModelAttributeDeclaration spec1 (some d1) = (spec2, .ok r) ∧
      spec2.attributes ≠ none := by
    unfold _parseModelAttributeDeclaration
    rcases hsp : jsSplit '|' d1 with _ | ⟨a, l⟩
    · exact absurd hsp (jsSplit_ne_nil _ _)
    · simp only [hsp]
      split
      · exact ⟨_, _, rfl, by simp⟩
      · exact ⟨_, _, rfl, by simp⟩
  obtain ⟨spec2, r, h2, hattr⟩ := h2
  simp only [_parseDataBoundOperandDeclaration, h1, h2]
  cases r with
  | none => exact hattr
  | some chain =>
    simp only [_parseFilterDeclaration]
    rw [eachFilter_attributes]
    exact hattr

theorem operandSwitch_entryOk (operand d : Str) : EntryOk operand (operandSwitch operand d).1 := by
  unfold operandSwitch
  split
  · next he =>
    subst he
    refine ⟨fun h => ?_, fun _ => ?_⟩
    · exact absurd h (by decide)
    · have hlen := jsSplit_length '+' d
      simp only [_parseEventsOperandDeclaration]
      rw [if_neg (by omega)]
      simp
  · next hne =>
    refine ⟨fun _ => ?_, fun h => absurd h hne⟩
    split
    · exact parseDataBound_attributes _ d
    · exact parseDataBound_attributes _ d

theorem parseBindingOperand_lowerable (spec : BindingSpecification) (c : Str)
    (h : Lowerable spec) : Lowerable (_parseBindingOperand spec c).1 := by
  by_cases hlen : (jsSplit ':' c).length = 2
  · rcases hsp : jsSplit ':' c with _ | ⟨a, _ | ⟨b, _ | ⟨x, l⟩⟩⟩
    · rw [hsp] at hlen
      cases hlen
    · rw [hsp] at hlen
      cases hlen
    · rw [parseBindingOperand_of_split hsp]
      refine ⟨jsObjSet_keys_nodup _ _ _ h.1, fun p hp => ?_⟩
      rcases mem_jsObjSet hp with h1 | h1
      · exact h.2 p h1
      · rw [h1]
        exact operandSwitch_entryOk a b
    · rw [hsp] at hlen
      simp at hlen
  · rw [parseBindingOperand_of_length hlen]
    exact h

theorem eachOperand_lowerable : ∀ (tokens : List Str) (spec : BindingSpecification),
    Lowerable spec → Lowerable (eachOperand spec tokens).1
  | [], _, h => h
  | t :: tokens, spec, h => by
    have h1 := parseBindingOperand_lowerable spec t h
    unfold eachOperand
    split
    · next spec2 e heq =>
      rw [heq] at h1
      exact h1
    · next spec2 heq =>
      rw [heq] at h1
      exact eachOperand_lowerable tokens spec2 h1

/-- Every specification that `_parseBindingDeclaration` returns can be walked
by the lowerer. -/
theorem lowerable_of_parse {d : Str} {spec : BindingSpecification}
    (h : _parseBindingDeclaration d = .ok spec) : Lowerable spec := by
  have hl := eachOperand_lowerable (splitTopRE 0 d) []
    ⟨List.nodup_nil, fun p hp => absurd hp (List.not_mem_nil p)⟩
  unfold _parseBindingDeclaration at h
  split at h
  · cases h
  · next spec2 heq =>
    cases h
    rw [heq] at hl
    exact hl

/-! ## The model qualifier and the operand dispatcher -/

/-- The first segment of a split and the split of what follows the separator. -/
theorem jsSplit_eq (sep : Char) : ∀ s : Str,
    jsSplit sep s = s.takeWhile (· != sep) ::
      (match s.dropWhile (· != sep) with
       | [] => []
       | _ :: r => jsSplit sep r)
  | [] => rfl
  | c :: cs => by
    have ih := jsSplit_eq sep cs
    by_cases h : c = sep
    · subst h
      simp [jsSplit]
    · simp only [jsSplit, if_neg h]
      rw [ih]
      simp [List.takeWhile_cons, List.dropWhile_cons, h]

theorem not_mem_iff_count_zero (c : Char) (s : Str) : c ∉ s ↔ s.count c = 0 := by
  rw [List.count_eq_zero]

theorem parseModelQualifier_of_not_mem (spec : OperandSpec) (p : Str) (h : '#' ∉ p) :
    _parseModelQualifierDeclaration spec p = (spec, some p) := by
  have hs := jsSplit_of_count_zero '#' p ((not_mem_iff_count_zero _ _).1 h)
  simp [_parseModelQualifierDeclaration, hs]

theorem parseModelQualifier_of_count_one (spec : OperandSpec) (p : Str)
    (h : p.count '#' = 1) :
    _parseModelQualifierDeclaration spec p =
      ({ spec with model := some (p.takeWhile (· != '#')) },
        some ((p.dropWhile (· != '#')).drop 1)) := by
  have hs := jsSplit_of_count_one '#' p h
  simp [_parseModelQualifierDeclaration, hs]

/-- C11. `_parseModelQualifierDeclaration` never fails; a payload without `#`
is returned whole and no model is recorded; a payload with exactly one `#`
records the text before it as the model and returns the text after it.  With
two or more `#` the code returns only the text between the first and the
second `#`: for `employee#address#zip|+fmt` it returns `address`, so the rest
of the expression and its filter chain are dropped, and a declaration such as
`value:a#b#c|foo-bar-baz` compiles although its filter token is malformed. -/
theorem C11_model_qualifier :
    (∀ (spec : OperandSpec) (p : Str),
      ∃ s r, _parseModelQualifierDeclaration spec p = (s, some r)) ∧
    (∀ (spec : OperandSpec) (p : Str), '#' ∉ p →
      _parseModelQualifierDeclaration spec p = (spec, some p)) ∧
    (∀ (spec : OperandSpec) (p : Str), p.count '#' = 1 →
      _parseModelQualifierDeclaration spec p =
        ({ spec with model := some (p.takeWhile (· != '#')) },
          some ((p.dropWhile (· != '#')).drop 1))) ∧
    _parseModelQualifierDeclaration {} "employee#address#zip|+fmt".toList =
      ({ model := some "employee".toList }, some "address".toList) ∧
    _parseBindingDeclaration "value:a#b#c|foo-bar-baz".toList =
      .ok [("value".toList, { model := some "a".toList, attributes := some ["b".toList] })] :=
  ⟨parseModelQualifier_returns, parseModelQualifier_of_not_mem,
    parseModelQualifier_of_count_one, by decide, by decide⟩

theorem eachFilter_modelNames (x : Option (List Str)) : ∀ (tokens : List Str)
    (spec : OperandSpec),
    eachFilter (withModelNames x spec) tokens =
      (withModelNames x (eachFilter spec tokens).1, (eachFilter spec tokens).2)
  | [], _ => rfl
  | t :: tokens, ⟨m, a, f, ty, mn⟩ => by
    unfold eachFilter
    cases filterSpecificationOf t with
    | error e => rfl
    | ok fs =>
      cases f with
      | none => rfl
      | some l => exact eachFilter_modelNames x tokens ⟨m, a, some (l ++ [fs]), ty, mn⟩

theorem parseDataBound_modelNames (x : Option (List Str)) (spec : OperandSpec) (p : Str) :
    _parseDataBoundOperandDeclaration (withModelNames x spec) p =
      (withModelNames x (_parseDataBoundOperandDeclaration spec p).1,
        (_parseDataBoundOperandDeclaration spec p).2) := by
  obtain ⟨m, a0, f, ty, mn⟩ := spec
  unfold _parseDataBoundOperandDeclaration _parseModelQualifierDeclaration
    _parseModelAttributeDeclaration _parseFilterDeclaration
  rcases jsSplit '#' p with _ | ⟨a, _ | ⟨b, l⟩⟩
  · rfl
  · simp only [List.length_singleton, gt_iff_lt, lt_self_iff_false, if_false,
      List.getElem?_cons_zero]
    rcases jsSplit '|' a with _ | ⟨h, _ | ⟨t, l2⟩⟩
    · rfl
    · rfl
    · simp only [List.length_cons, if_neg (by omega : ¬ (l2.length + 1 + 1 = 1))]
      exact eachFilter_modelNames x _
        ⟨m, some (pushEach [] (jsSplit '+' h)), some [], ty, mn⟩
  · have hlen : (a :: b :: l).length > 1 := by simp
    simp only [if_pos hlen, List.getElem?_cons_zero, List.getElem?_cons_succ]
    rcases jsSplit '|' b with _ | ⟨h, _ | ⟨t, l2⟩⟩
    · rfl
    · rfl
    · simp only [List.length_cons, if_neg (by omega : ¬ (l2.length + 1 + 1 = 1))]
      exact eachFilter_modelNames x _
        ⟨some a, some (pushEach [] (jsSplit '+' h)), some [], ty, mn⟩
theorem pushEach_eq {α : Type} (target list : List α) : pushEach target list = target ++ list := by
  unfold pushEach
  induction list generalizing target with
  | nil => simp
  | cons a l ih => simp [List.foldl_cons, ih]

theorem jsJoin_jsSplit (sep : Char) : ∀ s : Str, jsJoin sep (jsSplit sep s) = s
  | [] => rfl
  | c :: cs => by
    have ih := jsJoin_jsSplit sep cs
    unfold jsSplit
    by_cases h : c = sep
    · subst h
      rw [if_pos rfl]
      rcases hs : jsSplit c cs with _ | ⟨a, l⟩
      · exact absurd hs (jsSplit_ne_nil _ _)
      · rw [hs] at ih
        simp only [jsJoin, List.intercalate, List.intersperse, List.flatten] at ih ⊢
        rw [← ih]
        rfl
    · rw [if_neg h]
      rcases hs : jsSplit sep cs with _ | ⟨a, l⟩
      · exact absurd hs (jsSplit_ne_nil _ _)
      · rw [hs] at ih
        simp only
        rw [← ih]
        cases l <;> rfl

theorem not_mem_of_mem_jsSplit (sep : Char) : ∀ (s : Str) (x : Str), x ∈ jsSplit sep s → sep ∉ x
  | [], x, hx => by
    simp only [jsSplit, List.mem_singleton] at hx
    rw [hx]
    exact List.not_mem_nil _
  | c :: cs, x, hx => by
    have ih := not_mem_of_mem_jsSplit sep cs
    unfold jsSplit at hx
    by_cases h : c = sep
    · rw [if_pos h] at hx
      rcases List.mem_cons.1 hx with h1 | h1
      · rw [h1]
        exact List.not_mem_nil _
      · exact ih x h1
    · rw [if_neg h] at hx
      rcases hs : jsSplit sep cs with _ | ⟨a, l⟩
      · exact absurd hs (jsSplit_ne_nil _ _)
      · rw [hs] at hx ih
        rcases List.mem_cons.1 hx with h1 | h1
        · rw [h1]
          intro hmem
          rcases List.mem_cons.1 hmem with h2 | h2
          · exact h h2.symm
          · exact ih a (List.mem_cons_self _ _) h2
        · exact ih x (List.mem_cons_of_mem _ h1)

theorem jsSplit_cons_of_ne {sep c : Char} (h : c ≠ sep) (cs : Str) :
    jsSplit sep (c :: cs) =
      match jsSplit sep cs with
      | [] => [[c]]
      | a :: t => (c :: a) :: t := by
  rw [jsSplit, if_neg h]

theorem jsSplit_append_sep (sep : Char) : ∀ (a : Str) (s : Str), sep ∉ a →
    jsSplit sep (a ++ sep :: s) = a :: jsSplit sep s
  | [], s, _ => by simp [jsSplit]
  | c :: a, s, h => by
    have hc : c ≠ sep := fun e => h (e ▸ List.mem_cons_self _ _)
    have ha : sep ∉ a := fun e => h (List.mem_cons_of_mem _ e)
    have ih := jsSplit_append_sep sep a s ha
    rw [List.cons_append, jsSplit_cons_of_ne hc, ih]

theorem jsSplit_jsJoin (sep : Char) : ∀ l : List Str, l ≠ [] → (∀ x ∈ l, sep ∉ x) →
    jsSplit sep (jsJoin sep l) = l
  | [], h, _ => absurd rfl h
  | [a], _, hall => by
    have ha : sep ∉ a := hall a (List.mem_cons_self _ _)
    have : jsJoin sep [a] = a := by simp [jsJoin, List.intercalate]
    rw [this]
    exact jsSplit_of_count_zero sep a ((not_mem_iff_count_zero _ _).1 ha)
  | a :: b :: l, _, hall => by
    have ha : sep ∉ a := hall a (List.mem_cons_self _ _)
    have ih := jsSplit_jsJoin sep (b :: l) (List.cons_ne_nil _ _)
      (fun x hx => hall x (List.mem_cons_of_mem _ hx))
    have : jsJoin sep (a :: b :: l) = a ++ sep :: jsJoin sep (b :: l) := by
      simp [jsJoin, List.intercalate, List.intersperse]
    rw [this, jsSplit_append_sep sep a _ ha, ih]
theorem eachFilter_frame : ∀ (tokens : List Str) (spec : OperandSpec),
    (eachFilter spec tokens).1 = { spec with filters := (eachFilter spec tokens).1.filters }
  | [], _ => rfl
  | t :: tokens, ⟨m, a, f, ty, mn⟩ => by
    unfold eachFilter
    cases filterSpecificationOf t with
    | error e => rfl
    | ok fs =>
      cases f with
      | none => rfl
      | some l =>
        have ih := eachFilter_frame tokens ⟨m, a, some (l ++ [fs]), ty, mn⟩
        simp only
        rw [ih]

/-- The filters after the loop: what was there, followed by the filter
specifications of the tokens that were reached; when nothing is thrown, one
for each token, in order. -/
theorem eachFilter_filters : ∀ (tokens : List Str) (spec : OperandSpec)
    (fs : List FilterSpecification), spec.filters = some fs →
    ∃ out, (eachFilter spec tokens).1.filters = some (fs ++ out) ∧
      (∀ f ∈ out, ∃ t ∈ tokens, filterSpecificationOf t = .ok f) ∧
      ((eachFilter spec tokens).2 = none →
        List.Forall₂ (fun t f => filterSpecificationOf t = .ok f) tokens out)
  | [], spec, fs, h => ⟨[], by simpa [eachFilter] using h, fun f hf => absurd hf (List.not_mem_nil f),
      fun _ => List.Forall₂.nil⟩
  | t :: tokens, spec, fs, h => by
    unfold eachFilter
    cases hf : filterSpecificationOf t with
    | error e =>
      refine ⟨[], by simpa using h, fun f hf => absurd hf (List.not_mem_nil f), fun hn => ?_⟩
      simp at hn
    | ok f =>
      simp only [h]
      obtain ⟨out, h1, h2, h3⟩ := eachFilter_filters tokens
        { spec with filters := some (fs ++ [f]) } (fs ++ [f]) rfl
      refine ⟨f :: out, ?_, ?_, ?_⟩
      · rw [h1, List.append_assoc]
        rfl
      · intro g hg
        rcases List.mem_cons.1 hg with h4 | h4
        · exact ⟨t, List.mem_cons_self _ _, h4 ▸ hf⟩
        · obtain ⟨t2, ht2, hft2⟩ := h2 g h4
          exact ⟨t2, List.mem_cons_of_mem _ ht2, hft2⟩
      · intro hn
        exact List.Forall₂.cons hf (h3 hn)

/-- The data-bound parser in one piece: with `r` the expression that the
model qualifier leaves and `head :: tail` its `|`-segments, the attributes are
the `+`-segments of `head`, and the filter loop runs over `tail` when `tail`
is not empty. -/
theorem parseDataBound_eq {spec s1 : OperandSpec} {p r head : Str} {tail : List Str}
    (hq : _parseModelQualifierDeclaration spec p = (s1, some r))
    (hs : jsSplit '|' r = head :: tail) :
    _parseDataBoundOperandDeclaration spec p =
      if tail = [] then ({ s1 with attributes := some (jsSplit '+' head) }, none)
      else eachFilter { s1 with attributes := some (jsSplit '+' head), filters := some [] } tail := by
  simp only [_parseDataBoundOperandDeclaration, hq, _parseModelAttributeDeclaration, hs,
    pushEach_eq, List.nil_append]
  cases tail with
  | nil => simp [_parseFilterDeclaration]
  | cons t tail =>
    have hne : ¬ ((head :: t :: tail).length = 1) := by simp
    have htail : ∀ x ∈ t :: tail, '|' ∉ x := fun x hx =>
      not_mem_of_mem_jsSplit '|' r x (hs ▸ List.mem_cons_of_mem _ hx)
    simp only [if_neg hne, _parseFilterDeclaration, rest, List.drop_succ_cons, List.drop_zero,
      jsSplit_jsJoin '|' (t :: tail) (List.cons_ne_nil _ _) htail]
    simp

theorem parseModelQualifier_model (spec : OperandSpec) (p : Str) :
    (_parseModelQualifierDeclaration spec p).1 =
      if '#' ∈ p then { spec with model := some (p.takeWhile (· != '#')) } else spec := by
  by_cases h : '#' ∈ p
  · rw [if_pos h]
    have hlen := jsSplit_length '#' p
    have hcount : 0 < p.count '#' := List.count_pos_iff.2 h
    have heq := jsSplit_eq '#' p
    unfold _parseModelQualifierDeclaration
    rw [heq] at hlen ⊢
    have hgt : (List.takeWhile (fun x => x != '#') p ::
        match List.dropWhile (fun x => x != '#') p with
        | [] => []
        | _ :: r => jsSplit '#' r).length > 1 := by omega
    simp only [if_pos hgt, List.getElem?_cons_zero]
  · rw [if_neg h, parseModelQualifier_of_not_mem spec p h]
theorem jsSplit_model_clause (p : Str) (h : ':' ∉ p) :
    jsSplit ':' ("model:".toList ++ p) = ["model".toList, p] := by
  have h0 := jsSplit_of_count_zero ':' p ((not_mem_iff_count_zero _ _).1 h)
  have h1 : "model:".toList ++ p = "model".toList ++ ':' :: p := rfl
  rw [h1, jsSplit_append_sep ':' "model".toList p (by decide), h0]

theorem operandSwitch_model (p : Str) :
    operandSwitch "model".toList p =
      (withModelNames (some (jsSplit '+' p)) (_parseDataBoundOperandDeclaration {} p).1,
        (_parseDataBoundOperandDeclaration {} p).2) := by
  have h1 : ¬ "model".toList = "events".toList := by decide
  simp only [operandSwitch, if_neg h1, if_pos, _parseModelOperandDeclaration, pushEach_eq,
    List.nil_append]
  exact parseDataBound_modelNames (some (jsSplit '+' p)) {} p

theorem operandSwitch_events (p : Str) :
    operandSwitch "events".toList p = ({ types := some (jsSplit '+' p) }, none) := by
  have hlen := jsSplit_length '+' p
  simp only [operandSwitch, if_pos, _parseEventsOperandDeclaration, pushEach_eq, List.nil_append]
  rw [if_neg (by omega)]

theorem operandSwitch_other {k : Str} (h1 : k ≠ "events".toList) (h2 : k ≠ "model".toList)
    (p : Str) : operandSwitch k p = _parseDataBoundOperandDeclaration {} p := by
  simp only [operandSwitch, if_neg h1, if_neg h2]

/-- The fields of the object that the data-bound parser fills from scratch. -/
theorem parseDataBound_fields (p : Str) :
    (_parseDataBoundOperandDeclaration {} p).1.attributes ≠ none ∧
    ((_parseDataBoundOperandDeclaration {} p).1.model ≠ none ↔ '#' ∈ p) ∧
    ((_parseDataBoundOperandDeclaration {} p).1.filters ≠ none ↔
      ∃ r, (_parseModelQualifierDeclaration {} p).2 = some r ∧ '|' ∈ r) ∧
    (_parseDataBoundOperandDeclaration {} p).1.types = none ∧
    (_parseDataBoundOperandDeclaration {} p).1.modelNames = none := by
  obtain ⟨s1, r, hq⟩ := parseModelQualifier_returns {} p
  have hs1 := parseModelQualifier_model {} p
  rw [hq] at hs1
  simp only at hs1
  rcases hsp : jsSplit '|' r with _ | ⟨head, tail⟩
  · exact absurd hsp (jsSplit_ne_nil _ _)
  have hlen := jsSplit_length '|' r
  rw [hsp] at hlen
  have hpipe : '|' ∈ r ↔ tail ≠ [] := by
    rw [← List.count_pos_iff]
    constructor
    · intro h e
      rw [e] at hlen
      simp at hlen
      omega
    · intro h
      cases tail with
      | nil => exact absurd rfl h
      | cons t tail =>
        simp at hlen
        omega
  have hmodel : s1.model ≠ none ↔ '#' ∈ p := by
    rw [hs1]
    by_cases h : '#' ∈ p
    · simp [h]
    · simp [h]
  have hty : s1.types = none ∧ s1.modelNames = none := by
    rw [hs1]
    split <;> exact ⟨rfl, rfl⟩
  have hfil : s1.filters = none := by
    rw [hs1]
    split <;> rfl
  rw [parseDataBound_eq hq hsp, hq]
  by_cases ht : tail = []
  · rw [if_pos ht]
    refine ⟨by simp, hmodel, ?_, hty.1, hty.2⟩
    simp only [hfil, ne_eq, not_true_eq_false, false_iff, not_exists, not_and]
    intro r2 hr2
    cases hr2
    rw [hpipe]
    exact fun h => h ht
  · rw [if_neg ht]
    obtain ⟨out, hout, -, -⟩ := eachFilter_filters tail
      { s1 with attributes := some (jsSplit '+' head), filters := some [] } [] rfl
    rw [eachFilter_frame]
    refine ⟨by simp, hmodel, ?_, hty.1, hty.2⟩
    simp only [hout]
    constructor
    · intro _
      exact ⟨r, rfl, hpipe.2 ht⟩
    · intro _
      simp

/-- C12, as the code has it.  The `model` case falls through: for every
payload `p` the object under `model` has `modelNames` (the `+`-segments of
`p`) and otherwise exactly the fields the data-bound parser produces for `p`,
and the clause `model:p` fails exactly as data-bound parsing of `p` does.  The
data-bound parser always produces `attributes`, produces `model` exactly when
`p` contains `#`, and produces `filters` exactly when the expression that the
model qualifier returns for `p` contains a pipe; it never sets `types` or
`modelNames`.  A clause named `events` gets only `types`, and every other
operand name gets only the data-bound fields. -/
theorem C12_model_fall_through :
    (∀ p : Str,
      operandSwitch "model".toList p =
        (withModelNames (some (jsSplit '+' p)) (_parseDataBoundOperandDeclaration {} p).1,
          (_parseDataBoundOperandDeclaration {} p).2)) ∧
    (∀ (spec : BindingSpecification) (p : Str), ':' ∉ p →
      _parseBindingOperand spec ("model:".toList ++ p) =
        (jsObjSet spec "model".toList
            (withModelNames (some (jsSplit '+' p)) (_parseDataBoundOperandDeclaration {} p).1),
          (_parseDataBoundOperandDeclaration {} p).2)) ∧
    (∀ p : Str,
      (_parseDataBoundOperandDeclaration {} p).1.attributes ≠ none ∧
      ((_parseDataBoundOperandDeclaration {} p).1.model ≠ none ↔ '#' ∈ p) ∧
      ((_parseDataBoundOperandDeclaration {} p).1.filters ≠ none ↔
        ∃ r, (_parseModelQualifierDeclaration {} p).2 = some r ∧ '|' ∈ r) ∧
      (_parseDataBoundOperandDeclaration {} p).1.types = none ∧
      (_parseDataBoundOperandDeclaration {} p).1.modelNames = none) ∧
    (∀ p : Str, operandSwitch "events".toList p = ({ types := some (jsSplit '+' p) }, none)) ∧
    (∀ (k p : Str), k ≠ "events".toList → k ≠ "model".toList →
      operandSwitch k p = _parseDataBoundOperandDeclaration {} p) := by
  refine ⟨operandSwitch_model, ?_, parseDataBound_fields, operandSwitch_events,
    fun k p h1 h2 => operandSwitch_other h1 h2 p⟩
  intro spec p hp
  rw [parseBindingOperand_of_split (jsSplit_model_clause p hp), operandSwitch_model]

/-- C12, at the clause `model:employee#address.zip|+fmt` on an empty
specification. -/
theorem C12_model_fall_through_witness :
    _parseBindingOperand [] "model:employee#address.zip|+fmt".toList =
      ([("model".toList,
        { model := some "employee".toList
          attributes := some ["address.zip".toList]
          filters := some [{ name := "fmt".toList, type := "+".toList, target := "dom".toList }]
          modelNames := some ["employee#address.zip|".toList, "fmt".toList] })], none) :=
  (C12_model_fall_through.2.1 [] "employee#address.zip|+fmt".toList (by decide)).trans
    (by decide)

/-- C12, as stated, fails: the payload `m|x#a` contains a pipe, yet the object
that the clause `model:m|x#a` produces has no `filters`. -/
theorem C12_model_fall_through_counterexample :
    '|' ∈ "m|x#a".toList ∧
    _parseBindingOperand [] "model:m|x#a".toList =
      ([("model".toList,
        { model := some "m|x".toList
          attributes := some ["a".toList]
          filters := none
          modelNames := some ["m|x#a".toList] })], none) := by
  decide

/-! ## Operands the lowerer does not know -/

theorem isRecognizedOperand_false {k : Str} (h : isRecognizedOperand k = false) :
    k ≠ "value".toList ∧ isAttributeOperand k = false ∧ k ≠ "events".toList := by
  simp only [isRecognizedOperand, Bool.or_eq_false_iff, beq_eq_false_iff_ne, ne_eq] at h
  exact ⟨h.1.1, h.1.2, h.2⟩

theorem eachEntry_filter_recognized : ∀ (spec : BindingSpecification) (b : ElementBinding),
    eachEntry b (spec.filter (fun p => isRecognizedOperand p.1)) = eachEntry b spec
  | [], _ => rfl
  | (k, v) :: spec, b => by
    cases hk : isRecognizedOperand k
    · obtain ⟨h1, h2, h3⟩ := isRecognizedOperand_false hk
      rw [List.filter_cons_of_neg (by simp [hk]), eachEntry_filter_recognized spec b]
      simp only [eachEntry, other_step b k v h1 h2 h3]
    · rw [List.filter_cons_of_pos (by simp [hk])]
      simp only [eachEntry]
      cases lowerEntry b k v with
      | error e => rfl
      | ok b1 => exact eachEntry_filter_recognized spec b1

theorem isRecognizedOperand_iff (k : Str) :
    isRecognizedOperand k = true ↔
      k ∈ ["value".toList, "disabled".toList, "class".toList, "readonly".toList,
        "events".toList] := by
  simp only [isRecognizedOperand, isAttributeOperand, Bool.or_eq_true, beq_iff_eq,
    List.mem_cons, List.mem_singleton, List.not_mem_nil, or_false]
  tauto

/-- C13. Lowering ignores every operand outside `value`, `disabled`, `class`,
`readonly` and `events`: for every specification, element and counter,
`_processBindingSpecification` gives the same result (same returned structure
or thrown value, same element, same counter) as on the specification with the
`model` entry and every other unrecognised entry removed. -/
theorem C13_unrecognised_operands_ignored :
    (∀ k : Str, isRecognizedOperand k = true ↔
      k ∈ ["value".toList, "disabled".toList, "class".toList, "readonly".toList,
        "events".toList]) ∧
    (∀ (spec : BindingSpecification) (element : Option JQueryElement) (idCounter : Nat),
      _processBindingSpecification spec element idCounter =
        _processBindingSpecification (spec.filter (fun p => isRecognizedOperand p.1))
          element idCounter) := by
  refine ⟨isRecognizedOperand_iff, fun spec element idCounter => ?_⟩
  simp only [_processBindingSpecification, eachEntry_filter_recognized]

/-! ## The declaration compiler: failure, last write wins -/

/-- What a clause throws does not depend on the specification built so far. -/
theorem parseBindingOperand_thrown (spec : BindingSpecification) (c : Str) :
    (_parseBindingOperand spec c).2 = (_parseBindingOperand [] c).2 := by
  unfold _parseBindingOperand
  rcases jsSplit ':' c with _ | ⟨a, _ | ⟨b, _ | ⟨x, l⟩⟩⟩ <;> rfl

/-- A clause that throws nothing has exactly one `:`. -/
theorem split_of_thrown_none {c : Str} (h : (_parseBindingOperand [] c).2 = none) :
    jsSplit ':' c = [operandOf c, payloadOf c] := by
  have hlen : (jsSplit ':' c).length = 2 := by
    by_contra hne
    rw [parseBindingOperand_of_length hne] at h
    cases h
  rw [jsSplit_length] at hlen
  exact jsSplit_of_count_one ':' c (by omega)

theorem parseBindingOperand_of_thrown_none (spec : BindingSpecification) {c : Str}
    (h : (_parseBindingOperand [] c).2 = none) :
    _parseBindingOperand spec c =
      (jsObjSet spec (operandOf c) (operandSwitch (operandOf c) (payloadOf c)).1, none) := by
  have hs := split_of_thrown_none h
  have h2 := parseBindingOperand_thrown spec c
  rw [h] at h2
  rw [parseBindingOperand_of_split hs] at h2 ⊢
  simp only at h2
  rw [h2]

theorem eachOperand_of_all_none : ∀ (cs : List Str) (spec : BindingSpecification),
    (∀ c ∈ cs, (_parseBindingOperand [] c).2 = none) → (eachOperand spec cs).2 = none
  | [], _, _ => rfl
  | c :: cs, spec, h => by
    have hc := h c (List.mem_cons_self _ _)
    simp only [eachOperand, parseBindingOperand_of_thrown_none spec hc]
    exact eachOperand_of_all_none cs _ (fun x hx => h x (List.mem_cons_of_mem _ hx))

theorem eachOperand_first_failure : ∀ (pre : List Str) (c : Str) (post : List Str)
    (spec : BindingSpecification) (e : JsThrow),
    (∀ x ∈ pre, (_parseBindingOperand [] x).2 = none) → (_parseBindingOperand [] c).2 = some e →
    (eachOperand spec (pre ++ c :: post)).2 = some e
  | [], c, post, spec, e, _, hc => by
    have h2 := parseBindingOperand_thrown spec c
    rw [hc] at h2
    rcases hp : _parseBindingOperand spec c with ⟨s, t⟩
    rw [hp] at h2
    simp only at h2
    subst h2
    simp only [List.nil_append, eachOperand, hp]
  | p :: pre, c, post, spec, e, hpre, hc => by
    have hp := hpre p (List.mem_cons_self _ _)
    simp only [List.cons_append, eachOperand, parseBindingOperand_of_thrown_none spec hp]
    exact eachOperand_first_failure pre c post _ e
      (fun x hx => hpre x (List.mem_cons_of_mem _ hx)) hc

theorem all_none_of_eachOperand : ∀ (cs : List Str) (spec : BindingSpecification),
    (eachOperand spec cs).2 = none → ∀ c ∈ cs, (_parseBindingOperand [] c).2 = none
  | [], _, _ => fun c hc => absurd hc (List.not_mem_nil c)
  | c :: cs, spec, h => by
    cases hc : (_parseBindingOperand [] c).2 with
    | some e =>
      have := eachOperand_first_failure [] c cs spec e
        (fun x hx => absurd hx (List.not_mem_nil x)) hc
      rw [List.nil_append, h] at this
      cases this
    | none =>
      intro x hx
      rcases List.mem_cons.1 hx with h1 | h1
      · rw [h1]
        exact hc
      · simp only [eachOperand, parseBindingOperand_of_thrown_none spec hc] at h
        exact all_none_of_eachOperand cs _ h x h1

theorem parseBindingDeclaration_eq (d : Str) :
    _parseBindingDeclaration d =
      match (eachOperand [] (splitTopRE 0 d)).2 with
      | some e => .error e
      | none => .ok (eachOperand [] (splitTopRE 0 d)).1 := by
  unfold _parseBindingDeclaration
  rcases eachOperand [] (splitTopRE 0 d) with ⟨s, _ | e⟩ <;> rfl

/-- A specification returned by the compiler is lowered without a throw. -/
theorem lowering_of_parse_ok {d : Str} {spec : BindingSpecification}
    (h : _parseBindingDeclaration d = .ok spec) (element : Option JQueryElement)
    (idCounter : Nat) :
    ∃ binding, (_processBindingDeclaration d element idCounter).result =
      .ok [('#' :: propertyKey (elementId element idCounter).1, binding)] := by
  obtain ⟨b, hb, -⟩ := eachEntry_fold spec [] (lowerable_entries (lowerable_of_parse h))
    attributesIsArray_nil
  refine ⟨b, ?_⟩
  simp only [_processBindingDeclaration, h]
  exact processBindingSpecification_result hb element idCounter

/-- C17. All or nothing: when the dispatcher fails on a clause of the
declaration (whatever specification has been built so far), then
`_parseBindingDeclaration` throws the condition of the leftmost failing clause
and returns no specification, and `_processBindingDeclaration` throws the
same condition, returns no binding structure and touches neither the element
nor the identifier counter; the other clauses play no part.  Compilation
succeeds exactly when every clause is dispatched successfully, and the
specification is then lowered without a throw. -/
theorem C17_all_or_nothing (d : Str) :
    (∀ (spec : BindingSpecification) (c : Str),
      (_parseBindingOperand spec c).2 = (_parseBindingOperand [] c).2) ∧
    (∀ (pre : List Str) (c : Str) (post : List Str) (e : JsThrow),
      splitTopRE 0 d = pre ++ c :: post →
      (∀ x ∈ pre, (_parseBindingOperand [] x).2 = none) →
      (_parseBindingOperand [] c).2 = some e →
      _parseBindingDeclaration d = .error e ∧
      ∀ (element : Option JQueryElement) (idCounter : Nat),
        _processBindingDeclaration d element idCounter =
          { result := .error e, jQueryElement := element, idCounter := idCounter }) ∧
    ((∃ spec, _parseBindingDeclaration d = .ok spec) ↔
      ∀ c ∈ splitTopRE 0 d, (_parseBindingOperand [] c).2 = none) ∧
    (∀ (spec : BindingSpecification) (element : Option JQueryElement) (idCounter : Nat),
      _parseBindingDeclaration d = .ok spec →
      ∃ out, (_processBindingDeclaration d element idCounter).result = .ok out) := by
  refine ⟨parseBindingOperand_thrown, ?_, ?_, ?_⟩
  · intro pre c post e hsplit hpre hc
    have hthrown := eachOperand_first_failure pre c post [] e hpre hc
    have hparse : _parseBindingDeclaration d = .error e := by
      rw [parseBindingDeclaration_eq, hsplit, hthrown]
    refine ⟨hparse, fun element idCounter => ?_⟩
    simp only [_processBindingDeclaration, hparse]
  · rw [parseBindingDeclaration_eq]
    constructor
    · rintro ⟨spec, hspec⟩
      apply all_none_of_eachOperand _ []
      cases ht : (eachOperand [] (splitTopRE 0 d)).2 with
      | none => rfl
      | some e =>
        rw [ht] at hspec
        cases hspec
    · intro hall
      rw [eachOperand_of_all_none _ [] hall]
      exact ⟨_, rfl⟩
  · intro spec element idCounter hspec
    obtain ⟨b, hb⟩ := lowering_of_parse_ok hspec element idCounter
    exact ⟨_, hb⟩

/-- C17, at the declaration `value:a, class:b|x, valueemployee`: the second
clause is the leftmost failing one, so its condition is thrown and not the
third clause's. -/
theorem C17_all_or_nothing_witness :
    _parseBindingDeclaration "value:a, class:b|x, valueemployee".toList =
      .error (.bindingParse ⟨"bad filter format".toList, "x".toList⟩) ∧
    ∀ (element : Option JQueryElement) (idCounter : Nat),
      _processBindingDeclaration "value:a, class:b|x, valueemployee".toList element idCounter =
        { result := .error (.bindingParse ⟨"bad filter format".toList, "x".toList⟩)
          jQueryElement := element, idCounter := idCounter } :=
  (C17_all_or_nothing "value:a, class:b|x, valueemployee".toList).2.1
    ["value:a".toList] "class:b|x".toList ["valueemployee".toList]
    (.bindingParse ⟨"bad filter format".toList, "x".toList⟩) (by decide) (by decide) (by decide)

theorem jsObjGet_proto_jsObjSet {β : Type} (o : List (Str × β)) (k : Str) (v : β) :
    jsObjGet (jsObjSet o k v) "__proto__".toList = jsObjGet o "__proto__".toList := by
  rw [jsObjGet_jsObjSet]
  by_cases hk : k = "__proto__".toList
  · rw [if_pos hk]
  · rw [if_neg hk, if_neg (fun e => hk e.symm)]

theorem lastClauseNamed_cons (k c : Str) (cs : List Str) :
    lastClauseNamed k (c :: cs) =
      match lastClauseNamed k cs with
      | some x => some x
      | none => if operandOf c = k then some c else none := rfl

/-- The entry under `k` after the loop over the clauses: that of the last
clause named `k` parsed on its own, or what was there before when no clause
has this name. -/
theorem eachOperand_get : ∀ (cs : List Str) (spec : BindingSpecification) (k : Str),
    jsObjGet spec "__proto__".toList = none →
    (∀ c ∈ cs, (_parseBindingOperand [] c).2 = none) →
    jsObjGet (eachOperand spec cs).1 k =
      match lastClauseNamed k cs with
      | some c => jsObjGet (_parseBindingOperand [] c).1 k
      | none => jsObjGet spec k
  | [], _, _, _, _ => rfl
  | c :: cs, spec, k, hproto, hall => by
    have hc := hall c (List.mem_cons_self _ _)
    have hrest : ∀ x ∈ cs, (_parseBindingOperand [] x).2 = none :=
      fun x hx => hall x (List.mem_cons_of_mem _ hx)
    have hstep := parseBindingOperand_of_thrown_none spec hc
    have hproto1 : jsObjGet (jsObjSet spec (operandOf c)
        (operandSwitch (operandOf c) (payloadOf c)).1) "__proto__".toList = none := by
      rw [jsObjGet_proto_jsObjSet, hproto]
    have ih := eachOperand_get cs _ k hproto1 hrest
    simp only [eachOperand, hstep]
    rw [ih, lastClauseNamed_cons]
    cases lastClauseNamed k cs with
    | some x => rfl
    | none =>
      simp only
      rw [jsObjGet_jsObjSet]
      by_cases hk : operandOf c = k
      · rw [if_pos hk]
        simp only
        rw [parseBindingOperand_of_thrown_none [] hc]
        simp only
        rw [jsObjGet_jsObjSet]
        by_cases hp : operandOf c = "__proto__".toList
        · rw [if_pos hp, if_pos hp, ← hk, hp, hproto]
          rfl
        · rw [if_neg hp, if_neg hp, if_pos hk.symm, if_pos hk.symm]
      · rw [if_neg hk]
        by_cases hp : operandOf c = "__proto__".toList
        · rw [if_pos hp]
        · rw [if_neg hp, if_neg (fun e => hk e.symm)]

theorem lastClauseNamed_eq_getLast (k : Str) : ∀ cs : List Str,
    lastClauseNamed k cs = (cs.filter (fun c => decide (operandOf c = k))).getLast?
  | [] => rfl
  | c :: cs => by
    rw [lastClauseNamed_cons, lastClauseNamed_eq_getLast k cs]
    by_cases hk : operandOf c = k
    · rw [List.filter_cons_of_pos (by simpa using hk), List.getLast?_cons, if_pos hk]
      cases (cs.filter (fun c => decide (operandOf c = k))).getLast? <;> rfl
    · rw [List.filter_cons_of_neg (by simpa using hk), if_neg hk]
      cases (cs.filter (fun c => decide (operandOf c = k))).getLast? <;> rfl

/-- C14. Last write wins.  For every declaration that compiles, the entry of
the canonical specification under each operand name is exactly the entry
obtained by parsing the last clause with that name on its own (nothing of an
earlier clause with the same name survives, and a name no clause has is
absent); a duplicate raises nothing, since what a clause throws does not
depend on the specification built so far; and a declaration whose clauses are
the same up to the order of clauses with different operand names compiles to
the same mapping. -/
theorem C14_last_write_wins :
    (∀ (d : Str) (spec : BindingSpecification), _parseBindingDeclaration d = .ok spec →
      ∀ k : Str, jsObjGet spec k =
        match lastClauseNamed k (splitTopRE 0 d) with
        | some c => jsObjGet (_parseBindingOperand [] c).1 k
        | none => none) ∧
    (∀ (spec : BindingSpecification) (c : Str),
      (_parseBindingOperand spec c).2 = (_parseBindingOperand [] c).2) ∧
    (∀ (d1 d2 : Str) (spec1 : BindingSpecification), _parseBindingDeclaration d1 = .ok spec1 →
      (splitTopRE 0 d1).Perm (splitTopRE 0 d2) →
      (∀ k : Str, (splitTopRE 0 d1).filter (fun c => decide (operandOf c = k)) =
        (splitTopRE 0 d2).filter (fun c => decide (operandOf c = k))) →
      ∃ spec2, _parseBindingDeclaration d2 = .ok spec2 ∧
        ∀ k : Str, jsObjGet spec2 k = jsObjGet spec1 k) := by
  have hget : ∀ (d : Str) (spec : BindingSpecification), _parseBindingDeclaration d = .ok spec →
      (∀ c ∈ splitTopRE 0 d, (_parseBindingOperand [] c).2 = none) ∧
      ∀ k : Str, jsObjGet spec k =
        match lastClauseNamed k (splitTopRE 0 d) with
        | some c => jsObjGet (_parseBindingOperand [] c).1 k
        | none => none := by
    intro d spec hspec
    rw [parseBindingDeclaration_eq] at hspec
    cases ht : (eachOperand [] (splitTopRE 0 d)).2 with
    | some e =>
      rw [ht] at hspec
      cases hspec
    | none =>
      rw [ht] at hspec
      cases hspec
      have hall := all_none_of_eachOperand _ [] ht
      exact ⟨hall, fun k => eachOperand_get _ [] k rfl hall⟩
  refine ⟨fun d spec h => (hget d spec h).2, parseBindingOperand_thrown, ?_⟩
  intro d1 d2 spec1 h1 hperm hsame
  obtain ⟨hall1, hget1⟩ := hget d1 spec1 h1
  have hall2 : ∀ c ∈ splitTopRE 0 d2, (_parseBindingOperand [] c).2 = none :=
    fun c hc => hall1 c (hperm.mem_iff.2 hc)
  have h2 : _parseBindingDeclaration d2 = .ok (eachOperand [] (splitTopRE 0 d2)).1 := by
    rw [parseBindingDeclaration_eq, eachOperand_of_all_none _ [] hall2]
  refine ⟨_, h2, fun k => ?_⟩
  rw [(hget d2 _ h2).2 k, hget1 k, lastClauseNamed_eq_getLast, lastClauseNamed_eq_getLast,
    hsame k]

/-- C14, at `value:x|+f, class:b, value:a`: the `value` entry is that of the
last `value` clause (no filter of the first one survives), and swapping
clauses with different names gives the same mapping. -/
theorem C14_last_write_wins_witness :
    _parseBindingDeclaration "value:x|+f, class:b, value:a".toList =
      .ok [("value".toList, { attributes := some ["a".toList] }),
           ("class".toList, { attributes := some ["b".toList] })] ∧
    (∀ k : Str,
      jsObjGet [("value".toList, ({ attributes := some ["a".toList] } : OperandSpec)),
           ("class".toList, { attributes := some ["b".toList] })] k =
        match lastClauseNamed k
          ["value:x|+f".toList, "class:b".toList, "value:a".toList] with
        | some c => jsObjGet (_parseBindingOperand [] c).1 k
        | none => none) ∧
    ∃ spec2, _parseBindingDeclaration "class:b, value:x|+f, value:a".toList = .ok spec2 ∧
      ∀ k : Str, jsObjGet spec2 k =
        jsObjGet [("value".toList, ({ attributes := some ["a".toList] } : OperandSpec)),
           ("class".toList, { attributes := some ["b".toList] })] k :=
  ⟨by decide,
    C14_last_write_wins.1 "value:x|+f, class:b, value:a".toList _ (by decide),
    C14_last_write_wins.2.2 "value:x|+f, class:b, value:a".toList
      "class:b, value:x|+f, value:a".toList _ (by decide)
      (by
        have h1 : splitTopRE 0 "value:x|+f, class:b, value:a".toList =
          ["value:x|+f".toList, "class:b".toList, "value:a".toList] := by decide
        have h2 : splitTopRE 0 "class:b, value:x|+f, value:a".toList =
          ["class:b".toList, "value:x|+f".toList, "value:a".toList] := by decide
        rw [h1, h2]
        exact List.Perm.swap _ _ _)
      (by
        have h1 : splitTopRE 0 "value:x|+f, class:b, value:a".toList =
          ["value:x|+f".toList, "class:b".toList, "value:a".toList] := by decide
        have h2 : splitTopRE 0 "class:b, value:x|+f, value:a".toList =
          ["class:b".toList, "value:x|+f".toList, "value:a".toList] := by decide
        have o1 : operandOf "value:x|+f".toList = "value".toList := by decide
        have o2 : operandOf "class:b".toList = "class".toList := by decide
        have o3 : operandOf "value:a".toList = "value".toList := by decide
        intro k
        rw [h1, h2]
        by_cases hv : "value".toList = k
        · have hc : ¬ "class".toList = k := by
            rw [← hv]
            decide
          have dv : decide ("value".toList = k) = true := decide_eq_true hv
          have dc : decide ("class".toList = k) = false := decide_eq_false hc
          simp only [List.filter, o1, o2, o3, dv, dc]
        · have dv : decide ("value".toList = k) = false := decide_eq_false hv
          cases dc : decide ("class".toList = k) <;>
            simp only [List.filter, o1, o2, o3, dv, dc])⟩

/-! ## The data model of compiled specifications -/

theorem wellFormed_of_filterSpecificationOf {t : Str} {f : FilterSpecification}
    (h : filterSpecificationOf t = .ok f) : WellFormedFilter f := by
  by_cases hs : FilterTokenShape t
  · have htype : ∀ c, typeOfSymbol c = FORMATTER_CHAR ∨ typeOfSymbol c = FILTER_CHAR := by
      intro c
      unfold typeOfSymbol
      split
      · exact Or.inr rfl
      · exact Or.inl rfl
    rcases hs with ⟨c, w, hc, hw, hall, rfl⟩ | ⟨c, w, hc, hw, hall, rfl⟩
    · rw [filterSpecificationOf_symbolThenRun hc hw hall] at h
      cases h
      exact ⟨hw, hall, htype c, Or.inl rfl⟩
    · rw [filterSpecificationOf_runThenSymbol hc hw hall] at h
      cases h
      exact ⟨hw, hall, htype c, Or.inr rfl⟩
  · rw [filterSpecificationOf_of_not_shape hs] at h
    cases h

theorem parseDataBound_dataModel (p : Str) :
    (∃ a, (_parseDataBoundOperandDeclaration {} p).1.attributes = some a ∧ a ≠ []) ∧
    (∀ fs, (_parseDataBoundOperandDeclaration {} p).1.filters = some fs →
      ∀ f ∈ fs, WellFormedFilter f) := by
  obtain ⟨s1, r, hq⟩ := parseModelQualifier_returns {} p
  have hs1 := parseModelQualifier_model {} p
  rw [hq] at hs1
  simp only at hs1
  have hfil : s1.filters = none := by
    rw [hs1]
    split <;> rfl
  rcases hsp : jsSplit '|' r with _ | ⟨head, tail⟩
  · exact absurd hsp (jsSplit_ne_nil _ _)
  rw [parseDataBound_eq hq hsp]
  by_cases ht : tail = []
  · rw [if_pos ht]
    refine ⟨⟨_, rfl, jsSplit_ne_nil _ _⟩, ?_⟩
    intro fs hfs
    simp only [hfil] at hfs
    cases hfs
  · rw [if_neg ht]
    obtain ⟨out, hout, hmem, -⟩ := eachFilter_filters tail
      { s1 with attributes := some (jsSplit '+' head), filters := some [] } [] rfl
    rw [eachFilter_frame]
    refine ⟨⟨_, rfl, jsSplit_ne_nil _ _⟩, ?_⟩
    intro fs hfs
    simp only [hout, List.nil_append, Option.some.injEq] at hfs
    subst hfs
    intro f hf
    obtain ⟨t, -, hft⟩ := hmem f hf
    exact wellFormed_of_filterSpecificationOf hft

theorem operandSwitch_dataModel (k p : Str) : DataModelEntry k (operandSwitch k p).1 := by
  by_cases he : k = "events".toList
  · subst he
    rw [operandSwitch_events]
    refine ⟨fun h => absurd rfl h, ?_, fun _ => ⟨_, rfl, jsSplit_ne_nil _ _⟩⟩
    intro fs hfs
    cases hfs
  · obtain ⟨hattr, hfil⟩ := parseDataBound_dataModel p
    by_cases hm : k = "model".toList
    · subst hm
      rw [operandSwitch_model]
      exact ⟨fun _ => hattr, hfil, fun h => absurd h he⟩
    · rw [operandSwitch_other he hm]
      exact ⟨fun _ => hattr, hfil, fun h => absurd h he⟩

/-- A property that every object built by the operand switch has holds for
every entry after the loop over the clauses. -/
theorem eachOperand_entries (P : Str → OperandSpec → Prop)
    (hP : ∀ k p, P k (operandSwitch k p).1) : ∀ (cs : List Str) (spec : BindingSpecification),
    (∀ e ∈ spec, P e.1 e.2) → ∀ e ∈ (eachOperand spec cs).1, P e.1 e.2
  | [], _, h => h
  | c :: cs, spec, h => by
    have hstep : ∀ e ∈ (_parseBindingOperand spec c).1, P e.1 e.2 := by
      by_cases hlen : (jsSplit ':' c).length = 2
      · rcases hsp : jsSplit ':' c with _ | ⟨a, _ | ⟨b, _ | ⟨x, l⟩⟩⟩
        · rw [hsp] at hlen
          cases hlen
        · rw [hsp] at hlen
          cases hlen
        · rw [parseBindingOperand_of_split hsp]
          intro e he
          rcases mem_jsObjSet he with h1 | h1
          · exact h e h1
          · rw [h1]
            exact hP a b
        · rw [hsp] at hlen
          simp at hlen
      · rw [parseBindingOperand_of_length hlen]
        exact h
    unfold eachOperand
    split
    · next spec2 e heq =>
      rw [heq] at hstep
      exact hstep
    · next spec2 heq =>
      rw [heq] at hstep
      exact eachOperand_entries P hP cs spec2 hstep

theorem parseBindingOperand_thrown_message {c : Str} {e : JsThrow}
    (h : (_parseBindingOperand [] c).2 = some e) :
    ∃ v, e = .bindingParse ⟨"binding element formatting error".toList, v⟩ ∨
      e = .bindingParse ⟨"bad filter format".toList, v⟩ := by
  by_cases hlen : (jsSplit ':' c).length = 2
  · rcases hsp : jsSplit ':' c with _ | ⟨a, _ | ⟨b, _ | ⟨x, l⟩⟩⟩
    · rw [hsp] at hlen
      cases hlen
    · rw [hsp] at hlen
      cases hlen
    · rw [parseBindingOperand_of_split hsp] at h
      rcases operandSwitch_thrown a b with h0 | ⟨t, ht⟩
      · rw [h0] at h
        cases h
      · rw [ht] at h
        cases h
        exact ⟨t, Or.inr rfl⟩
    · rw [hsp] at hlen
      simp at hlen
  · rw [parseBindingOperand_of_length hlen] at h
    cases h
    exact ⟨c, Or.inl rfl⟩

/-- A list with a failing clause has a leftmost failing clause. -/
theorem exists_first_failure : ∀ (cs : List Str) (c : Str), c ∈ cs →
    (_parseBindingOperand [] c).2 ≠ none →
    ∃ pre x post e, cs = pre ++ x :: post ∧
      (∀ y ∈ pre, (_parseBindingOperand [] y).2 = none) ∧
      (_parseBindingOperand [] x).2 = some e
  | [], c, hc, _ => absurd hc (List.not_mem_nil c)
  | y :: l, c, hc, hne => by
    cases hy : (_parseBindingOperand [] y).2 with
    | some e5 => exact ⟨[], y, l, e5, rfl, fun z hz => absurd hz (List.not_mem_nil z), hy⟩
    | none =>
      rcases List.mem_cons.1 hc with h1 | h1
      · rw [h1] at hne
        exact absurd hy hne
      · obtain ⟨pre, x, post, e4, h2, h3, h4⟩ := exists_first_failure l c h1 hne
        refine ⟨y :: pre, x, post, e4, by rw [h2]; rfl, ?_, h4⟩
        intro z hz
        rcases List.mem_cons.1 hz with h5 | h5
        · rw [h5]
          exact hy
        · exact h3 z h5

/-- The only conditions a compile can raise. -/
theorem parse_error_message {d : Str} {e : JsThrow} (h : _parseBindingDeclaration d = .error e) :
    ∃ v, e = .bindingParse ⟨"binding element formatting error".toList, v⟩ ∨
      e = .bindingParse ⟨"bad filter format".toList, v⟩ := by
  rw [parseBindingDeclaration_eq] at h
  cases ht : (eachOperand [] (splitTopRE 0 d)).2 with
  | none =>
    rw [ht] at h
    cases h
  | some e2 =>
    rw [ht] at h
    cases h
    by_contra hne
    have hall : ∀ c ∈ splitTopRE 0 d, (_parseBindingOperand [] c).2 = none := by
      intro c hc
      by_contra hcne
      have := exists_first_failure (splitTopRE 0 d) c hc hcne
      obtain ⟨pre, x, post, e4, h2, h3, h4⟩ := this
      have h5 := eachOperand_first_failure pre x post [] e4 h3 h4
      rw [← h2, ht] at h5
      cases h5
      exact hne (parseBindingOperand_thrown_message h4)
    rw [eachOperand_of_all_none _ [] hall] at ht
    cases ht

/-- C18. Every canonical specification returned by a successful compile
satisfies the data model: each entry other than `events` has a non-empty
`attributes` sequence, each filter specification in a `filters` sequence has
a non-empty name of letters, digits and underscores, type `'+'` or `'-'` and
target `'dom'` or `'model'`, and the `events` entry has a non-empty `types`
sequence.  The branch "at least one model attribute is required" is
unreachable: `_parseModelAttributeDeclaration` never throws it on a string,
and no compile ends with it. -/
theorem C18_data_model :
    (∀ (d : Str) (spec : BindingSpecification), _parseBindingDeclaration d = .ok spec →
      ∀ e ∈ spec, DataModelEntry e.1 e.2) ∧
    (∀ (spec : OperandSpec) (p : Str),
      ∃ s r, _parseModelAttributeDeclaration spec (some p) = (s, .ok r)) ∧
    (∀ (d : Str) (v : Str), _parseBindingDeclaration d ≠
      .error (.bindingParse ⟨"at least one model attribute is required".toList, v⟩)) := by
  refine ⟨?_, parseModelAttribute_returns, ?_⟩
  · intro d spec hspec
    rw [parseBindingDeclaration_eq] at hspec
    have hinv := eachOperand_entries DataModelEntry operandSwitch_dataModel (splitTopRE 0 d) []
      (fun e he => absurd he (List.not_mem_nil e))
    cases ht : (eachOperand [] (splitTopRE 0 d)).2 with
    | some e =>
      rw [ht] at hspec
      cases hspec
    | none =>
      rw [ht] at hspec
      cases hspec
      exact hinv
  · intro d v h
    obtain ⟨w, hw | hw⟩ := parse_error_message h
    · injection hw with hw
      injection hw with hmsg _
      exact absurd hmsg (by decide)
    · injection hw with hw
      injection hw with hmsg _
      exact absurd hmsg (by decide)

/-- C18, at the declaration `model:m, value:e#a+b|+f|g-, events:blur+keyup`. -/
theorem C18_data_model_witness :
    ∀ e ∈ ([("model".toList,
              { attributes := some ["m".toList], modelNames := some ["m".toList] }),
            ("value".toList,
              { model := some "e".toList
                attributes := some ["a".toList, "b".toList]
                filters := some
                  [{ name := "f".toList, type := "+".toList, target := "dom".toList },
                   { name := "g".toList, type := "-".toList, target := "model".toList }] }),
            ("events".toList, { types := some ["blur".toList, "keyup".toList] })] :
          BindingSpecification),
      DataModelEntry e.1 e.2 :=
  C18_data_model.1 "model:m, value:e#a+b|+f|g-, events:blur+keyup".toList _ (by decide)

/-! ## Element identifiers -/

theorem digitChar_value (k : Nat) (h : k < 10) : (Nat.digitChar k).toNat - 48 = k := by
  interval_cases k <;> rfl

theorem digitsValue_toDigitsCore : ∀ (fuel n : Nat) (ds : Str), n < fuel →
    digitsValue 0 (Nat.toDigitsCore 10 fuel n ds) = digitsValue n ds
  | 0, _, _, h => absurd h (Nat.not_lt_zero _)
  | fuel + 1, n, ds, h => by
    have hd := digitChar_value (n % 10) (Nat.mod_lt _ (by decide))
    unfold Nat.toDigitsCore
    simp only
    split
    · next h0 =>
      have hn : n % 10 = n := by omega
      rw [hn] at hd
      simp only [digitsValue, List.foldl_cons, hn, hd, Nat.mul_zero, Nat.zero_add]
    · next h0 =>
      rw [digitsValue_toDigitsCore fuel (n / 10) _ (by omega)]
      simp only [digitsValue, List.foldl_cons, hd]
      congr 1
      omega

theorem digitsValue_toDigits (n : Nat) : digitsValue 0 (Nat.toDigits 10 n) = n := by
  unfold Nat.toDigits
  rw [digitsValue_toDigitsCore (n + 1) n [] (Nat.lt_succ_self n)]
  rfl

/-- Distinct counters give distinct identifiers. -/
theorem uniqueId_injective (pre : Str) {n m : Nat} (h : n ≠ m) :
    (uniqueId pre n).1 ≠ (uniqueId pre m).1 := by
  intro e
  simp only [uniqueId] at e
  have e2 := List.append_cancel_left e
  have e3 := congrArg (digitsValue 0) e2
  rw [digitsValue_toDigits, digitsValue_toDigits] at e3
  omega

/-- C19. With the identifier generator a counter: for an element without
identifier `_processBindingSpecification` generates `stickit_` followed by the
decimal digits of the incremented counter, writes it onto the element, and
the returned structure has the one key `#` followed by that identifier;
generated identifiers of different counter values differ, so lowering for two
elements one after the other gives two distinct identifiers and selector
keys; for an element that has an identifier the one key is `#` followed by
it, and neither the element nor the counter changes. -/
theorem C19_element_identifier :
    (∀ (spec : BindingSpecification) (n : Nat),
      (_processBindingSpecification spec (some ⟨none⟩) n).jQueryElement =
        some ⟨some ("stickit_".toList ++ Nat.toDigits 10 (n + 1))⟩ ∧
      (_processBindingSpecification spec (some ⟨none⟩) n).idCounter = n + 1 ∧
      ∀ out, (_processBindingSpecification spec (some ⟨none⟩) n).result = .ok out →
        ∃ binding, out = [('#' :: ("stickit_".toList ++ Nat.toDigits 10 (n + 1)), binding)]) ∧
    (∀ n m : Nat, n ≠ m →
      "stickit_".toList ++ Nat.toDigits 10 (n + 1) ≠ "stickit_".toList ++ Nat.toDigits 10 (m + 1) ∧
      '#' :: ("stickit_".toList ++ Nat.toDigits 10 (n + 1)) ≠
        '#' :: ("stickit_".toList ++ Nat.toDigits 10 (m + 1))) ∧
    (∀ (spec : BindingSpecification) (n : Nat),
      (_processBindingSpecification spec (some ⟨none⟩) n).jQueryElement ≠
        (_processBindingSpecification spec (some ⟨none⟩)
          (_processBindingSpecification spec (some ⟨none⟩) n).idCounter).jQueryElement) ∧
    (∀ (spec : BindingSpecification) (elId : Str) (n : Nat),
      (_processBindingSpecification spec (some ⟨some elId⟩) n).jQueryElement =
        some ⟨some elId⟩ ∧
      (_processBindingSpecification spec (some ⟨some elId⟩) n).idCounter = n ∧
      ∀ out, (_processBindingSpecification spec (some ⟨some elId⟩) n).result = .ok out →
        ∃ binding, out = [('#' :: elId, binding)]) := by
  have hdistinct : ∀ n m : Nat, n ≠ m →
      "stickit_".toList ++ Nat.toDigits 10 (n + 1) ≠
        "stickit_".toList ++ Nat.toDigits 10 (m + 1) :=
    fun n m h => uniqueId_injective "stickit_".toList h
  refine ⟨?_, ?_, ?_, ?_⟩
  · intro spec n
    refine ⟨rfl, rfl, ?_⟩
    intro out hout
    simp only [_processBindingSpecification] at hout
    cases hb : eachEntry [] spec with
    | error e =>
      rw [hb] at hout
      cases hout
    | ok b =>
      rw [hb] at hout
      cases hout
      exact ⟨b, rfl⟩
  · intro n m h
    refine ⟨hdistinct n m h, ?_⟩
    intro e
    exact hdistinct n m h (List.cons.inj e).2
  · intro spec n e
    have e2 : "stickit_".toList ++ Nat.toDigits 10 (n + 1) =
        "stickit_".toList ++ Nat.toDigits 10 (n + 1 + 1) := by
      have e3 : (some (JQueryElement.mk (some ("stickit_".toList ++ Nat.toDigits 10 (n + 1)))) :
          Option JQueryElement) =
          some (JQueryElement.mk (some ("stickit_".toList ++ Nat.toDigits 10 (n + 1 + 1)))) := e
      injection e3 with e3
      injection e3 with e3
      injection e3
    exact hdistinct n (n + 1) (by omega) e2
  · intro spec elId n
    refine ⟨rfl, rfl, ?_⟩
    intro out hout
    simp only [_processBindingSpecification] at hout
    cases hb : eachEntry [] spec with
    | error e =>
      rw [hb] at hout
      cases hout
    | ok b =>
      rw [hb] at hout
      cases hout
      exact ⟨b, rfl⟩

/-- C19, at the counter values 41 and 42: the identifiers `stickit_42` and
`stickit_43`. -/
theorem C19_element_identifier_witness :
    "stickit_42".toList ≠ "stickit_43".toList ∧ "#stickit_42".toList ≠ "#stickit_43".toList :=
  C19_element_identifier.2.1 41 42 (by decide)

/-! ## The comma separator -/

theorem splitTopRE_nil (n : Nat) : splitTopRE n [] = [[]] := by
  cases n <;> rfl

theorem splitTopRE_succ (n : Nat) (c : Char) (cs : Str) :
    splitTopRE (n + 1) (c :: cs) = splitTopRE n cs := rfl

theorem splitTopRE_zero_cons (c : Char) (cs : Str) :
    splitTopRE 0 (c :: cs) =
      match topREAt (c :: cs) with
      | some len => [] :: splitTopRE (len - 1) cs
      | none =>
        match splitTopRE 0 cs with
        | [] => [[c]]
        | h :: t => (c :: h) :: t := rfl

theorem splitTopRE_ne_nil : ∀ (skip : Nat) (s : Str), splitTopRE skip s ≠ []
  | n, [] => by
    rw [splitTopRE_nil]
    exact List.cons_ne_nil _ _
  | skip + 1, _ :: cs => by
    rw [splitTopRE_succ]
    exact splitTopRE_ne_nil skip cs
  | 0, c :: cs => by
    rw [splitTopRE_zero_cons]
    split
    · exact List.cons_ne_nil _ _
    · split <;> exact List.cons_ne_nil _ _

theorem splitTopRE_skip : ∀ (n : Nat) (s : Str), n ≤ s.length →
    splitTopRE n s = splitTopRE 0 (s.drop n)
  | 0, s, _ => rfl
  | n + 1, [], h => by simp at h
  | n + 1, c :: cs, h => by
    rw [splitTopRE_succ, List.drop_succ_cons]
    exact splitTopRE_skip n cs (by simpa using h)

theorem isJsWhiteSpace_comma : isJsWhiteSpace ',' = false := by decide

theorem drop_length_takeWhile (p : Char → Bool) (s : Str) :
    s.drop (s.takeWhile p).length = s.dropWhile p := by
  have h := List.takeWhile_append_dropWhile p s
  have h2 := List.drop_left (s.takeWhile p) (s.dropWhile p)
  rw [h] at h2
  exact h2

/-- At a separator the scan closes the segment and resumes behind the white
space that follows the comma. -/
theorem splitTopRE_separator (w U : Str) (hw : AllWhite w) :
    splitTopRE 0 (w ++ ',' :: U) = [] :: splitTopRE 0 (U.dropWhile isJsWhiteSpace) := by
  have htake : (w ++ ',' :: U).takeWhile isJsWhiteSpace = w :=
    takeWhile_append_stop U hw isJsWhiteSpace_comma
  have hdrop : (w ++ ',' :: U).dropWhile isJsWhiteSpace = ',' :: U :=
    dropWhile_append_stop U hw isJsWhiteSpace_comma
  have htop : topREAt (w ++ ',' :: U) =
      some (w.length + 1 + (U.takeWhile isJsWhiteSpace).length) := by
    simp only [topREAt, hdrop, htake, if_pos]
  rcases hT : w ++ ',' :: U with _ | ⟨y, rest⟩
  · cases w <;> cases hT
  · rw [hT] at htop
    rw [splitTopRE_zero_cons, htop]
    simp only [Nat.add_sub_cancel, List.cons.injEq, true_and]
    have hlen : (w ++ ',' :: U).length = rest.length + 1 := by rw [hT]; rfl
    have hk := takeWhile_length_le isJsWhiteSpace U
    have hle : w.length + (U.takeWhile isJsWhiteSpace).length ≤ rest.length := by
      simp only [List.length_append, List.length_cons] at hlen
      omega
    have harith : w.length + 1 + (U.takeWhile isJsWhiteSpace).length - 1 =
        w.length + (U.takeWhile isJsWhiteSpace).length := by omega
    rw [harith, splitTopRE_skip _ rest hle]
    congr 1
    have hrest : rest = (w ++ ',' :: U).drop 1 := by rw [hT]; rfl
    rw [hrest, List.drop_drop]
    have h1 : 1 + (w.length + (U.takeWhile isJsWhiteSpace).length) =
        w.length + (1 + (U.takeWhile isJsWhiteSpace).length) := by omega
    rw [h1, List.drop_append, Nat.add_comm 1, List.drop_succ_cons]
    exact drop_length_takeWhile isJsWhiteSpace U
theorem dropWhile_head_not {p : Char → Bool} : ∀ {l : Str} {y : Char} {r : Str},
    l.dropWhile p = y :: r → p y = false
  | [], _, _, h => by cases h
  | a :: l, y, r, h => by
    rw [List.dropWhile_cons] at h
    split at h
    · exact dropWhile_head_not h
    · next hpa =>
      cases h
      simpa using hpa

theorem takeWhile_all (p : Char → Bool) (l : Str) : ∀ x ∈ l.takeWhile p, p x = true :=
  fun _ hx => List.mem_takeWhile_imp hx

/-- Inside a clause the separator expression does not match. -/
theorem topREAt_clause {c : Str} (T : Str) (hne : c ≠ []) (hcomma : ',' ∉ c)
    (hlast : ∀ x, c.getLast? = some x → isJsWhiteSpace x = false) :
    topREAt (c ++ T) = none := by
  rcases hd : c.dropWhile isJsWhiteSpace with _ | ⟨y, r⟩
  · exfalso
    rw [List.dropWhile_eq_nil_iff] at hd
    obtain ⟨x, hx⟩ : ∃ x, c.getLast? = some x := by
      cases hl : c.getLast? with
      | none => exact absurd (List.getLast?_eq_none_iff.1 hl) hne
      | some x => exact ⟨x, rfl⟩
    have h1 := hlast x hx
    have h2 := hd x (List.mem_of_getLast?_eq_some hx)
    rw [h1] at h2
    exact absurd h2 (by decide)
  · have hy : isJsWhiteSpace y = false := dropWhile_head_not hd
    have hc : c = c.takeWhile isJsWhiteSpace ++ y :: r := by
      rw [← hd, List.takeWhile_append_dropWhile]
    have hmem : y ∈ c := by
      rw [hc]
      simp
    have hyc : y ≠ ',' := fun e => hcomma (e ▸ hmem)
    have hdrop : (c ++ T).dropWhile isJsWhiteSpace = y :: (r ++ T) := by
      conv_lhs => rw [hc, List.append_assoc, List.cons_append]
      exact dropWhile_append_stop (r ++ T) (takeWhile_all _ _) hy
    simp only [topREAt, hdrop, if_neg hyc]


theorem getLast?_tail_of_ne_nil {x : Char} {c : Str} (h : c ≠ []) :
    (x :: c).getLast? = c.getLast? := by
  cases c with
  | nil => exact absurd rfl h
  | cons y c => rfl

/-- The scan runs through a clause without a cut. -/
theorem splitTopRE_clause (T : Str) : ∀ (c : Str), ',' ∉ c →
    (∀ x, c.getLast? = some x → isJsWhiteSpace x = false) →
    splitTopRE 0 (c ++ T) =
      match splitTopRE 0 T with
      | [] => [c]
      | h :: t => (c ++ h) :: t
  | [], _, _ => by
    rcases hs : splitTopRE 0 T with _ | ⟨h, t⟩
    · exact absurd hs (splitTopRE_ne_nil _ _)
    · simp [hs]
  | x :: c, hcomma, hlast => by
    have htop := topREAt_clause T (List.cons_ne_nil x c) hcomma hlast
    have hcomma2 : ',' ∉ c := fun e => hcomma (List.mem_cons_of_mem _ e)
    have hlast2 : ∀ y, c.getLast? = some y → isJsWhiteSpace y = false := by
      intro y hy
      have hne : c ≠ [] := by
        intro e
        rw [e] at hy
        cases hy
      exact hlast y (by rw [getLast?_tail_of_ne_nil hne]; exact hy)
    have ih := splitTopRE_clause T c hcomma2 hlast2
    rw [List.cons_append] at htop ⊢
    rw [splitTopRE_zero_cons, htop]
    simp only
    rw [ih]
    rcases hs : splitTopRE 0 T with _ | ⟨h, t⟩
    · exact absurd hs (splitTopRE_ne_nil _ _)
    · rfl

theorem paddedTail_sepForm : ∀ more : List ((Str × Str) × Str),
    (∀ m ∈ more, AllWhite m.1.1 ∧ AllWhite m.1.2 ∧ GoodClause m.2) → SepForm (paddedTail more)
  | [], _ => Or.inl rfl
  | ((w1, w2), c) :: more, h =>
    Or.inr ⟨w1, w2 ++ (c ++ paddedTail more), (h _ (List.mem_cons_self _ _)).1, rfl⟩

/-- Skipping white space in front of the rest of a declaration changes nothing. -/
theorem splitTopRE_dropWhile_sepForm {T : Str} (h : SepForm T) :
    splitTopRE 0 (T.dropWhile isJsWhiteSpace) = splitTopRE 0 T := by
  rcases h with rfl | ⟨w, U, hw, rfl⟩
  · rfl
  · rw [dropWhile_append_stop U hw isJsWhiteSpace_comma, splitTopRE_separator w U hw]
    exact splitTopRE_separator [] U (fun x hx => absurd hx (List.not_mem_nil x))

theorem dropWhile_white_append {w : Str} (hw : AllWhite w) (X : Str) :
    (w ++ X).dropWhile isJsWhiteSpace = X.dropWhile isJsWhiteSpace := by
  induction w with
  | nil => rfl
  | cons a w ih =>
    have ha : isJsWhiteSpace a = true := hw a (List.mem_cons_self _ _)
    rw [List.cons_append, List.dropWhile_cons, if_pos ha]
    exact ih (fun x hx => hw x (List.mem_cons_of_mem _ hx))

/-- The scan resumes at the next clause. -/
theorem splitTopRE_resume {w c T : Str} (hw : AllWhite w) (hc : GoodClause c)
    (hT : SepForm T) :
    splitTopRE 0 ((w ++ (c ++ T)).dropWhile isJsWhiteSpace) = splitTopRE 0 (c ++ T) := by
  rw [dropWhile_white_append hw]
  cases c with
  | nil => exact splitTopRE_dropWhile_sepForm hT
  | cons x c =>
    have hx : isJsWhiteSpace x = false := hc.2.1 x rfl
    rw [List.cons_append, List.dropWhile_cons, if_neg (by simp [hx])]

/-- The split of a padded declaration gives back its clauses. -/
theorem splitTopRE_joinPadded : ∀ (more : List ((Str × Str) × Str)) (first : Str),
    GoodClause first → (∀ m ∈ more, AllWhite m.1.1 ∧ AllWhite m.1.2 ∧ GoodClause m.2) →
    splitTopRE 0 (joinPadded first more) = first :: more.map (·.2)
  | [], first, hf, _ => by
    have h := splitTopRE_clause [] first hf.1 hf.2.2
    simp only [joinPadded, paddedTail]
    rw [h, splitTopRE_nil]
    simp
  | ((w1, w2), c) :: more, first, hf, hmore => by
    obtain ⟨hw1, hw2, hc⟩ := hmore _ (List.mem_cons_self _ _)
    have hrest : ∀ m ∈ more, AllWhite m.1.1 ∧ AllWhite m.1.2 ∧ GoodClause m.2 :=
      fun m hm => hmore m (List.mem_cons_of_mem _ hm)
    have ih := splitTopRE_joinPadded more c hc hrest
    have h := splitTopRE_clause (w1 ++ ',' :: (w2 ++ (c ++ paddedTail more))) first hf.1 hf.2.2
    simp only [joinPadded, paddedTail] at ih ⊢
    rw [h, splitTopRE_separator w1 _ hw1, splitTopRE_resume hw2 hc (paddedTail_sepForm more hrest),
      ih]
    simp

theorem jsJoin_cons_cons (sep : Char) (a b : Str) (l : List Str) :
    jsJoin sep (a :: b :: l) = a ++ sep :: jsJoin sep (b :: l) := by
  simp [jsJoin, List.intercalate, List.intersperse]

theorem jsJoin_eq_joinPadded : ∀ (cs : List Str) (first : Str),
    jsJoin ',' (first :: cs) = joinPadded first (cs.map (fun c => (([], []), c)))
  | [], first => by simp [jsJoin, List.intercalate, joinPadded, paddedTail]
  | c :: cs, first => by
    rw [jsJoin_cons_cons, jsJoin_eq_joinPadded cs c]
    rfl

theorem splitTopRE_jsJoin (first : Str) (cs : List Str) (hf : GoodClause first)
    (hcs : ∀ c ∈ cs, GoodClause c) :
    splitTopRE 0 (jsJoin ',' (first :: cs)) = first :: cs := by
  rw [jsJoin_eq_joinPadded, splitTopRE_joinPadded _ first hf]
  · simp
  · intro m hm
    obtain ⟨c, hc, rfl⟩ := List.mem_map.1 hm
    exact ⟨fun x hx => absurd hx (List.not_mem_nil x), fun x hx => absurd hx (List.not_mem_nil x),
      hcs c hc⟩

/-- C16. The comma separator is tolerant of surrounding white space: for a
first clause and further clauses that contain no comma and neither start nor
end with white space, the declaration in which every comma is padded by any
amount of white space on either side and the declaration joined with bare
commas are both split into exactly these clauses, in order, and so compile to
the same result, that of dispatching the clauses from left to right. -/
theorem C16_comma_padding (first : Str) (more : List ((Str × Str) × Str))
    (hfirst : GoodClause first)
    (hmore : ∀ m ∈ more, AllWhite m.1.1 ∧ AllWhite m.1.2 ∧ GoodClause m.2) :
    splitTopRE 0 (joinPadded first more) = first :: more.map (·.2) ∧
    splitTopRE 0 (jsJoin ',' (first :: more.map (·.2))) = first :: more.map (·.2) ∧
    _parseBindingDeclaration (joinPadded first more) =
      _parseBindingDeclaration (jsJoin ',' (first :: more.map (·.2))) ∧
    _parseBindingDeclaration (joinPadded first more) =
      match eachOperand [] (first :: more.map (·.2)) with
      | (_, some e) => .error e
      | (spec, none) => .ok spec := by
  have h1 := splitTopRE_joinPadded more first hfirst hmore
  have h2 := splitTopRE_jsJoin first (more.map (·.2)) hfirst (by
    intro c hc
    obtain ⟨m, hm, rfl⟩ := List.mem_map.1 hc
    exact (hmore m hm).2.2)
  refine ⟨h1, h2, ?_, ?_⟩
  · simp only [_parseBindingDeclaration, h1, h2]
  · simp only [_parseBindingDeclaration, h1]

/-- C16, at the clauses `value:a b`, `class:c|+f` and `events:blur`, padded
with a space, a tab and a line feed. -/
theorem C16_comma_padding_witness :
    splitTopRE 0 "value:a b , class:c|+f\t,\nevents:blur".toList =
      ["value:a b".toList, "class:c|+f".toList, "events:blur".toList] ∧
    splitTopRE 0 "value:a b,class:c|+f,events:blur".toList =
      ["value:a b".toList, "class:c|+f".toList, "events:blur".toList] ∧
    _parseBindingDeclaration "value:a b , class:c|+f\t,\nevents:blur".toList =
      _parseBindingDeclaration "value:a b,class:c|+f,events:blur".toList :=
  have h := C16_comma_padding "value:a b".toList
    [((" ".toList, " ".toList), "class:c|+f".toList),
     (("\t".toList, "\n".toList), "events:blur".toList)] (by decide) (by decide)
  ⟨h.1, h.2.1, h.2.2.1⟩

/-! ## Clause order and the lowered result -/

theorem parse_ok_clauses {d : Str} {spec : BindingSpecification}
    (h : _parseBindingDeclaration d = .ok spec) :
    (∀ c ∈ splitTopRE 0 d, (_parseBindingOperand [] c).2 = none) ∧
    spec = (eachOperand [] (splitTopRE 0 d)).1 := by
  rw [parseBindingDeclaration_eq] at h
  cases ht : (eachOperand [] (splitTopRE 0 d)).2 with
  | some e =>
    rw [ht] at h
    cases h
  | none =>
    rw [ht] at h
    cases h
    exact ⟨all_none_of_eachOperand _ [] ht, rfl⟩

theorem parse_of_clauses_ok {d : Str}
    (h : ∀ c ∈ splitTopRE 0 d, (_parseBindingOperand [] c).2 = none) :
    _parseBindingDeclaration d = .ok (eachOperand [] (splitTopRE 0 d)).1 := by
  rw [parseBindingDeclaration_eq, eachOperand_of_all_none _ [] h]

theorem lastClauseNamed_mem {k : Str} : ∀ {cs : List Str} {c : Str},
    lastClauseNamed k cs = some c → c ∈ cs ∧ operandOf c = k
  | [], _, h => by cases h
  | x :: cs, c, h => by
    rw [lastClauseNamed_cons] at h
    cases hl : lastClauseNamed k cs with
    | some y =>
      rw [hl] at h
      cases h
      exact ⟨List.mem_cons_of_mem _ (lastClauseNamed_mem hl).1, (lastClauseNamed_mem hl).2⟩
    | none =>
      rw [hl] at h
      simp only at h
      split at h
      · next hx =>
        cases h
        exact ⟨List.mem_cons_self _ _, hx⟩
      · cases h

theorem lastClauseNamed_of_mem {k : Str} : ∀ {cs : List Str} {c : Str},
    (cs.map operandOf).Nodup → c ∈ cs → operandOf c = k → lastClauseNamed k cs = some c
  | [], _, _, h, _ => absurd h (List.not_mem_nil _)
  | x :: cs, c, hnd, hmem, hk => by
    rw [List.map_cons, List.nodup_cons] at hnd
    rw [lastClauseNamed_cons]
    rcases List.mem_cons.1 hmem with h1 | h1
    · subst h1
      cases hl : lastClauseNamed k cs with
      | some y =>
        exfalso
        obtain ⟨hy1, hy2⟩ := lastClauseNamed_mem hl
        apply hnd.1
        rw [hk, ← hy2]
        exact List.mem_map.2 ⟨y, hy1, rfl⟩
      | none => simp only [if_pos hk]
    · rw [lastClauseNamed_of_mem hnd.2 h1 hk]

theorem lastClauseNamed_perm {cs1 cs2 : List Str} (hperm : cs1.Perm cs2)
    (hnd : (cs1.map operandOf).Nodup) (k : Str) :
    lastClauseNamed k cs1 = lastClauseNamed k cs2 := by
  have hnd2 : (cs2.map operandOf).Nodup := (hperm.map operandOf).nodup_iff.1 hnd
  cases h1 : lastClauseNamed k cs1 with
  | some c =>
    obtain ⟨hc1, hc2⟩ := lastClauseNamed_mem h1
    exact (lastClauseNamed_of_mem hnd2 (hperm.mem_iff.1 hc1) hc2).symm
  | none =>
    cases h2 : lastClauseNamed k cs2 with
    | none => rfl
    | some c =>
      obtain ⟨hc1, hc2⟩ := lastClauseNamed_mem h2
      rw [lastClauseNamed_of_mem hnd (hperm.mem_iff.2 hc1) hc2] at h1
      cases h1

theorem jsObjGet_of_mem_nodup {β : Type} {k : Str} {v : β} :
    ∀ {o : List (Str × β)}, (o.map Prod.fst).Nodup → (k, v) ∈ o → jsObjGet o k = some v
  | [], _, h => absurd h (List.not_mem_nil _)
  | (a, b) :: o, hnd, h => by
    rw [List.map_cons, List.nodup_cons] at hnd
    rcases List.mem_cons.1 h with h1 | h1
    · cases h1
      simp [jsObjGet]
    · have hak : a ≠ k := by
        intro e
        apply hnd.1
        rw [e]
        exact key_mem_of_mem h1
      simp only [jsObjGet, if_neg hak]
      exact jsObjGet_of_mem_nodup hnd.2 h1

/-- Two objects with the same properties hold the same entries. -/
theorem perm_of_same_get {β : Type} {o1 o2 : List (Str × β)}
    (h1 : (o1.map Prod.fst).Nodup) (h2 : (o2.map Prod.fst).Nodup)
    (h : ∀ k, jsObjGet o1 k = jsObjGet o2 k) : o1.Perm o2 := by
  classical
  rw [List.perm_ext_iff_of_nodup (List.Nodup.of_map _ h1) (List.Nodup.of_map _ h2)]
  rintro ⟨k, v⟩
  constructor
  · intro hm
    have := jsObjGet_of_mem_nodup h1 hm
    rw [h k] at this
    exact jsObjGet_mem this
  · intro hm
    have := jsObjGet_of_mem_nodup h2 hm
    rw [← h k] at this
    exact jsObjGet_mem this
theorem eachValueFilter_get_all (b : ElementBinding) (K : Str) :
    ∀ fs : List FilterSpecification, jsObjGet (eachValueFilter b fs) K =
      match lastFilterUnder K fs with
      | some f => some (.val (.str f.name))
      | none => jsObjGet b K := by
  intro fs
  induction fs using List.reverseRecOn with
  | nil => rfl
  | append_singleton fs f ih =>
    rw [eachValueFilter_concat, jsObjGet_jsObjSet, if_neg (propertyKey_pick_ne_proto _ _)]
    by_cases hf : propertyKey (_pickStickItCallback f.type f.target) = K
    · rw [if_pos hf.symm]
      simp [lastFilterUnder, List.filter_append, hf]
    · rw [if_neg (fun e => hf e.symm), ih]
      simp [lastFilterUnder, List.filter_append, hf]

theorem value_step_all (b : ElementBinding) (v : OperandSpec) (a : List Str)
    (ha : v.attributes = some a) :
    ∃ b2, lowerEntry b "value".toList v = .ok b2 ∧
      ∀ K, jsObjGet b2 K = valueGet v K (jsObjGet b K) := by
  refine ⟨eachValueFilter (jsObjSet b "observe".toList (.val (_assignOneOrArray a)))
    (v.filters.getD []), ?_, ?_⟩
  · simp only [lowerEntry, if_pos, ha]
    cases v.filters <;> rfl
  · intro K
    rw [eachValueFilter_get_all, jsObjGet_jsObjSet, if_neg (by decide)]
    simp only [valueGet, ha, Option.getD_some]

theorem entry_frame (b : ElementBinding) (k : Str) (v : OperandSpec) (hok : EntryOk k v)
    (hinv : AttributesIsArray b) (hk : k ≠ "value".toList) :
    ∃ b2, lowerEntry b k v = .ok b2 ∧ AttributesIsArray b2 ∧
      ∀ K, K ≠ "attributes".toList → K ≠ "events".toList → jsObjGet b2 K = jsObjGet b K := by
  by_cases hattrk : isAttributeOperand k = true
  · obtain ⟨a, ha⟩ := Option.ne_none_iff_exists'.1 (hok.1 (Or.inr hattrk))
    obtain ⟨b2, h1, h2, h3⟩ := attr_step b k v a hattrk ha hinv
    exact ⟨b2, h1, Or.inr ⟨_, h2⟩, fun K hK _ => h3 K hK⟩
  · have hattrk2 : isAttributeOperand k = false := by
      cases h : isAttributeOperand k
      · rfl
      · exact absurd h hattrk
    by_cases he : k = "events".toList
    · subst he
      obtain ⟨t, ht⟩ := Option.ne_none_iff_exists'.1 (hok.2 rfl)
      obtain ⟨b2, h1, _, h3⟩ := events_step b v t ht
      exact ⟨b2, h1, attributesIsArray_congr (h3 _ (by decide)) hinv, fun K _ hK => h3 K hK⟩
    · exact ⟨b, other_step b k v hk hattrk2 he, hinv, fun _ _ _ => rfl⟩

theorem jsObjGet_eq_none_of_not_mem {β : Type} {k : Str} :
    ∀ {o : List (Str × β)}, k ∉ o.map Prod.fst → jsObjGet o k = none
  | [], _ => rfl
  | (a, b) :: o, h => by
    rw [List.map_cons, List.mem_cons, not_or] at h
    have hak : ¬ a = k := fun e => h.1 e.symm
    rw [jsObjGet, if_neg hak]
    exact jsObjGet_eq_none_of_not_mem h.2

/-- The properties of the element binding other than `attributes` and
`events`, after the walk: what the `value` entry makes of them. -/
theorem eachEntry_get_value : ∀ (spec : BindingSpecification) (b : ElementBinding),
    (∀ p ∈ spec, EntryOk p.1 p.2) → AttributesIsArray b → (spec.map Prod.fst).Nodup →
    ∃ b2, eachEntry b spec = .ok b2 ∧
      ∀ K, K ≠ "attributes".toList → K ≠ "events".toList →
        jsObjGet b2 K =
          match jsObjGet spec "value".toList with
          | some v => valueGet v K (jsObjGet b K)
          | none => jsObjGet b K
  | [], b, _, _, _ => ⟨b, rfl, fun _ _ _ => rfl⟩
  | (k, w) :: spec, b, hok, hinv, hnodup => by
    have hnd := List.nodup_cons.1 hnodup
    have hokrest : ∀ p ∈ spec, EntryOk p.1 p.2 := fun p hp => hok p (List.mem_cons_of_mem _ hp)
    have hokw := hok (k, w) (List.mem_cons_self _ _)
    by_cases hk : k = "value".toList
    · subst hk
      obtain ⟨a, ha⟩ := Option.ne_none_iff_exists'.1 (hokw.1 (Or.inl rfl))
      obtain ⟨b1, h1, hget1⟩ := value_step_all b w a ha
      obtain ⟨b1s, h1s, hinv1, -⟩ := entry_step b "value".toList w hokw hinv
      have hb : b1s = b1 := by
        rw [h1] at h1s
        cases h1s
        rfl
      subst hb
      obtain ⟨b2, h2, hget2⟩ := eachEntry_get_value spec b1s hokrest hinv1 hnd.2
      refine ⟨b2, by simp only [eachEntry, h1, h2], ?_⟩
      intro K hK1 hK2
      rw [hget2 K hK1 hK2, jsObjGet_eq_none_of_not_mem hnd.1, hget1 K]
      simp [jsObjGet]
    · obtain ⟨b1, h1, hinv1, hget1⟩ := entry_frame b k w hokw hinv hk
      obtain ⟨b2, h2, hget2⟩ := eachEntry_get_value spec b1 hokrest hinv1 hnd.2
      refine ⟨b2, by simp only [eachEntry, h1, h2], ?_⟩
      intro K hK1 hK2
      rw [hget2 K hK1 hK2, hget1 K hK1 hK2]
      simp only [jsObjGet, if_neg hk]

/-- The `events` property after the walk. -/
theorem eachEntry_get_events (spec : BindingSpecification) (hspec : Lowerable spec)
    {b : ElementBinding} (hb : eachEntry [] spec = .ok b) :
    jsObjGet b "events".toList =
      match jsObjGet spec "events".toList with
      | some ev => ev.types.map (fun t => BindVal.val (JsVal.arr t))
      | none => none := by
  cases hev : jsObjGet spec "events".toList with
  | some ev =>
    have hmem := jsObjGet_mem hev
    obtain ⟨t, ht⟩ := Option.ne_none_iff_exists'.1 ((hspec.2 _ hmem).2 rfl)
    obtain ⟨b2, hb2, hget⟩ := eachEntry_events spec [] ev t hspec.2 attributesIsArray_nil
      hspec.1 hmem ht
    rw [hb] at hb2
    cases hb2
    have ht2 : ev.types = some t := ht
    simp only [hget, ht2, Option.map_some']
  | none =>
    have hno : ∀ p ∈ spec, p.1 ≠ "events".toList := by
      intro p hp e
      have := jsObjGet_of_mem_nodup hspec.1 (show (p.1, p.2) ∈ spec from hp)
      rw [e, hev] at this
      cases this
    obtain ⟨b2, hb2, -, -, hget, -, -⟩ := eachEntry_fold spec [] hspec.2 attributesIsArray_nil
    rw [hb] at hb2
    cases hb2
    rw [hget hno]
    rfl

/-- Lowering two specifications that are the same mapping: the element
bindings agree on every property but `attributes`, whose arrays hold the same
entries in the order of the respective enumeration. -/
theorem lowering_of_same_mapping {s1 s2 : BindingSpecification} (h1 : Lowerable s1)
    (h2 : Lowerable s2) (h : ∀ k, jsObjGet s1 k = jsObjGet s2 k) :
    ∃ b1 b2, eachEntry [] s1 = .ok b1 ∧ eachEntry [] s2 = .ok b2 ∧
      (∀ K, K ≠ "attributes".toList → jsObjGet b1 K = jsObjGet b2 K) ∧
      (attrList b1).Perm (attrList b2) ∧
      (jsObjGet b1 "attributes".toList = none ↔ jsObjGet b2 "attributes".toList = none) := by
  obtain ⟨b1, hb1, hget1⟩ := eachEntry_get_value s1 [] h1.2 attributesIsArray_nil h1.1
  obtain ⟨b2, hb2, hget2⟩ := eachEntry_get_value s2 [] h2.2 attributesIsArray_nil h2.1
  obtain ⟨c1, hc1, -, -, -, hlist1, hnone1⟩ := eachEntry_fold s1 [] h1.2 attributesIsArray_nil
  obtain ⟨c2, hc2, -, -, -, hlist2, hnone2⟩ := eachEntry_fold s2 [] h2.2 attributesIsArray_nil
  rw [hb1] at hc1
  cases hc1
  rw [hb2] at hc2
  cases hc2
  have hperm : s1.Perm s2 := perm_of_same_get h1.1 h2.1 h
  have hattr : (attributeOperands s1).Perm (attributeOperands s2) := hperm.filter _
  refine ⟨b1, b2, hb1, hb2, ?_, ?_, ?_⟩
  · intro K hK
    by_cases hKe : K = "events".toList
    · subst hKe
      rw [eachEntry_get_events s1 h1 hb1, eachEntry_get_events s2 h2 hb2, h]
    · rw [hget1 K hK hKe, hget2 K hK hKe, h]
  · rw [hlist1, hlist2]
    exact List.Perm.append_left _ (hattr.map _)
  · rw [hnone1, hnone2]
    constructor
    · rintro ⟨h3, h4⟩
      refine ⟨h3, ?_⟩
      rw [h4] at hattr
      exact List.perm_nil.1 hattr.symm
    · rintro ⟨h3, h4⟩
      refine ⟨h3, ?_⟩
      rw [h4] at hattr
      exact List.perm_nil.1 hattr

/-- C15, as the code has it.  For every declaration that compiles and whose
clauses have pairwise distinct operand names, compiling and lowering any
permutation of its clauses for the same element and counter succeeds with the
same selector, the same element and counter afterwards, and an element
binding with the same `observe`, callbacks and `events` (every property but
`attributes` is the same); the `attributes` arrays hold the same Attribute
Bindings, each in the order of its own clauses. -/
theorem C15_clause_order_lowering (d1 d2 : Str) (spec1 : BindingSpecification)
    (element : Option JQueryElement) (idCounter : Nat)
    (hcompiles : _parseBindingDeclaration d1 = .ok spec1)
    (hperm : (splitTopRE 0 d1).Perm (splitTopRE 0 d2))
    (hnames : ((splitTopRE 0 d1).map operandOf).Nodup) :
    ∃ b1 b2,
      (_processBindingDeclaration d1 element idCounter).result =
        .ok [('#' :: propertyKey (elementId element idCounter).1, b1)] ∧
      (_processBindingDeclaration d2 element idCounter).result =
        .ok [('#' :: propertyKey (elementId element idCounter).1, b2)] ∧
      (_processBindingDeclaration d1 element idCounter).jQueryElement =
        (_processBindingDeclaration d2 element idCounter).jQueryElement ∧
      (_processBindingDeclaration d1 element idCounter).idCounter =
        (_processBindingDeclaration d2 element idCounter).idCounter ∧
      (∀ K, K ≠ "attributes".toList → jsObjGet b1 K = jsObjGet b2 K) ∧
      (attrList b1).Perm (attrList b2) ∧
      (jsObjGet b1 "attributes".toList = none ↔ jsObjGet b2 "attributes".toList = none) := by
  obtain ⟨hall1, hs1⟩ := parse_ok_clauses hcompiles
  have hall2 : ∀ c ∈ splitTopRE 0 d2, (_parseBindingOperand [] c).2 = none :=
    fun c hc => hall1 c (hperm.mem_iff.2 hc)
  have h2 := parse_of_clauses_ok hall2
  have hsame : ∀ k, jsObjGet spec1 k = jsObjGet (eachOperand [] (splitTopRE 0 d2)).1 k := by
    intro k
    rw [hs1, eachOperand_get _ [] k rfl hall1, eachOperand_get _ [] k rfl hall2,
      lastClauseNamed_perm hperm hnames k]
  obtain ⟨b1, b2, hb1, hb2, hget, hlist, hnone⟩ :=
    lowering_of_same_mapping (lowerable_of_parse hcompiles) (lowerable_of_parse h2) hsame
  refine ⟨b1, b2, ?_, ?_, ?_, ?_, hget, hlist, hnone⟩
  · simp only [_processBindingDeclaration, hcompiles]
    exact processBindingSpecification_result hb1 element idCounter
  · simp only [_processBindingDeclaration, h2]
    exact processBindingSpecification_result hb2 element idCounter
  · simp only [_processBindingDeclaration, hcompiles, h2]
    rfl
  · simp only [_processBindingDeclaration, hcompiles, h2]
    rfl

/-- C15, at `value:a|+f, disabled:x, class:y` and its permutation
`class:y, value:a|+f, disabled:x`. -/
theorem C15_clause_order_lowering_witness :
    ∃ b1 b2,
      (_processBindingDeclaration "value:a|+f, disabled:x, class:y".toList
        (some ⟨some "el".toList⟩) 0).result = .ok [("#el".toList, b1)] ∧
      (_processBindingDeclaration "class:y, value:a|+f, disabled:x".toList
        (some ⟨some "el".toList⟩) 0).result = .ok [("#el".toList, b2)] ∧
      (∀ K, K ≠ "attributes".toList → jsObjGet b1 K = jsObjGet b2 K) ∧
      (attrList b1).Perm (attrList b2) := by
  have hs1 : splitTopRE 0 "value:a|+f, disabled:x, class:y".toList =
      ["value:a|+f".toList, "disabled:x".toList, "class:y".toList] := by decide
  have hs2 : splitTopRE 0 "class:y, value:a|+f, disabled:x".toList =
      ["class:y".toList, "value:a|+f".toList, "disabled:x".toList] := by decide
  obtain ⟨b1, b2, h1, h2, -, -, h3, h4, -⟩ :=
    C15_clause_order_lowering "value:a|+f, disabled:x, class:y".toList
      "class:y, value:a|+f, disabled:x".toList
      [("value".toList,
         { attributes := some ["a".toList]
           filters := some
             [{ name := "f".toList, type := "+".toList, target := "dom".toList }] }),
       ("disabled".toList, { attributes := some ["x".toList] }),
       ("class".toList, { attributes := some ["y".toList] })]
      (some ⟨some "el".toList⟩) 0 (by decide)
      (by
        rw [hs1, hs2]
        exact ((List.Perm.swap _ _ _).trans ((List.Perm.swap _ _ _).cons _)).symm)
      (by
        rw [hs1]
        decide)
  exact ⟨b1, b2, h1, h2, h3, h4⟩

/-- C15, as stated, fails: `disabled:a,class:b` and its permutation
`class:b,disabled:a` have distinct operand names and compile, yet their
lowered structures list the two Attribute Bindings in different orders. -/
theorem C15_clause_order_counterexample :
    (_processBindingDeclaration "disabled:a,class:b".toList
      (some ⟨some "el".toList⟩) 0).result =
      .ok [("#el".toList,
        [("attributes".toList, .attrs
          [[("name".toList, .str "disabled".toList), ("observe".toList, .str "a".toList)],
           [("name".toList, .str "class".toList), ("observe".toList, .str "b".toList)]])])] ∧
    (_processBindingDeclaration "class:b,disabled:a".toList
      (some ⟨some "el".toList⟩) 0).result =
      .ok [("#el".toList,
        [("attributes".toList, .attrs
          [[("name".toList, .str "class".toList), ("observe".toList, .str "b".toList)],
           [("name".toList, .str "disabled".toList), ("observe".toList, .str "a".toList)]])])] ∧
    (_processBindingDeclaration "disabled:a,class:b".toList
      (some ⟨some "el".toList⟩) 0).result ≠
    (_processBindingDeclaration "class:b,disabled:a".toList
      (some ⟨some "el".toList⟩) 0).result := by
  have e1 : (_processBindingDeclaration "disabled:a,class:b".toList
      (some ⟨some "el".toList⟩) 0).result =
      .ok [("#el".toList,
        [("attributes".toList, .attrs
          [[("name".toList, .str "disabled".toList), ("observe".toList, .str "a".toList)],
           [("name".toList, .str "class".toList), ("observe".toList, .str "b".toList)]])])] := by
    decide
  have e2 : (_processBindingDeclaration "class:b,disabled:a".toList
      (some ⟨some "el".toList⟩) 0).result =
      .ok [("#el".toList,
        [("attributes".toList, .attrs
          [[("name".toList, .str "class".toList), ("observe".toList, .str "b".toList)],
           [("name".toList, .str "disabled".toList), ("observe".toList, .str "a".toList)]])])] := by
    decide
  refine ⟨e1, e2, ?_⟩
  rw [e1, e2]
  decide

/-! ## Re-serialization of the canonical form -/

theorem serializeFilter_of {t : Str} {f : FilterSpecification}
    (h : filterSpecificationOf t = .ok f) : serializeFilter f = t := by
  by_cases hs : FilterTokenShape t
  · have htype : ∀ c, isSymbolChar c = true → typeOfSymbol c = [c] := by
      intro c hc
      rcases (isSymbolChar_iff c).1 hc with rfl | rfl <;> decide
    rcases hs with ⟨c, w, hc, hw, hall, rfl⟩ | ⟨c, w, hc, hw, hall, rfl⟩
    · rw [filterSpecificationOf_symbolThenRun hc hw hall] at h
      cases h
      simp only [serializeFilter, if_pos, htype c hc]
      rfl
    · rw [filterSpecificationOf_runThenSymbol hc hw hall] at h
      cases h
      have hne : ¬ "model".toList = "dom".toList := by decide
      simp only [serializeFilter, if_neg hne, htype c hc]
  · rw [filterSpecificationOf_of_not_shape hs] at h
    cases h

theorem map_serializeFilter_of : ∀ {tokens : List Str} {out : List FilterSpecification},
    List.Forall₂ (fun t f => filterSpecificationOf t = .ok f) tokens out →
    out.map serializeFilter = tokens
  | _, _, .nil => rfl
  | _, _, .cons h hrest => by
    rw [List.map_cons, serializeFilter_of h, map_serializeFilter_of hrest]

/-- The payload written back from what the attribute and filter parsers made
of the expression `r`: the model qualifier, if any, and `r` itself. -/
theorem serializePayload_core {s1 : OperandSpec} {r head : Str} {tail : List Str}
    (hs : jsSplit '|' r = head :: tail) (hfil : s1.filters = none)
    (hthrown : (if tail = [] then
        (({ s1 with attributes := some (jsSplit '+' head) } : OperandSpec), (none : Option JsThrow))
      else eachFilter { s1 with attributes := some (jsSplit '+' head), filters := some [] }
        tail).2 = none) :
    serializePayload (if tail = [] then
        (({ s1 with attributes := some (jsSplit '+' head) } : OperandSpec), (none : Option JsThrow))
      else eachFilter { s1 with attributes := some (jsSplit '+' head), filters := some [] }
        tail).1 =
      (match s1.model with
        | some m => m ++ ['#']
        | none => []) ++ r := by
  have hr : jsJoin '|' (head :: tail) = r := by rw [← hs, jsJoin_jsSplit]
  by_cases ht : tail = []
  · subst ht
    simp only [if_pos, serializePayload, hfil, jsJoin_jsSplit, List.append_nil]
    congr 1
    rw [← hr]
    simp [jsJoin, List.intercalate]
  · rw [if_neg ht] at hthrown ⊢
    obtain ⟨out, hout, -, hall⟩ := eachFilter_filters tail
      { s1 with attributes := some (jsSplit '+' head), filters := some [] } [] rfl
    have hmap := map_serializeFilter_of (hall hthrown)
    rw [eachFilter_frame]
    simp only [serializePayload, hout, List.nil_append, jsJoin_jsSplit, hmap]
    congr 1
    rw [← hr]
    cases tail with
    | nil => exact absurd rfl ht
    | cons t tail => rw [jsJoin_cons_cons]

theorem serializePayload_dataBound {p : Str} (hcount : p.count '#' ≤ 1)
    (hthrown : (_parseDataBoundOperandDeclaration {} p).2 = none) :
    serializePayload (_parseDataBoundOperandDeclaration {} p).1 = p := by
  rcases Nat.lt_or_ge (p.count '#') 1 with h0 | h1
  · have hnot : '#' ∉ p := (not_mem_iff_count_zero _ _).2 (by omega)
    have hq := parseModelQualifier_of_not_mem {} p hnot
    rcases hsp : jsSplit '|' p with _ | ⟨head, tail⟩
    · exact absurd hsp (jsSplit_ne_nil _ _)
    rw [parseDataBound_eq hq hsp] at hthrown ⊢
    rw [serializePayload_core hsp rfl hthrown]
    rfl
  · have hone : p.count '#' = 1 := by omega
    have hq := parseModelQualifier_of_count_one {} p hone
    rcases hsp : jsSplit '|' ((p.dropWhile (· != '#')).drop 1) with _ | ⟨head, tail⟩
    · exact absurd hsp (jsSplit_ne_nil _ _)
    rw [parseDataBound_eq hq hsp] at hthrown ⊢
    rw [serializePayload_core hsp rfl hthrown]
    simp only
    have hsplit := jsSplit_of_count_one '#' p hone
    have hj := jsJoin_jsSplit '#' p
    rw [hsplit, jsJoin_cons_cons] at hj
    simpa [jsJoin, List.intercalate] using hj

theorem serializePayload_withModelNames (x : Option (List Str)) (v : OperandSpec) :
    serializePayload (withModelNames x v) = serializePayload v := by
  cases v
  rfl
theorem serializePayload_operandSwitch {k p : Str} (hcount : p.count '#' ≤ 1)
    (hthrown : (operandSwitch k p).2 = none) :
    serializePayload (operandSwitch k p).1 = p := by
  by_cases he : k = "events".toList
  · subst he
    rw [operandSwitch_events]
    simp only [serializePayload, Option.getD_some, jsJoin_jsSplit]
  · by_cases hm : k = "model".toList
    · subst hm
      rw [operandSwitch_model] at hthrown ⊢
      rw [serializePayload_withModelNames]
      exact serializePayload_dataBound hcount hthrown
    · rw [operandSwitch_other he hm] at hthrown ⊢
      exact serializePayload_dataBound hcount hthrown

theorem clause_eq_of_thrown_none {c : Str} (h : (_parseBindingOperand [] c).2 = none) :
    operandOf c ++ ':' :: payloadOf c = c := by
  have hs := split_of_thrown_none h
  have hj := jsJoin_jsSplit ':' c
  rw [hs, jsJoin_cons_cons] at hj
  simpa [jsJoin, List.intercalate] using hj

theorem operandSwitch_thrown_of_clause {c : Str} (h : (_parseBindingOperand [] c).2 = none) :
    (operandSwitch (operandOf c) (payloadOf c)).2 = none := by
  have hs := split_of_thrown_none h
  rw [parseBindingOperand_of_split hs] at h
  exact h

/-- A clause with at most one `#` is written back as it was. -/
theorem serializeClause_of_clause {c : Str} (h : (_parseBindingOperand [] c).2 = none)
    (hcount : (payloadOf c).count '#' ≤ 1) :
    serializeClause (operandOf c) (operandSwitch (operandOf c) (payloadOf c)).1 = c := by
  rw [serializeClause, serializePayload_operandSwitch hcount (operandSwitch_thrown_of_clause h)]
  exact clause_eq_of_thrown_none h

theorem mem_jsObjSet_proto {β : Type} {o : List (Str × β)} {k : Str} {v : β} {p : Str × β}
    (h : p ∈ jsObjSet o k v) : p ∈ o ∨ (p = (k, v) ∧ k ≠ "__proto__".toList) := by
  by_cases hk : k = "__proto__".toList
  · left
    unfold jsObjSet at h
    rw [if_pos hk] at h
    exact h
  · rcases mem_jsObjSet h with h1 | h1
    · exact Or.inl h1
    · exact Or.inr ⟨h1, hk⟩

/-- Every entry after the loop was there before or comes from a clause. -/
theorem eachOperand_mem : ∀ (cs : List Str) (spec : BindingSpecification),
    (∀ c ∈ cs, (_parseBindingOperand [] c).2 = none) →
    ∀ e ∈ (eachOperand spec cs).1, e ∈ spec ∨
      ∃ c ∈ cs, e = (operandOf c, (operandSwitch (operandOf c) (payloadOf c)).1) ∧
        operandOf c ≠ "__proto__".toList
  | [], _, _, e, he => Or.inl he
  | c :: cs, spec, hall, e, he => by
    have hc := hall c (List.mem_cons_self _ _)
    have hrest : ∀ x ∈ cs, (_parseBindingOperand [] x).2 = none :=
      fun x hx => hall x (List.mem_cons_of_mem _ hx)
    simp only [eachOperand, parseBindingOperand_of_thrown_none spec hc] at he
    rcases eachOperand_mem cs _ hrest e he with h1 | ⟨c2, hc2, h2⟩
    · rcases mem_jsObjSet_proto h1 with h3 | ⟨h3, h4⟩
      · exact Or.inl h3
      · exact Or.inr ⟨c, List.mem_cons_self _ _, h3, h4⟩
    · exact Or.inr ⟨c2, List.mem_cons_of_mem _ hc2, h2⟩

/-! ### Enumeration order -/

theorem keyBefore_asymm {a b : Str} (h : keyBefore a b = true) : keyBefore b a = false := by
  unfold keyBefore at *
  generalize arrayIndex? a = p at *
  generalize arrayIndex? b = q at *
  rcases p with _ | n <;> rcases q with _ | m
  · rfl
  · cases h
  · rfl
  · simp only [decide_eq_true_eq, decide_eq_false_iff_not] at h ⊢
    omega

theorem keyBefore_trans_false {k k2 x : Str} (h1 : keyBefore k k2 = true)
    (h2 : keyBefore x k2 = false) : keyBefore x k = false := by
  unfold keyBefore at *
  generalize arrayIndex? k = p at *
  generalize arrayIndex? k2 = q at *
  generalize arrayIndex? x = r at *
  rcases p with _ | n <;> rcases q with _ | m <;> rcases r with _ | y
  · cases h1
  · cases h1
  · cases h1
  · cases h1
  · rfl
  · cases h2
  · rfl
  · simp only [decide_eq_true_eq, decide_eq_false_iff_not] at h1 h2 ⊢
    omega

theorem jsObjInsertNew_mem_keys {β : Type} (k : Str) (v : β) :
    ∀ (o : List (Str × β)) (x : Str), x ∈ (jsObjInsertNew k v o).map Prod.fst →
      x = k ∨ x ∈ o.map Prod.fst := by
  intro o x hx
  have := (jsObjInsertNew_keys_perm k v o).mem_iff.1 hx
  exact List.mem_cons.1 this

theorem jsObjInsertNew_ordered {β : Type} (k : Str) (v : β) :
    ∀ o : List (Str × β), OrderedKeys (o.map Prod.fst) →
      OrderedKeys ((jsObjInsertNew k v o).map Prod.fst)
  | [], _ => List.pairwise_singleton _ _
  | (a, b) :: o, h => by
    unfold OrderedKeys at h ⊢
    rw [List.map_cons, List.pairwise_cons] at h
    unfold jsObjInsertNew
    split
    · next hk =>
      rw [List.map_cons, List.pairwise_cons]
      refine ⟨?_, by rw [List.map_cons, List.pairwise_cons]; exact h⟩
      intro x hx
      rw [List.map_cons, List.mem_cons] at hx
      rcases hx with hxa | hx
      · rw [hxa]
        exact keyBefore_asymm hk
      · exact keyBefore_trans_false hk (h.1 x hx)
    · next hk =>
      rw [List.map_cons, List.pairwise_cons]
      refine ⟨?_, jsObjInsertNew_ordered k v o h.2⟩
      intro x hx
      rcases jsObjInsertNew_mem_keys k v o x hx with hxk | hx
      · rw [hxk]
        exact Bool.eq_false_iff.2 hk
      · exact h.1 x hx

theorem jsObjSet_ordered {β : Type} (o : List (Str × β)) (k : Str) (v : β)
    (h : OrderedKeys (o.map Prod.fst)) : OrderedKeys ((jsObjSet o k v).map Prod.fst) := by
  unfold jsObjSet
  split
  · exact h
  · split
    · rw [jsObjReplace_keys]
      exact h
    · exact jsObjInsertNew_ordered k v o h

theorem eachOperand_ordered : ∀ (cs : List Str) (spec : BindingSpecification),
    OrderedKeys (spec.map Prod.fst) → OrderedKeys ((eachOperand spec cs).1.map Prod.fst)
  | [], _, h => h
  | c :: cs, spec, h => by
    have hstep : OrderedKeys ((_parseBindingOperand spec c).1.map Prod.fst) := by
      by_cases hlen : (jsSplit ':' c).length = 2
      · rcases hsp : jsSplit ':' c with _ | ⟨a, _ | ⟨b, _ | ⟨x, l⟩⟩⟩
        · rw [hsp] at hlen
          cases hlen
        · rw [hsp] at hlen
          cases hlen
        · rw [parseBindingOperand_of_split hsp]
          exact jsObjSet_ordered _ _ _ h
        · rw [hsp] at hlen
          simp at hlen
      · rw [parseBindingOperand_of_length hlen]
        exact h
    unfold eachOperand
    split
    · next spec2 e heq =>
      rw [heq] at hstep
      exact hstep
    · next spec2 heq =>
      rw [heq] at hstep
      exact eachOperand_ordered cs spec2 hstep

/-- A new key that is behind every key of the object is appended. -/
theorem jsObjInsertNew_append {β : Type} (k : Str) (v : β) :
    ∀ o : List (Str × β), (∀ x ∈ o.map Prod.fst, keyBefore k x = false) →
      jsObjInsertNew k v o = o ++ [(k, v)]
  | [], _ => rfl
  | (a, b) :: o, h => by
    have ha : keyBefore k a = false := h a (List.mem_cons_self _ _)
    unfold jsObjInsertNew
    rw [if_neg (by rw [ha]; exact Bool.false_ne_true)]
    rw [jsObjInsertNew_append k v o (fun x hx => h x (List.mem_cons_of_mem _ hx))]
    rfl

/-- Assigning the entries of an object in enumeration order builds the object
again. -/
theorem reinsert : ∀ (s2 s1 : BindingSpecification),
    ((s1 ++ s2).map Prod.fst).Nodup → OrderedKeys ((s1 ++ s2).map Prod.fst) →
    (∀ e ∈ s2, e.1 ≠ "__proto__".toList) →
    s2.foldl (fun T e => jsObjSet T e.1 e.2) s1 = s1 ++ s2
  | [], s1, _, _, _ => (List.append_nil s1).symm
  | (k, v) :: s2, s1, hnd, hord, hproto => by
    have hk : k ≠ "__proto__".toList := hproto (k, v) (List.mem_cons_self _ _)
    have hnot : k ∉ s1.map Prod.fst := by
      rw [List.map_append, List.nodup_append] at hnd
      intro hmem
      exact hnd.2.2 hmem (List.mem_cons_self _ _)
    have hhas : jsObjHas s1 k = false := (jsObjHas_eq_false_iff k s1).2 hnot
    have hbefore : ∀ x ∈ s1.map Prod.fst, keyBefore k x = false := by
      intro x hx
      unfold OrderedKeys at hord
      rw [List.map_append, List.pairwise_append] at hord
      exact hord.2.2 x hx k (List.mem_cons_self _ _)
    have hset : jsObjSet s1 k v = s1 ++ [(k, v)] := by
      unfold jsObjSet
      rw [if_neg hk, hhas]
      simp only [Bool.false_eq_true, if_false]
      exact jsObjInsertNew_append k v s1 hbefore
    rw [List.foldl_cons, hset]
    have happ : s1 ++ [(k, v)] ++ s2 = s1 ++ (k, v) :: s2 := List.append_assoc _ _ _
    rw [reinsert s2 (s1 ++ [(k, v)]) (by rw [happ]; exact hnd) (by rw [happ]; exact hord)
      (fun e he => hproto e (List.mem_cons_of_mem _ he)), happ]

/-! ### The segments of the split -/

theorem topREAt_some {s : Str} {n : Nat} (h : topREAt s = some n) :
    ∃ U, s = s.takeWhile isJsWhiteSpace ++ ',' :: U := by
  unfold topREAt at h
  rcases hd : s.dropWhile isJsWhiteSpace with _ | ⟨c, r⟩
  · rw [hd] at h
    cases h
  · rw [hd] at h
    simp only at h
    by_cases hc : c = ','
    · subst hc
      have h2 := List.takeWhile_append_dropWhile isJsWhiteSpace s
      rw [hd] at h2
      exact ⟨r, h2.symm⟩
    · rw [if_neg hc] at h
      cases h

theorem splitTopRE_at_separator {s : Str} {n : Nat} (h : topREAt s = some n) :
    ∃ U : Str, U.length < s.length ∧
      (∀ x ∈ s.getLast?, ∀ y ∈ (U.dropWhile isJsWhiteSpace).getLast?, y = x) ∧
      splitTopRE 0 s = [] :: splitTopRE 0 (U.dropWhile isJsWhiteSpace) := by
  obtain ⟨U, hU⟩ := topREAt_some h
  have h2 := splitTopRE_separator (s.takeWhile isJsWhiteSpace) U (takeWhile_all _ _)
  rw [← hU] at h2
  refine ⟨U, ?_, ?_, h2⟩
  · have hl := congrArg List.length hU
    rw [List.length_append, List.length_cons] at hl
    omega
  · intro x hx y hy
    have hsplit : s = (s.takeWhile isJsWhiteSpace ++ ',' :: U.takeWhile isJsWhiteSpace) ++
        U.dropWhile isJsWhiteSpace := by
      rw [List.append_assoc, List.cons_append, List.takeWhile_append_dropWhile]
      exact hU
    rw [hsplit] at hx
    have hne : U.dropWhile isJsWhiteSpace ≠ [] := by
      intro e
      rw [e] at hy
      cases hy
    rw [List.getLast?_append_of_ne_nil _ hne] at hx
    rw [Option.mem_def] at hx hy
    rw [hx] at hy
    exact (Option.some.inj hy).symm

theorem topREAt_comma (cs : Str) : topREAt (',' :: cs) ≠ none := by
  unfold topREAt
  rw [List.dropWhile_cons, if_neg (by rw [isJsWhiteSpace_comma]; exact Bool.false_ne_true)]
  simp only [if_true]
  exact Option.some_ne_none _

theorem topREAt_cons_white {c : Char} {cs : Str} {n : Nat} (hc : isJsWhiteSpace c = true)
    (h : topREAt cs = some n) : topREAt (c :: cs) ≠ none := by
  unfold topREAt at h ⊢
  rw [List.dropWhile_cons, if_pos hc]
  rcases hd : cs.dropWhile isJsWhiteSpace with _ | ⟨y, r⟩
  · rw [hd] at h
    cases h
  · rw [hd] at h
    simp only at h ⊢
    by_cases hy : y = ','
    · rw [if_pos hy]
      exact Option.some_ne_none _
    · rw [if_neg hy] at h
      cases h

/-- No segment of the split contains a comma. -/
theorem splitTopRE_no_comma : ∀ (s : Str) (skip : Nat), ∀ seg ∈ splitTopRE skip s, ',' ∉ seg
  | [], skip, seg, h => by
    rw [splitTopRE_nil] at h
    rw [List.mem_singleton.1 h]
    exact List.not_mem_nil _
  | c :: cs, skip + 1, seg, h => by
    rw [splitTopRE_succ] at h
    exact splitTopRE_no_comma cs skip seg h
  | c :: cs, 0, seg, h => by
    rw [splitTopRE_zero_cons] at h
    cases ht : topREAt (c :: cs) with
    | some len =>
      rw [ht] at h
      rcases List.mem_cons.1 h with h1 | h1
      · rw [h1]
        exact List.not_mem_nil _
      · exact splitTopRE_no_comma cs _ seg h1
    | none =>
      rw [ht] at h
      have hc : c ≠ ',' := fun e => topREAt_comma cs (e ▸ ht)
      rcases hs : splitTopRE 0 cs with _ | ⟨a, t⟩
      · exact absurd hs (splitTopRE_ne_nil _ _)
      · rw [hs] at h
        rcases List.mem_cons.1 h with h1 | h1
        · rw [h1]
          intro hmem
          rcases List.mem_cons.1 hmem with h2 | h2
          · exact hc h2.symm
          · exact splitTopRE_no_comma cs 0 a (by rw [hs]; exact List.mem_cons_self _ _) h2
        · exact splitTopRE_no_comma cs 0 seg (by rw [hs]; exact List.mem_cons_of_mem _ h1)

/-- The first segment starts where the string starts. -/
theorem splitTopRE_first_head {s : Str} (hs : ∀ x ∈ s.head?, isJsWhiteSpace x = false) :
    ∀ seg ∈ (splitTopRE 0 s).head?, ∀ x ∈ seg.head?, isJsWhiteSpace x = false := by
  intro seg hseg x hx
  cases s with
  | nil =>
    rw [splitTopRE_nil] at hseg
    cases hseg
    cases hx
  | cons c cs =>
    rw [splitTopRE_zero_cons] at hseg
    cases ht : topREAt (c :: cs) with
    | some len =>
      rw [ht] at hseg
      cases hseg
      cases hx
    | none =>
      rw [ht] at hseg
      rcases hs2 : splitTopRE 0 cs with _ | ⟨a, t⟩
      · exact absurd hs2 (splitTopRE_ne_nil _ _)
      · rw [hs2] at hseg
        cases hseg
        have e : c = x := Option.some.inj hx
        rw [← e]
        exact hs c rfl

/-- A segment behind a separator does not start with white space. -/
theorem splitTopRE_tail_head : ∀ (n : Nat) (s : Str), s.length ≤ n →
    ∀ seg ∈ (splitTopRE 0 s).tail, ∀ x ∈ seg.head?, isJsWhiteSpace x = false
  | _, [], _, seg, h => by
    rw [splitTopRE_nil] at h
    exact absurd h (List.not_mem_nil seg)
  | 0, c :: cs, hl, _, _ => by
    rw [List.length_cons] at hl
    omega
  | n + 1, c :: cs, hl, seg, h => by
    rw [List.length_cons] at hl
    cases ht : topREAt (c :: cs) with
    | some len =>
      obtain ⟨U, hlen, _, hsplit⟩ := splitTopRE_at_separator ht
      rw [hsplit, List.tail_cons] at h
      have hlen2 : (U.dropWhile isJsWhiteSpace).length ≤ n := by
        have := (@List.dropWhile_sublist _ U isJsWhiteSpace).length_le
        rw [List.length_cons] at hlen
        omega
      have hdrop : ∀ x ∈ (U.dropWhile isJsWhiteSpace).head?, isJsWhiteSpace x = false := by
        intro x hx
        rcases hd : U.dropWhile isJsWhiteSpace with _ | ⟨y, r⟩
        · rw [hd] at hx
          cases hx
        · rw [hd] at hx
          cases hx
          exact dropWhile_head_not hd
      rcases hs2 : splitTopRE 0 (U.dropWhile isJsWhiteSpace) with _ | ⟨a, t⟩
      · exact absurd hs2 (splitTopRE_ne_nil _ _)
      · rw [hs2] at h
        rcases List.mem_cons.1 h with h1 | h1
        · rw [h1]
          exact splitTopRE_first_head hdrop a (by rw [hs2]; rfl)
        · exact splitTopRE_tail_head n _ hlen2 seg (by rw [hs2]; exact h1)
    | none =>
      rw [splitTopRE_zero_cons, ht] at h
      rcases hs2 : splitTopRE 0 cs with _ | ⟨a, t⟩
      · exact absurd hs2 (splitTopRE_ne_nil _ _)
      · rw [hs2] at h
        exact splitTopRE_tail_head n cs (by omega) seg (by rw [hs2]; exact h)

/-- A split that starts with an empty segment is the split of the empty string
or of a string that starts with a separator. -/
theorem splitTopRE_nil_head {cs : Str} {t : List Str} (h : splitTopRE 0 cs = [] :: t) :
    (cs = [] ∧ t = []) ∨ ∃ n, topREAt cs = some n := by
  cases cs with
  | nil =>
    rw [splitTopRE_nil] at h
    cases h
    exact Or.inl ⟨rfl, rfl⟩
  | cons y ys =>
    cases ht : topREAt (y :: ys) with
    | some n => exact Or.inr ⟨n, rfl⟩
    | none =>
      rw [splitTopRE_zero_cons, ht] at h
      rcases hs2 : splitTopRE 0 ys with _ | ⟨a, t2⟩
      · exact absurd hs2 (splitTopRE_ne_nil _ _)
      · rw [hs2] at h
        cases h

theorem getLast?_cons_of_ne_nil {α : Type} {x : α} {l : List α} (h : l ≠ []) :
    (x :: l).getLast? = l.getLast? := by
  cases l with
  | nil => exact absurd rfl h
  | cons y l => rfl

/-- The last segment ends where the string ends. -/
theorem splitTopRE_last_last : ∀ (n : Nat) (s : Str), s.length ≤ n →
    (∀ x ∈ s.getLast?, isJsWhiteSpace x = false) →
    ∀ seg ∈ (splitTopRE 0 s).getLast?, ∀ x ∈ seg.getLast?, isJsWhiteSpace x = false
  | _, [], _, _, seg, h, x, hx => by
    rw [splitTopRE_nil] at h
    cases h
    cases hx
  | 0, c :: cs, hl, _, _, _, _, _ => by
    rw [List.length_cons] at hl
    omega
  | n + 1, c :: cs, hl, hs, seg, h, x, hx => by
    rw [List.length_cons] at hl
    cases ht : topREAt (c :: cs) with
    | some len =>
      obtain ⟨U, hlen, hsame, hsplit⟩ := splitTopRE_at_separator ht
      have hlen2 : (U.dropWhile isJsWhiteSpace).length ≤ n := by
        have := (@List.dropWhile_sublist _ U isJsWhiteSpace).length_le
        rw [List.length_cons] at hlen
        omega
      have hlast : ∀ y ∈ (U.dropWhile isJsWhiteSpace).getLast?, isJsWhiteSpace y = false := by
        intro y hy
        cases hgl : (c :: cs).getLast? with
        | none => exact absurd (List.getLast?_eq_none_iff.1 hgl) (List.cons_ne_nil _ _)
        | some z =>
          rw [hsame z hgl y hy]
          exact hs z hgl
      rw [hsplit, getLast?_cons_of_ne_nil (splitTopRE_ne_nil _ _)] at h
      exact splitTopRE_last_last n _ hlen2 hlast seg h x hx
    | none =>
      rw [splitTopRE_zero_cons, ht] at h
      rcases hs2 : splitTopRE 0 cs with _ | ⟨a, t⟩
      · exact absurd hs2 (splitTopRE_ne_nil _ _)
      · rw [hs2] at h
        simp only at h
        cases cs with
        | nil =>
          rw [splitTopRE_nil] at hs2
          cases hs2
          rw [List.getLast?_singleton] at h
          cases h
          have e : c = x := Option.some.inj hx
          rw [← e]
          exact hs c rfl
        | cons y ys =>
          have hs3 : ∀ x ∈ (y :: ys).getLast?, isJsWhiteSpace x = false := by
            intro z hz
            exact hs z (by rw [getLast?_tail_of_ne_nil (List.cons_ne_nil _ _)]; exact hz)
          have ih := splitTopRE_last_last n (y :: ys) (by omega) hs3
          rw [hs2] at ih
          cases t with
          | nil =>
            rw [List.getLast?_singleton] at h
            cases h
            cases a with
            | nil =>
              rcases splitTopRE_nil_head hs2 with ⟨e, _⟩ | ⟨m, hm⟩
              · cases e
              · obtain ⟨U, _, _, hsplit⟩ := splitTopRE_at_separator hm
                rw [hs2] at hsplit
                have := splitTopRE_ne_nil 0 (U.dropWhile isJsWhiteSpace)
                cases hsplit2 : splitTopRE 0 (U.dropWhile isJsWhiteSpace) with
                | nil => exact absurd hsplit2 this
                | cons b t3 =>
                  rw [hsplit2] at hsplit
                  cases hsplit
            | cons b a2 =>
              rw [getLast?_tail_of_ne_nil (List.cons_ne_nil _ _)] at hx
              exact ih (b :: a2) rfl x hx
          | cons b t2 =>
            rw [List.getLast?_cons_cons] at h
            exact ih seg h x hx

/-- A segment in front of a separator does not end with white space. -/
theorem splitTopRE_dropLast_last : ∀ (n : Nat) (s : Str), s.length ≤ n →
    ∀ seg ∈ (splitTopRE 0 s).dropLast, ∀ x ∈ seg.getLast?, isJsWhiteSpace x = false
  | _, [], _, seg, h, _, _ => by
    rw [splitTopRE_nil] at h
    exact absurd h (List.not_mem_nil seg)
  | 0, c :: cs, hl, _, _, _, _ => by
    rw [List.length_cons] at hl
    omega
  | n + 1, c :: cs, hl, seg, h, x, hx => by
    rw [List.length_cons] at hl
    cases ht : topREAt (c :: cs) with
    | some len =>
      obtain ⟨U, hlen, _, hsplit⟩ := splitTopRE_at_separator ht
      have hlen2 : (U.dropWhile isJsWhiteSpace).length ≤ n := by
        have := (@List.dropWhile_sublist _ U isJsWhiteSpace).length_le
        rw [List.length_cons] at hlen
        omega
      rw [hsplit, List.dropLast_cons_of_ne_nil (splitTopRE_ne_nil _ _)] at h
      rcases List.mem_cons.1 h with h1 | h1
      · rw [h1] at hx
        cases hx
      · exact splitTopRE_dropLast_last n _ hlen2 seg h1 x hx
    | none =>
      rw [splitTopRE_zero_cons, ht] at h
      rcases hs2 : splitTopRE 0 cs with _ | ⟨a, t⟩
      · exact absurd hs2 (splitTopRE_ne_nil _ _)
      · rw [hs2] at h
        simp only at h
        have ih := splitTopRE_dropLast_last n cs (by omega)
        rw [hs2] at ih
        cases t with
        | nil => exact absurd h (List.not_mem_nil seg)
        | cons b t2 =>
          rw [List.dropLast_cons_of_ne_nil (List.cons_ne_nil _ _)] at h ih
          rcases List.mem_cons.1 h with h1 | h1
          · rw [h1] at hx
            cases a with
            | nil =>
              have e : c = x := Option.some.inj hx
              rw [← e]
              rcases splitTopRE_nil_head hs2 with ⟨_, e2⟩ | ⟨m, hm⟩
              · cases e2
              · cases hw : isJsWhiteSpace c with
                | false => rfl
                | true => exact absurd ht (topREAt_cons_white hw hm)
            | cons y a2 =>
              rw [getLast?_tail_of_ne_nil (List.cons_ne_nil _ _)] at hx
              exact ih (y :: a2) (List.mem_cons_self _ _) x hx
          · exact ih seg (List.mem_cons_of_mem _ h1) x hx

/-- The clauses of a declaration that neither starts nor ends with white space
contain no comma and neither start nor end with white space. -/
theorem splitTopRE_goodClause {d : Str} (hhead : ∀ x ∈ d.head?, isJsWhiteSpace x = false)
    (hlast : ∀ x ∈ d.getLast?, isJsWhiteSpace x = false) :
    ∀ c ∈ splitTopRE 0 d, GoodClause c := by
  intro c hc
  refine ⟨splitTopRE_no_comma d 0 c hc, ?_, ?_⟩
  · rcases hs : splitTopRE 0 d with _ | ⟨a, t⟩
    · exact absurd hs (splitTopRE_ne_nil _ _)
    · rw [hs] at hc
      rcases List.mem_cons.1 hc with h1 | h1
      · rw [h1]
        exact splitTopRE_first_head hhead a (by rw [hs]; rfl)
      · exact splitTopRE_tail_head d.length d (Nat.le_refl _) c (by rw [hs]; exact h1)
  · cases hg : (splitTopRE 0 d).getLast? with
    | none => exact absurd (List.getLast?_eq_none_iff.1 hg) (splitTopRE_ne_nil _ _)
    | some z =>
      have happ := List.dropLast_append_getLast? z hg
      rw [← happ] at hc
      rcases List.mem_append.1 hc with h1 | h1
      · exact splitTopRE_dropLast_last d.length d (Nat.le_refl _) c h1
      · rw [List.mem_singleton.1 h1]
        exact splitTopRE_last_last d.length d (Nat.le_refl _) hlast z hg

/-! ### Compiling the normalized declaration -/

theorem eachOperand_map_serializeClause : ∀ (l T : BindingSpecification),
    (∀ e ∈ l, (_parseBindingOperand [] (serializeClause e.1 e.2)).2 = none ∧
      operandOf (serializeClause e.1 e.2) = e.1 ∧
      (operandSwitch (operandOf (serializeClause e.1 e.2))
        (payloadOf (serializeClause e.1 e.2))).1 = e.2) →
    eachOperand T (l.map (fun e => serializeClause e.1 e.2)) =
      (l.foldl (fun T e => jsObjSet T e.1 e.2) T, none)
  | [], _, _ => rfl
  | e :: l, T, h => by
    obtain ⟨h1, h2, h3⟩ := h e (List.mem_cons_self _ _)
    rw [List.map_cons, List.foldl_cons]
    simp only [eachOperand, parseBindingOperand_of_thrown_none T h1]
    rw [h2] at h3
    rw [h2, h3]
    exact eachOperand_map_serializeClause l _ (fun x hx => h x (List.mem_cons_of_mem _ hx))

/-- C20. Idempotence of the canonical form holds for the declarations whose
clauses have at most one `#` in the payload, that neither start nor end with
white space, and whose specification has an entry: for every such declaration
that compiles, the normalized declaration string of its canonical
specification (operand `:` [model `#`] attributes joined by `+` [`|` filter
tokens joined by `|`], the types of an `events` entry joined by `+`, clauses
joined by `,`) compiles with `_parseBindingDeclaration` to the same canonical
specification. -/
theorem C20_canonical_form_idempotent (d : Str) (spec : BindingSpecification)
    (hcompiles : _parseBindingDeclaration d = .ok spec) (hne : spec ≠ [])
    (hhash : ∀ c ∈ splitTopRE 0 d, (payloadOf c).count '#' ≤ 1)
    (hhead : ∀ x ∈ d.head?, isJsWhiteSpace x = false)
    (hlast : ∀ x ∈ d.getLast?, isJsWhiteSpace x = false) :
    _parseBindingDeclaration (serialize spec) = .ok spec := by
  obtain ⟨hclauses, hspec⟩ := parse_ok_clauses hcompiles
  have hgood := splitTopRE_goodClause hhead hlast
  have hentry : ∀ e ∈ spec, ∃ c ∈ splitTopRE 0 d, serializeClause e.1 e.2 = c ∧
      operandOf c = e.1 ∧ (operandSwitch (operandOf c) (payloadOf c)).1 = e.2 ∧
      e.1 ≠ "__proto__".toList := by
    intro e he
    rw [hspec] at he
    rcases eachOperand_mem _ [] hclauses e he with h1 | ⟨c, hc, h2, h3⟩
    · exact absurd h1 (List.not_mem_nil e)
    · refine ⟨c, hc, ?_, ?_, ?_, ?_⟩
      · rw [h2]
        exact serializeClause_of_clause (hclauses c hc) (hhash c hc)
      · rw [h2]
      · rw [h2]
      · rw [h2]
        exact h3
  have hser : ∀ e ∈ spec, (_parseBindingOperand [] (serializeClause e.1 e.2)).2 = none ∧
      operandOf (serializeClause e.1 e.2) = e.1 ∧
      (operandSwitch (operandOf (serializeClause e.1 e.2))
        (payloadOf (serializeClause e.1 e.2))).1 = e.2 := by
    intro e he
    obtain ⟨c, hc, h1, h2, h3, _⟩ := hentry e he
    rw [h1]
    exact ⟨hclauses c hc, h2, h3⟩
  have hgoodser : ∀ c ∈ spec.map (fun e => serializeClause e.1 e.2), GoodClause c := by
    intro c hc
    obtain ⟨e, he, hce⟩ := List.mem_map.1 hc
    obtain ⟨c2, hc2, h1, _⟩ := hentry e he
    rw [← hce, h1]
    exact hgood c2 hc2
  have hsplit : splitTopRE 0 (serialize spec) = spec.map (fun e => serializeClause e.1 e.2) := by
    unfold serialize
    rcases hm : spec.map (fun e => serializeClause e.1 e.2) with _ | ⟨first, cs⟩
    · exact absurd (List.map_eq_nil_iff.1 hm) hne
    · rw [hm] at hgoodser ⊢
      exact splitTopRE_jsJoin first cs (hgoodser first (List.mem_cons_self _ _))
        (fun c hc => hgoodser c (List.mem_cons_of_mem _ hc))
  have hord : OrderedKeys (spec.map Prod.fst) := by
    rw [hspec]
    exact eachOperand_ordered _ [] List.Pairwise.nil
  have hfold : spec.foldl (fun T e => jsObjSet T e.1 e.2) [] = spec := by
    have := reinsert spec [] (lowerable_of_parse hcompiles).1 hord
      (fun e he => (hentry e he).choose_spec.2.2.2.2)
    rw [List.nil_append] at this
    exact this
  rw [parseBindingDeclaration_eq, hsplit, eachOperand_map_serializeClause spec [] hser, hfold]
/-- C20, at `value:x, events:blur+keyup, 7:z,value:e#a+b|+f|g-`: the canonical
specification has the array-index operand first and the second `value`
clause in the place of the first; its normalized declaration string is
`7:z,value:e#a+b|+f|g-,events:blur+keyup`, which compiles to the same
specification. -/
theorem C20_canonical_form_idempotent_witness :
    ∃ spec : BindingSpecification,
      _parseBindingDeclaration "value:x, events:blur+keyup, 7:z,value:e#a+b|+f|g-".toList =
        .ok spec ∧
      serialize spec = "7:z,value:e#a+b|+f|g-,events:blur+keyup".toList ∧
      _parseBindingDeclaration (serialize spec) = .ok spec :=
  ⟨[("7".toList, { attributes := some ["z".toList] }),
    ("value".toList,
      { model := some "e".toList
        attributes := some ["a".toList, "b".toList]
        filters := some
          [{ name := "f".toList, type := "+".toList, target := "dom".toList },
           { name := "g".toList, type := "-".toList, target := "model".toList }] }),
    ("events".toList, { types := some ["blur".toList, "keyup".toList] })],
   by decide, by decide,
   C20_canonical_form_idempotent
     "value:x, events:blur+keyup, 7:z,value:e#a+b|+f|g-".toList _ (by decide) (by decide)
     (by decide) (by decide) (by decide)⟩

/-- C20, as stated, fails: `value:x,class:b,value:a ` compiles, the last
clause replacing the entry of the first in its place and keeping the trailing
blank in the attribute name; the normalized declaration string of the result
is `value:a ,class:b`, whose comma split takes the blank as part of the
separator, so that compiling it gives the attribute `a` instead of `a `. -/
theorem C20_canonical_form_counterexample :
    _parseBindingDeclaration "value:x,class:b,value:a ".toList =
      .ok [("value".toList, { attributes := some ["a ".toList] }),
           ("class".toList, { attributes := some ["b".toList] })] ∧
    serialize [("value".toList, { attributes := some ["a ".toList] }),
               ("class".toList, { attributes := some ["b".toList] })] =
      "value:a ,class:b".toList ∧
    _parseBindingDeclaration "value:a ,class:b".toList =
      .ok [("value".toList, { attributes := some ["a".toList] }),
           ("class".toList, { attributes := some ["b".toList] })] ∧
    _parseBindingDeclaration
        (serialize [("value".toList, { attributes := some ["a ".toList] }),
                    ("class".toList, { attributes := some ["b".toList] })]) ≠
      .ok [("value".toList, { attributes := some ["a ".toList] }),
           ("class".toList, { attributes := some ["b".toList] })] := by
  have e1 : _parseBindingDeclaration "value:x,class:b,value:a ".toList =
      .ok [("value".toList, { attributes := some ["a ".toList] }),
           ("class".toList, { attributes := some ["b".toList] })] := by decide
  have e2 : serialize [("value".toList, { attributes := some ["a ".toList] }),
               ("class".toList, { attributes := some ["b".toList] })] =
      "value:a ,class:b".toList := by decide
  have e3 : _parseBindingDeclaration "value:a ,class:b".toList =
      .ok [("value".toList, { attributes := some ["a".toList] }),
           ("class".toList, { attributes := some ["b".toList] })] := by decide
  refine ⟨e1, e2, e3, ?_⟩
  rw [e2, e3]
  decide

/-! ## The payloads of `events` and `model` -/

theorem jsSplit_append_singleton (sep : Char) : ∀ s : Str,
    jsSplit sep (s ++ [sep]) = jsSplit sep s ++ [[]]
  | [] => by
    have h : jsSplit sep ([] ++ [sep]) = [[], []] := by
      simp only [List.nil_append, jsSplit, if_true]
    rw [h]
    rfl
  | c :: cs => by
    have ih := jsSplit_append_singleton sep cs
    by_cases h : c = sep
    · subst h
      simp only [List.cons_append, jsSplit, if_true]
      exact congrArg (List.cons []) ih
    · rw [List.cons_append, jsSplit_cons_of_ne h, jsSplit_cons_of_ne h, ih]
      rcases hs : jsSplit sep cs with _ | ⟨a, t⟩
      · exact absurd hs (jsSplit_ne_nil _ _)
      · rfl

theorem parseEventsOperand_eq (spec : OperandSpec) (p : Str) :
    _parseEventsOperandDeclaration spec p =
      ({ spec with types := some (jsSplit '+' p) }, .ok p) := by
  have hlen := jsSplit_length '+' p
  simp only [_parseEventsOperandDeclaration, pushEach_eq, List.nil_append]
  rw [if_neg (by omega)]

theorem parseModelOperand_eq (spec : OperandSpec) (p : Str) :
    _parseModelOperandDeclaration spec p =
      ({ spec with modelNames := some (jsSplit '+' p) }, p) := by
  simp only [_parseModelOperandDeclaration, pushEach_eq, List.nil_append]

/-- C22. For every payload string `p` and every operand object,
`_parseEventsOperandDeclaration` and `_parseModelOperandDeclaration` do not
fail: they return `p` and store `p` split on `+`, unvalidated, as `types` and
as `modelNames`.  The stored sequence is never empty (it has one entry more
than `p` has `+`, and joined by `+` it is `p` again), so the condition of the
branch "no event types in events declaration" is false for every payload and
the dispatcher throws nothing for an `events` clause.  The empty payload gives
one empty entry and a trailing `+` gives an empty last entry: `events:`
compiles to types `[""]`, `events:blur+` to `["blur", ""]`. -/
theorem C22_events_and_model_payloads (spec : OperandSpec) (p : Str) :
    _parseEventsOperandDeclaration spec p =
      ({ spec with types := some (jsSplit '+' p) }, .ok p) ∧
    _parseModelOperandDeclaration spec p =
      ({ spec with modelNames := some (jsSplit '+' p) }, p) ∧
    ¬ (jsSplit '+' p).length < 1 ∧
    (jsSplit '+' p).length = p.count '+' + 1 ∧
    jsJoin '+' (jsSplit '+' p) = p ∧
    operandSwitch "events".toList p = ({ types := some (jsSplit '+' p) }, none) ∧
    (∀ v, (operandSwitch "events".toList p).2 ≠ some (.bindingParse
      ⟨"no event types in events declaration".toList, v⟩)) ∧
    jsSplit '+' ([] : Str) = [[]] ∧
    jsSplit '+' (p ++ ['+']) = jsSplit '+' p ++ [[]] ∧
    _parseBindingDeclaration "events:".toList =
      .ok [("events".toList, { types := some ["".toList] })] ∧
    _parseBindingDeclaration "events:blur+".toList =
      .ok [("events".toList, { types := some ["blur".toList, "".toList] })] := by
  have hlen := jsSplit_length '+' p
  refine ⟨parseEventsOperand_eq spec p, parseModelOperand_eq spec p, by omega, hlen,
    jsJoin_jsSplit '+' p, operandSwitch_events p, ?_, rfl, jsSplit_append_singleton '+' p,
    by decide, by decide⟩
  intro v h
  rw [operandSwitch_events] at h
  cases h

/-! ## The attribute names and the filter tail -/

theorem jsSplit_of_not_mem (sep : Char) (s : Str) (h : sep ∉ s) : jsSplit sep s = [s] :=
  jsSplit_of_count_zero sep s ((not_mem_iff_count_zero sep s).1 h)

/-- The text behind the first separator, for a string that has one. -/
theorem dropWhile_of_mem (sep : Char) : ∀ s : Str, sep ∈ s →
    s.dropWhile (· != sep) = sep :: (s.dropWhile (· != sep)).drop 1
  | [], h => absurd h (List.not_mem_nil _)
  | c :: cs, h => by
    by_cases hc : c = sep
    · subst hc
      rw [List.dropWhile_cons, if_neg (by simp)]
      rfl
    · have hmem : sep ∈ cs := by
        rcases List.mem_cons.1 h with h1 | h1
        · exact absurd h1.symm hc
        · exact h1
      have hb : ((fun x => x != sep) c) = true := by simpa using hc
      rw [List.dropWhile_cons, if_pos hb]
      exact dropWhile_of_mem sep cs hmem

theorem jsSplit_of_mem (sep : Char) (s : Str) (h : sep ∈ s) :
    jsSplit sep s = s.takeWhile (· != sep) :: jsSplit sep ((s.dropWhile (· != sep)).drop 1) := by
  have heq := jsSplit_eq sep s
  have hd := dropWhile_of_mem sep s h
  rw [hd] at heq
  exact heq

theorem split_at_first (sep : Char) (s : Str) (h : sep ∈ s) :
    s = s.takeWhile (· != sep) ++ sep :: (s.dropWhile (· != sep)).drop 1 := by
  have h1 := List.takeWhile_append_dropWhile (· != sep) s
  rw [dropWhile_of_mem sep s h] at h1
  exact h1.symm

theorem parseModelAttribute_eq (spec : OperandSpec) (e : Str) :
    _parseModelAttributeDeclaration spec (some e) =
      ({ spec with attributes := some (jsSplit '+' (e.takeWhile (· != '|'))) },
        .ok (if '|' ∈ e then some ((e.dropWhile (· != '|')).drop 1) else none)) := by
  by_cases h : '|' ∈ e
  · have hs := jsSplit_of_mem '|' e h
    have hne := jsSplit_ne_nil '|' ((e.dropWhile (· != '|')).drop 1)
    rcases ht : jsSplit '|' ((e.dropWhile (· != '|')).drop 1) with _ | ⟨a, t⟩
    · exact absurd ht hne
    · have hj := jsJoin_jsSplit '|' ((e.dropWhile (· != '|')).drop 1)
      rw [ht] at hs hj
      simp only [_parseModelAttributeDeclaration, hs, pushEach_eq, List.nil_append, rest,
        List.length_cons, List.drop_succ_cons, List.drop_zero, hj, if_pos h]
      rw [if_neg (by omega)]
  · have hs := jsSplit_of_not_mem '|' e h
    have htake : e.takeWhile (· != '|') = e := by
      have h2 := jsSplit_eq '|' e
      rw [hs] at h2
      exact (List.cons.inj h2).1.symm
    simp only [_parseModelAttributeDeclaration, hs, pushEach_eq, List.nil_append,
      List.length_singleton, if_true, if_neg h, htake]

/-- The data-bound parser behind the model qualifier: the attribute names and
the filters come from the expression the qualifier returns. -/
theorem parseDataBound_of_expression {spec s1 : OperandSpec} {p e : Str}
    (hq : _parseModelQualifierDeclaration spec p = (s1, some e)) :
    _parseDataBoundOperandDeclaration spec p =
      if '|' ∈ e then
        eachFilter { s1 with attributes := some (jsSplit '+' (e.takeWhile (· != '|'))),
                             filters := some [] }
          (jsSplit '|' ((e.dropWhile (· != '|')).drop 1))
      else ({ s1 with attributes := some (jsSplit '+' (e.takeWhile (· != '|'))) }, none) := by
  by_cases h : '|' ∈ e
  · simp only [_parseDataBoundOperandDeclaration, hq, parseModelAttribute_eq, if_pos h,
      _parseFilterDeclaration]
  · simp only [_parseDataBoundOperandDeclaration, hq, parseModelAttribute_eq, if_neg h,
      _parseFilterDeclaration]
theorem not_mem_takeWhile_ne (sep : Char) (s : Str) : sep ∉ s.takeWhile (· != sep) := by
  intro h
  have h2 := List.mem_takeWhile_imp h
  simp at h2

/-- C21. For every expression `e` that remains after the model qualifier and
every operand object, `_parseModelAttributeDeclaration` sets `attributes` to
the text of `e` before its first `|` split on `+` (every segment kept, in
order) and changes nothing else; it returns `undefined` when `e` has no `|`,
and otherwise the text of `e` after its first `|`, whose split on `|` is the
split of `e` without its first segment.  So the data-bound parser, after a
qualifier that returns `e`, hands exactly these segments, in order, to the
filter loop, and when nothing is thrown `filters` holds one filter
specification per segment, in the order of the segments; without a `|` the
filters are left as they were.  The qualifier returns a string for every
payload.  At `a++b|+f|+f|g-` the attributes are
`["a", "", "b"]` and the filters `f`, `f`, `g`. -/
theorem C21_attributes_and_filter_tail (spec : OperandSpec) (e : Str) :
    (_parseModelAttributeDeclaration spec (some e)).1 =
      { spec with attributes := some (jsSplit '+' (e.takeWhile (· != '|'))) } ∧
    ('|' ∉ e → (_parseModelAttributeDeclaration spec (some e)).2 = .ok none) ∧
    ('|' ∈ e →
      (_parseModelAttributeDeclaration spec (some e)).2 =
        .ok (some ((e.dropWhile (· != '|')).drop 1)) ∧
      e = e.takeWhile (· != '|') ++ '|' :: (e.dropWhile (· != '|')).drop 1 ∧
      '|' ∉ e.takeWhile (· != '|') ∧
      jsSplit '|' ((e.dropWhile (· != '|')).drop 1) = (jsSplit '|' e).tail) ∧
    (∀ (p : Str) (spec0 s1 : OperandSpec),
      _parseModelQualifierDeclaration spec0 p = (s1, some e) →
      (_parseDataBoundOperandDeclaration spec0 p =
        if '|' ∈ e then
          eachFilter { s1 with attributes := some (jsSplit '+' (e.takeWhile (· != '|'))),
                               filters := some [] }
            (jsSplit '|' e).tail
        else ({ s1 with attributes := some (jsSplit '+' (e.takeWhile (· != '|'))) }, none)) ∧
      ((_parseDataBoundOperandDeclaration spec0 p).2 = none →
        (_parseDataBoundOperandDeclaration spec0 p).1.attributes =
          some (jsSplit '+' (e.takeWhile (· != '|'))) ∧
        ('|' ∉ e → (_parseDataBoundOperandDeclaration spec0 p).1.filters = s1.filters) ∧
        ('|' ∈ e → ∃ out, (_parseDataBoundOperandDeclaration spec0 p).1.filters = some out ∧
          List.Forall₂ (fun t f => filterSpecificationOf t = .ok f)
            (jsSplit '|' e).tail out))) ∧
    (∀ (p : Str) (spec0 : OperandSpec),
      ∃ s1 e0, _parseModelQualifierDeclaration spec0 p = (s1, some e0)) ∧
    _parseModelAttributeDeclaration {} (some "a++b|+f|+f|g-".toList) =
      ({ attributes := some ["a".toList, "".toList, "b".toList] },
        .ok (some "+f|+f|g-".toList)) ∧
    _parseDataBoundOperandDeclaration {} "a++b|+f|+f|g-".toList =
      ({ attributes := some ["a".toList, "".toList, "b".toList]
         filters := some
           [{ name := "f".toList, type := "+".toList, target := "dom".toList },
            { name := "f".toList, type := "+".toList, target := "dom".toList },
            { name := "g".toList, type := "-".toList, target := "model".toList }] }, none) := by
  have htail : '|' ∈ e →
      jsSplit '|' ((e.dropWhile (· != '|')).drop 1) = (jsSplit '|' e).tail := by
    intro h
    rw [jsSplit_of_mem '|' e h]
    rfl
  refine ⟨?_, ?_, ?_, ?_, fun p spec0 => parseModelQualifier_returns spec0 p, by decide,
    by decide⟩
  · rw [parseModelAttribute_eq]
  · intro h
    rw [parseModelAttribute_eq, if_neg h]
  · intro h
    refine ⟨?_, split_at_first '|' e h, not_mem_takeWhile_ne '|' e, htail h⟩
    rw [parseModelAttribute_eq, if_pos h]
  · intro p spec0 s1 hq
    have heq := parseDataBound_of_expression hq
    by_cases h : '|' ∈ e
    · rw [if_pos h, htail h] at heq
      refine ⟨by rw [if_pos h]; exact heq, fun hnone => ⟨?_, fun h2 => absurd h h2, fun _ => ?_⟩⟩
      · rw [heq, eachFilter_frame]
      · rw [heq] at hnone ⊢
        obtain ⟨out, h1, _, h3⟩ := eachFilter_filters (jsSplit '|' e).tail
          { s1 with attributes := some (jsSplit '+' (e.takeWhile (· != '|'))),
                    filters := some [] } [] rfl
        exact ⟨out, by rw [h1, List.nil_append], h3 hnone⟩
    · rw [if_neg h] at heq
      refine ⟨by rw [if_neg h]; exact heq, fun _ => ⟨?_, fun _ => ?_, fun h2 => absurd h2 h⟩⟩
      · rw [heq]
      · rw [heq]

/-! ## Empty clauses -/

/-- A string is a part that does not end with white space, followed by white
space. -/
theorem exists_trimEnd : ∀ a : Str, ∃ a0 w, a = a0 ++ w ∧ AllWhite w ∧
    ∀ x, a0.getLast? = some x → isJsWhiteSpace x = false
  | [] => ⟨[], [], rfl, fun x hx => absurd hx (List.not_mem_nil x), fun x hx => by cases hx⟩
  | c :: a => by
    obtain ⟨a0, w, h1, h2, h3⟩ := exists_trimEnd a
    cases a0 with
    | nil =>
      cases hc : isJsWhiteSpace c with
      | true =>
        refine ⟨[], c :: w, by rw [h1]; rfl, ?_, fun x hx => by cases hx⟩
        intro x hx
        rcases List.mem_cons.1 hx with h4 | h4
        · rw [h4]
          exact hc
        · exact h2 x h4
      | false =>
        refine ⟨[c], w, by rw [h1]; rfl, h2, ?_⟩
        intro x hx
        have e : c = x := Option.some.inj hx
        rw [← e]
        exact hc
    | cons y a1 =>
      refine ⟨c :: y :: a1, w, by rw [h1]; rfl, h2, ?_⟩
      intro x hx
      rw [List.getLast?_cons_cons] at hx
      exact h3 x hx

/-- The scan up to the first comma: the text in front of it, without the white
space at its end, is the first clause, and the scan resumes behind the white
space that follows the comma. -/
theorem splitTopRE_first_comma (a U : Str) (h : ',' ∉ a) :
    ∃ a0 w, a = a0 ++ w ∧ AllWhite w ∧
      splitTopRE 0 (a ++ ',' :: U) = a0 :: splitTopRE 0 (U.dropWhile isJsWhiteSpace) := by
  obtain ⟨a0, w, h1, h2, h3⟩ := exists_trimEnd a
  refine ⟨a0, w, h1, h2, ?_⟩
  have hcomma : ',' ∉ a0 := fun hm => h (by rw [h1]; exact List.mem_append_left _ hm)
  rw [h1, List.append_assoc, splitTopRE_clause (w ++ ',' :: U) a0 hcomma h3,
    splitTopRE_separator w U h2]
  simp only [List.append_nil]

theorem splitTopRE_comma (U : Str) :
    splitTopRE 0 (',' :: U) = [] :: splitTopRE 0 (U.dropWhile isJsWhiteSpace) :=
  splitTopRE_separator [] U (fun x hx => absurd hx (List.not_mem_nil x))

theorem dropWhile_append_comma : ∀ (A R : Str),
    (A ++ ',' :: R).dropWhile isJsWhiteSpace = A.dropWhile isJsWhiteSpace ++ ',' :: R
  | [], R => by
    rw [List.nil_append, List.dropWhile_cons,
      if_neg (by rw [isJsWhiteSpace_comma]; exact Bool.false_ne_true)]
    rfl
  | c :: A, R => by
    cases hc : isJsWhiteSpace c with
    | true =>
      rw [List.cons_append, List.dropWhile_cons, if_pos hc, List.dropWhile_cons, if_pos hc]
      exact dropWhile_append_comma A R
    | false =>
      rw [List.cons_append, List.dropWhile_cons,
        if_neg (by rw [hc]; exact Bool.false_ne_true), List.dropWhile_cons,
        if_neg (by rw [hc]; exact Bool.false_ne_true)]
      rfl

theorem length_dropWhile_le (p : Char → Bool) (s : Str) : (s.dropWhile p).length ≤ s.length :=
  (@List.dropWhile_sublist _ s p).length_le

/-- A comma followed by white space only, up to the next comma or to the end of
the declaration, leaves an empty clause. -/
theorem splitTopRE_empty_clause : ∀ (n : Nat) (A : Str), A.length ≤ n →
    ∀ (w R : Str), AllWhite w → (R = [] ∨ ∃ B, R = ',' :: B) →
    [] ∈ splitTopRE 0 (A ++ ',' :: (w ++ R)) := by
  intro n
  induction n with
  | zero =>
    intro A hl w R hw hR
    have hA : A = [] := List.length_eq_zero.1 (Nat.le_zero.1 hl)
    rw [hA, List.nil_append, splitTopRE_comma]
    exact List.mem_cons_self _ _
  | succ n ih =>
    intro A hl w R hw hR
    by_cases hc : ',' ∈ A
    · have hA := split_at_first ',' A hc
      obtain ⟨a0, w0, _, _, hsplit⟩ := splitTopRE_first_comma (A.takeWhile (· != ','))
        ((A.dropWhile (· != ',')).drop 1 ++ ',' :: (w ++ R)) (not_mem_takeWhile_ne ',' A)
      have hlen : (((A.dropWhile (· != ',')).drop 1).dropWhile isJsWhiteSpace).length ≤ n := by
        have h1 := length_dropWhile_le isJsWhiteSpace ((A.dropWhile (· != ',')).drop 1)
        have h2 := congrArg List.length hA
        rw [List.length_append, List.length_cons] at h2
        omega
      have hrec := ih _ hlen w R hw hR
      rw [hA, List.append_assoc, List.cons_append, hsplit, dropWhile_append_comma]
      exact List.mem_cons_of_mem _ hrec
    · obtain ⟨a0, w0, _, _, hsplit⟩ := splitTopRE_first_comma A (w ++ R) hc
      rw [hsplit, dropWhile_white_append hw]
      rcases hR with hR | ⟨B, hR⟩
      · rw [hR]
        exact List.mem_cons_of_mem _ (by rw [List.dropWhile_nil, splitTopRE_nil]; exact List.mem_cons_self _ _)
      · rw [hR, List.dropWhile_cons,
          if_neg (by rw [isJsWhiteSpace_comma]; exact Bool.false_ne_true), splitTopRE_comma]
        exact List.mem_cons_of_mem _ (List.mem_cons_self _ _)

theorem parseBindingOperand_nil (spec : BindingSpecification) :
    _parseBindingOperand spec [] =
      (spec, some (.bindingParse ⟨"binding element formatting error".toList, []⟩)) :=
  parseBindingOperand_of_length (by decide)
theorem parse_of_first_empty {d : Str} {pre post : List Str}
    (hsplit : splitTopRE 0 d = pre ++ [] :: post)
    (hpre : ∀ c ∈ pre, (_parseBindingOperand [] c).2 = none) :
    _parseBindingDeclaration d =
      .error (.bindingParse ⟨"binding element formatting error".toList, []⟩) := by
  have h := eachOperand_first_failure pre [] post []
    (.bindingParse ⟨"binding element formatting error".toList, []⟩) hpre
    (by rw [parseBindingOperand_nil])
  rw [parseBindingDeclaration_eq, hsplit, h]

/-- C23, as the code has it.  For every declaration the comma split gives at
least one clause, and a compile that fails ends with "binding element
formatting error" or "bad filter format": there is no condition of its own for
an empty declaration.  The empty clause fails in the operand dispatcher with
"binding element formatting error" carrying the empty clause, and so does the
compile of the empty string.  A declaration with an empty clause never
compiles; it fails with that condition carrying the empty clause when every
clause in front of the first empty one is dispatched successfully, as always
for a leading comma.  A leading comma, a trailing comma and a doubled comma
(white space around them or not) each give an empty clause. -/
theorem C23_empty_clause (d : Str) :
    splitTopRE 0 d ≠ [] ∧
    (∀ e, _parseBindingDeclaration d = .error e →
      ∃ v, e = .bindingParse ⟨"binding element formatting error".toList, v⟩ ∨
        e = .bindingParse ⟨"bad filter format".toList, v⟩) ∧
    (∀ spec : BindingSpecification, _parseBindingOperand spec [] =
      (spec, some (.bindingParse ⟨"binding element formatting error".toList, []⟩))) ∧
    _parseBindingDeclaration [] =
      .error (.bindingParse ⟨"binding element formatting error".toList, []⟩) ∧
    ([] ∈ splitTopRE 0 d → ∃ e, _parseBindingDeclaration d = .error e) ∧
    (∀ pre post, splitTopRE 0 d = pre ++ [] :: post →
      (∀ c ∈ pre, (_parseBindingOperand [] c).2 = none) →
      _parseBindingDeclaration d =
        .error (.bindingParse ⟨"binding element formatting error".toList, []⟩)) ∧
    (∀ w U, AllWhite w → d = w ++ ',' :: U →
      (splitTopRE 0 d).head? = some [] ∧
      _parseBindingDeclaration d =
        .error (.bindingParse ⟨"binding element formatting error".toList, []⟩)) ∧
    (∀ A w, AllWhite w → d = A ++ ',' :: w → [] ∈ splitTopRE 0 d) ∧
    (∀ A w B, AllWhite w → d = A ++ ',' :: (w ++ ',' :: B) → [] ∈ splitTopRE 0 d) ∧
    _parseBindingDeclaration ",value:a".toList =
      .error (.bindingParse ⟨"binding element formatting error".toList, []⟩) ∧
    _parseBindingDeclaration "value:a,".toList =
      .error (.bindingParse ⟨"binding element formatting error".toList, []⟩) ∧
    _parseBindingDeclaration "value:a , , class:b".toList =
      .error (.bindingParse ⟨"binding element formatting error".toList, []⟩) := by
  refine ⟨splitTopRE_ne_nil 0 d, fun e he => parse_error_message he, parseBindingOperand_nil,
    by decide, ?_, fun pre post hs hpre => parse_of_first_empty hs hpre, ?_, ?_, ?_,
    by decide, by decide, by decide⟩
  · intro hmem
    cases hres : _parseBindingDeclaration d with
    | error e => exact ⟨e, rfl⟩
    | ok spec =>
      have h := (parse_ok_clauses hres).1 [] hmem
      rw [parseBindingOperand_nil] at h
      cases h
  · intro w U hw hd
    have hs : splitTopRE 0 d = [] :: splitTopRE 0 (U.dropWhile isJsWhiteSpace) := by
      rw [hd]
      exact splitTopRE_separator w U hw
    refine ⟨by rw [hs]; rfl, ?_⟩
    exact @parse_of_first_empty d [] _ hs (fun c hc => absurd hc (List.not_mem_nil c))
  · intro A w hw hd
    have h := splitTopRE_empty_clause A.length A (Nat.le_refl _) w [] hw (Or.inl rfl)
    rw [List.append_nil] at h
    rw [hd]
    exact h
  · intro A w B hw hd
    rw [hd]
    exact splitTopRE_empty_clause A.length A (Nat.le_refl _) w (',' :: B) hw (Or.inr ⟨B, rfl⟩)

/-- C23, as stated, fails: `value:a|b,` has a trailing comma and so an empty
clause, yet its compile fails in the filter parser with "bad filter format"
carrying `b`; and `x,,value:a` has a doubled comma, yet its compile fails with
"binding element formatting error" carrying `x`, not the empty clause. -/
theorem C23_empty_clause_counterexample :
    [] ∈ splitTopRE 0 "value:a|b,".toList ∧
    _parseBindingDeclaration "value:a|b,".toList =
      .error (.bindingParse ⟨"bad filter format".toList, "b".toList⟩) ∧
    _parseBindingDeclaration "value:a|b,".toList ≠
      .error (.bindingParse ⟨"binding element formatting error".toList, []⟩) ∧
    [] ∈ splitTopRE 0 "x,,value:a".toList ∧
    _parseBindingDeclaration "x,,value:a".toList =
      .error (.bindingParse ⟨"binding element formatting error".toList, "x".toList⟩) ∧
    _parseBindingDeclaration "x,,value:a".toList ≠
      .error (.bindingParse ⟨"binding element formatting error".toList, []⟩) := by
  have e1 : _parseBindingDeclaration "value:a|b,".toList =
      .error (.bindingParse ⟨"bad filter format".toList, "b".toList⟩) := by decide
  have e2 : _parseBindingDeclaration "x,,value:a".toList =
      .error (.bindingParse ⟨"binding element formatting error".toList, "x".toList⟩) := by
    decide
  refine ⟨by decide, e1, ?_, by decide, e2, ?_⟩
  · rw [e1]
    decide
  · rw [e2]
    decide

end StickItParser
